import Mathlib

/-!
# Boat management: a shallow embedding of `boatManagement.c`

A C string is modelled by the list of its characters (one `Char` per `char`,
the terminating NUL left out).  The global array `boats` together with
`boatCount` is modelled by a `List Boat` whose length is `boatCount`; every
slot points to its own heap cell, so a list of values loses nothing.
-/

namespace BoatManagement

/-! ## Constants -/

/-- Max number of boats allowed. -/
def MAX_BOATS : Nat := 120

/-- Max length for a boat's name. -/
def MAX_NAME : Nat := 128

/-- Max length for input lines. -/
def MAX_LINE : Nat := 256

/-! ## `ctype.h` and `string.h` in the C locale -/

/-- C `isspace`: space, `\t`, `\n`, `\v`, `\f`, `\r`. -/
def isspace (c : Char) : Bool :=
  c.toNat = 32 || (9 ≤ c.toNat && c.toNat ≤ 13)

/-- C `isdigit`. -/
def isdigit (c : Char) : Bool :=
  48 ≤ c.toNat && c.toNat ≤ 57

/-- C `tolower` on the code of an `unsigned char`. -/
def tolower (c : Nat) : Nat :=
  if 65 ≤ c ∧ c ≤ 90 then c + 32 else c

/-- C `strcasecmp`: walk both strings, lower-casing each character, until the
characters differ or the first string ends; the result is the difference of
the two characters last read (the end of a list reads as NUL). -/
def strcasecmp : List Char → List Char → Int
  | [], [] => 0
  | [], b :: _ => 0 - (tolower b.toNat : Int)
  | a :: _, [] => (tolower a.toNat : Int) - 0
  | a :: as, b :: bs =>
    if tolower a.toNat = 0 ∨ tolower a.toNat ≠ tolower b.toNat then
      (tolower a.toNat : Int) - (tolower b.toNat : Int)
    else strcasecmp as bs

/-- Helper function: case-insensitive string comparison wrapper. -/
def caseInsensitiveCompare (a b : List Char) : Int :=
  strcasecmp a b

/-- The loop `while (end > str && isspace(*end)) end--` of `trimWhitespace`,
run on the characters after `*str`, given in reverse order. -/
def trimEndLoop : List Char → List Char
  | [] => []
  | c :: rest => if isspace c then trimEndLoop rest else c :: rest

/-- Helper function `trimWhitespace`, as the effect it has on the caller's
buffer.  The leading-space loop advances only the local copy `str` of the
pointer; when that copy reaches the end the function returns with the buffer
untouched, otherwise a NUL is written after the last non-space character at or
after `str`.  The caller keeps reading the buffer from its old start. -/
def trimWhitespace (buf : List Char) : List Char :=
  let str := buf.dropWhile isspace
  match str with
  | [] => buf
  | c :: rest => buf.takeWhile isspace ++ c :: (trimEndLoop rest.reverse).reverse

/-- C `strncpy(dst, src, n)`: at most `n` characters of `src` are copied (a
shorter `src` is followed by NULs). -/
def strncpy (src : List Char) (n : Nat) : List Char :=
  src.take n

/-- The assignment `buf[i] = '\0'`: the string now ends before position `i`. -/
def terminateAt (buf : List Char) (i : Nat) : List Char :=
  buf.take i

/-- One call of `strtok(_, ",")` on the not yet consumed part of the buffer:
skip leading delimiters, return the token up to the next delimiter and the
part of the buffer after that delimiter, or `none` (NULL) when nothing but
delimiters is left. -/
def strtok (s : List Char) : Option (List Char × List Char) :=
  match s.dropWhile (fun c => c == ',') with
  | [] => none
  | c :: rest =>
    some ((c :: rest).takeWhile (fun c => c != ','),
          ((c :: rest).dropWhile (fun c => c != ',')).drop 1)

/-- Value of a run of decimal digits. -/
def digitsValue (ds : List Char) : Nat :=
  ds.foldl (fun acc c => 10 * acc + (c.toNat - 48)) 0

/-- Conversion of a `long` to `int` (two's complement, 32 bits). -/
def wrapInt (v : Int) : Int :=
  (v + 2 ^ 31) % 2 ^ 32 - 2 ^ 31

/-- Optional sign in front of a number: the flag tells a minus sign. -/
def takeSign : List Char → Bool × List Char
  | '-' :: t => (true, t)
  | '+' :: t => (false, t)
  | s => (false, s)

/-- C `atoi`, that is `(int) strtol(s, NULL, 10)`: skip white space, read an
optional sign and the longest run of digits, saturate at the range of `long`
(64 bits) and convert to `int`.  No digits give 0. -/
def atoi (s : List Char) : Int :=
  let p := takeSign (s.dropWhile isspace)
  let n : Int := digitsValue (p.2.takeWhile isdigit)
  let v : Int := if p.1 then -n else n
  wrapInt (max (-(2 ^ 63)) (min v (2 ^ 63 - 1)))

/-! ## Record model -/

/-- Enumeration for boat types. -/
inductive BoatType where
  | SLIP
  | LAND
  | TRAILOR
  | STORAGE
  deriving DecidableEq, Repr

/-- Convert a string to `BoatType`. -/
def getBoatTypeFromString (typeStr : List Char) : BoatType :=
  if strcasecmp typeStr "slip".toList = 0 then BoatType.SLIP
  else if strcasecmp typeStr "land".toList = 0 then BoatType.LAND
  else if strcasecmp typeStr "trailor".toList = 0 then BoatType.TRAILOR
  else if strcasecmp typeStr "storage".toList = 0 then BoatType.STORAGE
  else BoatType.SLIP

/-- Convert `BoatType` to string for CSV output. -/
def boatTypeToString : BoatType → List Char
  | BoatType.SLIP => "slip".toList
  | BoatType.LAND => "land".toList
  | BoatType.TRAILOR => "trailor".toList
  | BoatType.STORAGE => "storage".toList

/-! ## IEEE 754 binary64 (`double`), round to nearest, ties to even -/

/-- A `double`.  `finite s m e` stands for `(-1)^s * m * 2^e`; the values the
operations below produce are in canonical form: `m < 2^53`,
`-1074 ≤ e ≤ 971`, and `2^52 ≤ m` unless `e = -1074` (subnormals and the two
zeros).  Of a NaN only the sign bit is kept (the payload is observed
nowhere); the sign bit is what `printf` shows as `nan` or `-nan`.  NaNs
follow the SSE2 arithmetic of x86-64: an invalid operation gives the default
NaN, whose sign bit is set, and a NaN operand is passed on unchanged (the
first one when both operands are NaN). -/
inductive Double where
  | finite (sign : Bool) (m : Nat) (e : Int)
  | inf (sign : Bool)
  | nan (sign : Bool)
  deriving DecidableEq, Repr

namespace Double

/-- The pair `(n * 2^e, d)` or `(n, d * 2^(-e))`: the fraction `n / d` scaled
by `2^(-e)`. -/
def scale (n d : Nat) (e : Int) : Nat × Nat :=
  if 0 ≤ e then (n, d * 2 ^ e.toNat) else (n * 2 ^ (-e).toNat, d)

/-- Number of binary digits of `n`, by repeated halving (`fuel` bounds the
number of halvings). -/
def bitLength : Nat → Nat → Nat
  | 0, _ => 0
  | fuel + 1, n => if n = 0 then 0 else bitLength fuel (n / 2) + 1

/-- Floor of the binary logarithm of `n` (0 for `n = 0`). -/
def log2 (n : Nat) : Nat :=
  bitLength n n - 1

/-- The integer nearest to `n / d`, ties to the even one. -/
def roundHalfEven (n d : Nat) : Nat :=
  if d < 2 * (n % d) ∨ (2 * (n % d) = d ∧ n / d % 2 = 1) then n / d + 1 else n / d

/-- Correctly rounded `double` of the rational `(-1)^sign * n / d` (`d > 0`):
choose the exponent that leaves 53 significant bits (not below the subnormal
exponent), round the quotient to nearest with ties to even, renormalise, and
overflow to infinity. -/
def round (sign : Bool) (n d : Nat) : Double :=
  if n = 0 then finite sign 0 (-1074)
  else
    let e0 : Int := (log2 n : Int) - (log2 d : Int) - 52
    let e1 : Int := if (scale n d e0).1 / (scale n d e0).2 < 2 ^ 52 then e0 - 1 else e0
    let e : Int := max e1 (-1074)
    let m := roundHalfEven (scale n d e).1 (scale n d e).2
    let m1 := if m = 2 ^ 53 then 2 ^ 52 else m
    let e2 := if m = 2 ^ 53 then e + 1 else e
    if 971 < e2 then inf sign else finite sign m1 e2

/-- Correctly rounded `double` of `(-1)^sign * n * 2^e`. -/
def roundPow2 (sign : Bool) (n : Nat) (e : Int) : Double :=
  if 0 ≤ e then round sign (n * 2 ^ e.toNat) 1 else round sign n (2 ^ (-e).toNat)

/-- Conversion of an `int` to `double` (exact for 32-bit integers). -/
def ofInt (i : Int) : Double :=
  round (decide (i < 0)) i.natAbs 1

/-- Signed mantissa of a finite value brought to the exponent `E ≤ e`. -/
def mantAt (sign : Bool) (m : Nat) (e E : Int) : Int :=
  (if sign then -(m : Int) else (m : Int)) * 2 ^ (e - E).toNat

/-- Negation: flips the sign bit. -/
def neg : Double → Double
  | finite s m e => finite (!s) m e
  | inf s => inf (!s)
  | nan s => nan (!s)

/-- Addition of two `double`s. -/
def add : Double → Double → Double
  | nan s, _ => nan s
  | _, nan s => nan s
  | inf s1, inf s2 => if s1 = s2 then inf s1 else nan true
  | inf s1, finite _ _ _ => inf s1
  | finite _ _ _, inf s2 => inf s2
  | finite s1 m1 e1, finite s2 m2 e2 =>
    let E := min e1 e2
    let x : Int := mantAt s1 m1 e1 E + mantAt s2 m2 e2 E
    if x = 0 then finite (s1 && s2) 0 (-1074)
    else roundPow2 (decide (x < 0)) x.natAbs E

/-- Subtraction of two `double`s: a NaN operand is passed on as it is,
otherwise the difference is the sum with the negated second operand. -/
def sub : Double → Double → Double
  | nan s, _ => nan s
  | _, nan s => nan s
  | a, b => add a (neg b)

/-- Multiplication of two `double`s. -/
def mul : Double → Double → Double
  | nan s, _ => nan s
  | _, nan s => nan s
  | inf s1, inf s2 => inf (xor s1 s2)
  | inf s1, finite s2 m2 _ => if m2 = 0 then nan true else inf (xor s1 s2)
  | finite s1 m1 _, inf s2 => if m1 = 0 then nan true else inf (xor s1 s2)
  | finite s1 m1 e1, finite s2 m2 e2 => roundPow2 (xor s1 s2) (m1 * m2) (e1 + e2)

/-- The comparison `a < b` of two `double`s (false when either is NaN). -/
def lt : Double → Double → Bool
  | nan _, _ => false
  | _, nan _ => false
  | inf s1, inf s2 => s1 && !s2
  | inf s1, finite _ _ _ => s1
  | finite _ _ _, inf s2 => !s2
  | finite s1 m1 e1, finite s2 m2 e2 =>
    decide (mantAt s1 m1 e1 (min e1 e2) < mantAt s2 m2 e2 (min e1 e2))

/-- The comparison `a <= b` of two `double`s (false when either is NaN). -/
def le : Double → Double → Bool
  | nan _, _ => false
  | _, nan _ => false
  | inf s1, inf s2 => s1 || !s2
  | inf s1, finite _ _ _ => s1
  | finite _ _ _, inf s2 => !s2
  | finite s1 m1 e1, finite s2 m2 e2 =>
    decide (mantAt s1 m1 e1 (min e1 e2) ≤ mantAt s2 m2 e2 (min e1 e2))

/-- The comparison `a > b`. -/
def gt (a b : Double) : Bool :=
  lt b a

end Double

/-! ## `stdlib.h` and `stdio.h` conversions of `double` and `int` -/

/-- C `isxdigit`. -/
def isxdigit (c : Char) : Bool :=
  isdigit c || (97 ≤ tolower c.toNat && tolower c.toNat ≤ 102)

/-- Value of a run of hexadecimal digits. -/
def hexValue (ds : List Char) : Nat :=
  ds.foldl (fun acc c => 16 * acc + (if isdigit c then c.toNat - 48 else tolower c.toNat - 87)) 0

/-- Test that `s` begins, in any letter case, with the lower-case word `w`. -/
def startsWithNoCase (s w : List Char) : Bool :=
  (s.take w.length).map (fun c => tolower c.toNat) == w.map Char.toNat

/-- The optional exponent part of a number: the marker letter (`e` or `p`,
given by its lower-case code), an optional sign and at least one decimal
digit.  Anything else is no exponent and counts as 0. -/
def exponentPart (t : List Char) (marker : Nat) : Int :=
  match t with
  | [] => 0
  | c :: u =>
    if tolower c.toNat = marker then
      if ((takeSign u).2.takeWhile isdigit).isEmpty then 0
      else if (takeSign u).1 then -(digitsValue ((takeSign u).2.takeWhile isdigit) : Int)
      else (digitsValue ((takeSign u).2.takeWhile isdigit) : Int)
    else 0

/-- Digits after an optional point that follows the integer digits. -/
def fractionDigits (isDig : Char → Bool) : List Char → List Char
  | '.' :: u => u.takeWhile isDig
  | _ => []

/-- What is left after the optional point and its digits. -/
def afterFraction (isDig : Char → Bool) : List Char → List Char
  | '.' :: u => u.dropWhile isDig
  | t => t

/-- Decimal branch of `strtod`: digits, optional point and digits, optional
exponent; without any digit there is no conversion and the result is `0.0`. -/
def strtodDecimal (sign : Bool) (t : List Char) : Double :=
  let ip := t.takeWhile isdigit
  let fp := fractionDigits isdigit (t.dropWhile isdigit)
  if ip.isEmpty && fp.isEmpty then Double.finite false 0 (-1074)
  else
    let x : Int := exponentPart (afterFraction isdigit (t.dropWhile isdigit)) 101 - fp.length
    if 0 ≤ x then Double.round sign (digitsValue (ip ++ fp) * 10 ^ x.toNat) 1
    else Double.round sign (digitsValue (ip ++ fp)) (10 ^ (-x).toNat)

/-- Hexadecimal branch of `strtod`, on the text after `0x`. -/
def strtodHex (sign : Bool) (t : List Char) : Double :=
  let ip := t.takeWhile isxdigit
  let fp := fractionDigits isxdigit (t.dropWhile isxdigit)
  Double.roundPow2 sign (hexValue (ip ++ fp))
    (exponentPart (afterFraction isxdigit (t.dropWhile isxdigit)) 112 - 4 * fp.length)

/-- Test that the text after `0x` starts a hexadecimal number: a hexadecimal
digit, or a point followed by one. -/
def hexStart : List Char → Bool
  | '.' :: c :: _ => isxdigit c
  | c :: _ => isxdigit c
  | [] => false

/-- C `atof`, that is `strtod(s, NULL)` of glibc in the C locale: skip white
space, read an optional sign, then `inf`, `nan`, a hexadecimal or a decimal
number; the value is correctly rounded and the sign read is also the sign bit
of a NaN.  Unrecognised text gives `0.0`. -/
def atof (s : List Char) : Double :=
  let p := takeSign (s.dropWhile isspace)
  if startsWithNoCase p.2 "inf".toList then Double.inf p.1
  else if startsWithNoCase p.2 "nan".toList then Double.nan p.1
  else
    match p.2 with
    | '0' :: x :: t =>
      if tolower x.toNat = 120 && hexStart t then strtodHex p.1 t else strtodDecimal p.1 p.2
    | _ => strtodDecimal p.1 p.2

/-- Decimal digit character of `d < 10`. -/
def digitChar (d : Nat) : Char :=
  Char.ofNat (48 + d)

/-- Decimal digits of `n`, most significant first (`fuel` bounds their
number). -/
def decimalDigits : Nat → Nat → List Char
  | 0, _ => []
  | fuel + 1, n =>
    if n < 10 then [digitChar n] else decimalDigits fuel (n / 10) ++ [digitChar (n % 10)]

/-- Decimal numeral of a natural number. -/
def natToDecimal (n : Nat) : List Char :=
  decimalDigits (n + 1) n

/-- The conversion `%d` of `printf`. -/
def printInt (i : Int) : List Char :=
  if i < 0 then '-' :: natToDecimal i.natAbs else natToDecimal i.natAbs

/-- The conversion `%.2f` of `printf`: the exact value rounded to two decimals
(to nearest, ties to even), with the sign bit shown also on zero and on a
NaN. -/
def printFixed2 : Double → List Char
  | Double.nan s => (if s then ['-'] else []) ++ "nan".toList
  | Double.inf s => (if s then ['-'] else []) ++ "inf".toList
  | Double.finite s m e =>
    let k := Double.roundHalfEven (Double.scale (m * 100) 1 (-e)).1 (Double.scale (m * 100) 1 (-e)).2
    (if s then ['-'] else []) ++ natToDecimal (k / 100) ++
      ['.', digitChar (k % 100 / 10), digitChar (k % 10)]

/-! ## The boat record and the store -/

/-- The union `info` of a boat: one arm per boat type. -/
inductive Info where
  | slipNumber (n : Int)
  | bay (c : Char)
  | trailerTag (tag : List Char)
  | storageNumber (n : Int)
  deriving DecidableEq, Repr

/-- Structure for each boat. -/
structure Boat where
  name : List Char
  length : Int
  type : BoatType
  info : Info
  amountOwed : Double
  deriving DecidableEq, Repr

/-- Insertion position found by the first loop of `insertBoatSorted`: the
number of leading boats whose name compares below the new name. -/
def insertPos (newName : List Char) : List Boat → Nat
  | [] => 0
  | b :: rest =>
    if caseInsensitiveCompare b.name newName < 0 then insertPos newName rest + 1 else 0

/-- Insert a boat into the array maintaining sorted order by name
(case-insensitive): find the position, shift the boats from there on one slot
up, store the new boat. -/
def insertBoatSorted (boats : List Boat) (newBoat : Boat) : List Boat :=
  boats.take (insertPos newBoat.name boats) ++ newBoat :: boats.drop (insertPos newBoat.name boats)

/-- The switch of `addBoat` that fills the arm of the union chosen by the
type. -/
def makeInfo (type : BoatType) (specificField : List Char) : Info :=
  match type with
  | BoatType.SLIP => Info.slipNumber (atoi specificField)
  | BoatType.LAND => Info.bay (specificField.headD (Char.ofNat 0))
  | BoatType.TRAILOR => Info.trailerTag specificField
  | BoatType.STORAGE => Info.storageNumber (atoi specificField)

/-- The parsing part of `addBoat`: copy the line, cut it into five tokens at
commas and build the new boat; `none` stands for the early returns taken when
a token is missing. -/
def parseBoat (csvLine : List Char) : Option Boat :=
  match strtok (terminateAt (strncpy csvLine MAX_LINE) (MAX_LINE - 1)) with
  | none => none
  | some (token1, rest1) =>
    match strtok rest1 with
    | none => none
    | some (token2, rest2) =>
      match strtok rest2 with
      | none => none
      | some (token3, rest3) =>
        match strtok rest3 with
        | none => none
        | some (token4, rest4) =>
          match strtok rest4 with
          | none => none
          | some (token5, _) =>
            some
              { name := strncpy (trimWhitespace (terminateAt (strncpy token1 MAX_NAME) (MAX_NAME - 1))) MAX_NAME
                length := atoi token2
                type := getBoatTypeFromString (trimWhitespace token3)
                info := makeInfo (getBoatTypeFromString (trimWhitespace token3))
                  (terminateAt (strncpy (trimWhitespace token4) MAX_LINE) (MAX_LINE - 1))
                amountOwed := atof token5 }

/-- Parse CSV string and add a boat to the inventory.
CSV format: name,length,type,specific,amountOwed. -/
def addBoat (boats : List Boat) (csvLine : List Char) : List Boat :=
  if boats.length ≥ MAX_BOATS then boats
  else
    match parseBoat csvLine with
    | none => boats
    | some newBoat => insertBoatSorted boats newBoat

/-- The loop of `findBoatIndexByName`, started at index `i`. -/
def findFrom (name : List Char) : List Boat → Nat → Int
  | [], _ => -1
  | b :: rest, i =>
    if caseInsensitiveCompare b.name name = 0 then (i : Int) else findFrom name rest (i + 1)

/-- Find boat index by name (case-insensitive); returns -1 if not found. -/
def findBoatIndexByName (boats : List Boat) (name : List Char) : Int :=
  findFrom name boats 0

/-- The statement `buf[strcspn(buf, "\n")] = 0`: the string is cut at its
first newline. -/
def cutNewline (buf : List Char) : List Char :=
  buf.takeWhile (fun c => c != '\n')

/-- The name prompt shared by `removeBoat` and `acceptPayment`: the buffer
filled by `fgets` is cut at the first newline and passed to
`trimWhitespace`. -/
def readName (buf : List Char) : List Char :=
  trimWhitespace (cutNewline buf)

/-- Remove a boat by name.  `input` is what `fgets` stored for the name
prompt, `none` at end of input.  The boats after the found index move one slot
down and the count drops by one. -/
def removeBoat (boats : List Boat) (input : Option (List Char)) : List Boat :=
  match input with
  | none => boats
  | some buf =>
    if findBoatIndexByName boats (readName buf) < 0 then boats
    else
      boats.take (findBoatIndexByName boats (readName buf)).toNat ++
        boats.drop ((findBoatIndexByName boats (readName buf)).toNat + 1)

/-- Accept a payment for a boat.  `nameInput` and `amountInput` are what
`fgets` stored for the two prompts, `none` at end of input. -/
def acceptPayment (boats : List Boat) (nameInput amountInput : Option (List Char)) : List Boat :=
  match nameInput with
  | none => boats
  | some buf =>
    if findBoatIndexByName boats (readName buf) < 0 then boats
    else
      match boats[(findBoatIndexByName boats (readName buf)).toNat]? with
      | none => boats
      | some b =>
        match amountInput with
        | none => boats
        | some amtStr =>
          if Double.gt (atof amtStr) b.amountOwed then boats
          else
            boats.set (findBoatIndexByName boats (readName buf)).toNat
              { b with amountOwed := Double.sub b.amountOwed (atof amtStr) }

/-- Rate per foot per month for a slip: the literal `12.50`. -/
def rateSlip : Double := Double.round false 1250 100

/-- Rate per foot per month on land: the literal `14.00`. -/
def rateLand : Double := Double.round false 1400 100

/-- Rate per foot per month on a trailer: the literal `25.00`. -/
def rateTrailor : Double := Double.round false 2500 100

/-- Rate per foot per month in storage: the literal `11.20`. -/
def rateStorage : Double := Double.round false 1120 100

/-- The fee computed by the switch of `updateMonthlyFees` for one boat. -/
def monthlyFee (b : Boat) : Double :=
  match b.type with
  | BoatType.SLIP => Double.mul (Double.ofInt b.length) rateSlip
  | BoatType.LAND => Double.mul (Double.ofInt b.length) rateLand
  | BoatType.TRAILOR => Double.mul (Double.ofInt b.length) rateTrailor
  | BoatType.STORAGE => Double.mul (Double.ofInt b.length) rateStorage

/-- Update the amount owed for all boats for every new month. -/
def updateMonthlyFees (boats : List Boat) : List Boat :=
  boats.map (fun b => { b with amountOwed := Double.add b.amountOwed (monthlyFee b) })

/-- The rate table of `updateMonthlyFees`, by boat type. -/
def rate : BoatType → Double
  | BoatType.SLIP => rateSlip
  | BoatType.LAND => rateLand
  | BoatType.TRAILOR => rateTrailor
  | BoatType.STORAGE => rateStorage

/-! ## Writing the store -/

/-- Read of the `int` arms `info.slipNumber` and `info.storageNumber`, which
share their storage.  Reading an arm other than the one written is not defined
by the source; the model gives 0 there. -/
def Info.number : Info → Int
  | Info.slipNumber n => n
  | Info.storageNumber n => n
  | _ => 0

/-- Read of the arm `info.bay` (NUL when another arm was written). -/
def Info.bayChar : Info → Char
  | Info.bay c => c
  | _ => Char.ofNat 0

/-- Read of the arm `info.trailerTag` (empty when another arm was written). -/
def Info.tag : Info → List Char
  | Info.trailerTag t => t
  | _ => []

/-- The line `saveBoatData` writes for one boat: the `fprintf` of the arm of
its switch chosen by the boat type, final newline included. -/
def saveLine (b : Boat) : List Char :=
  match b.type with
  | BoatType.SLIP =>
    b.name ++ [','] ++ printInt b.length ++ ",slip,".toList ++ printInt b.info.number ++ [','] ++
      printFixed2 b.amountOwed ++ ['\n']
  | BoatType.LAND =>
    b.name ++ [','] ++ printInt b.length ++ ",land,".toList ++ [b.info.bayChar] ++ [','] ++
      printFixed2 b.amountOwed ++ ['\n']
  | BoatType.TRAILOR =>
    b.name ++ [','] ++ printInt b.length ++ ",trailor,".toList ++ b.info.tag ++ [','] ++
      printFixed2 b.amountOwed ++ ['\n']
  | BoatType.STORAGE =>
    b.name ++ [','] ++ printInt b.length ++ ",storage,".toList ++ printInt b.info.number ++ [','] ++
      printFixed2 b.amountOwed ++ ['\n']

/-- The payload is the arm of the boat type and its text fits one field of
the file: numbers in the range of `int`, a bay other than comma, newline and
NUL, a tag that is non-empty, free of commas and newlines and left alone by
`trimWhitespace`. -/
def payloadStorable : BoatType → Info → Prop
  | BoatType.SLIP, Info.slipNumber n => -2 ^ 31 ≤ n ∧ n < 2 ^ 31
  | BoatType.LAND, Info.bay c => c ≠ ',' ∧ c ≠ '\n' ∧ c.toNat ≠ 0
  | BoatType.TRAILOR, Info.trailerTag t =>
    t ≠ [] ∧ ',' ∉ t ∧ '\n' ∉ t ∧ trimWhitespace t = t
  | BoatType.STORAGE, Info.storageNumber n => -2 ^ 31 ≤ n ∧ n < 2 ^ 31
  | _, _ => False

instance (t : BoatType) (i : Info) : Decidable (payloadStorable t i) := by
  cases t <;> cases i <;> simp only [payloadStorable] <;> infer_instance

/-- A boat the file format can hold: the name is non-empty, free of commas
and newlines, left alone by `trimWhitespace` and fits the name buffer; the
length is in the range of `int`; the payload is storable; and the written line
(newline included) fits the line buffer. -/
def Storable (b : Boat) : Prop :=
  b.name ≠ [] ∧ ',' ∉ b.name ∧ '\n' ∉ b.name ∧ trimWhitespace b.name = b.name ∧
    b.name.length ≤ 127 ∧ -2 ^ 31 ≤ b.length ∧ b.length < 2 ^ 31 ∧
    payloadStorable b.type b.info ∧ (saveLine b).length ≤ 256

instance (b : Boat) : Decidable (Storable b) := by
  unfold Storable
  infer_instance

/-- The file `saveBoatData` writes: one line per boat, in store order. -/
def saveBoatData (boats : List Boat) : List Char :=
  (boats.map saveLine).flatten

/-! ## Loading the store -/

/-- The body of the loop of `loadBoatData` for one buffer filled by `fgets`:
remove the newline, skip an empty line, otherwise hand the line to
`addBoat`. -/
def loadStep (boats : List Boat) (buf : List Char) : List Boat :=
  if (cutNewline buf).length = 0 then boats else addBoat boats (cutNewline buf)

/-- Load boat data from CSV file; `bufs` are the buffers `fgets` fills until
the end of the file. -/
def loadBoatData (boats : List Boat) (bufs : List (List Char)) : List Boat :=
  bufs.foldl loadStep boats

/-- Adding lines one by one with `addBoat`. -/
def addLines (boats : List Boat) (lines : List (List Char)) : List Boat :=
  lines.foldl addBoat boats

/-! ## The store as a state machine -/

/-- One operation of the menu on the store, with the text it reads. -/
inductive Op where
  | add (csvLine : List Char)
  | remove (input : Option (List Char))
  | payment (nameInput amountInput : Option (List Char))
  | month

/-- Effect of one operation on the store. -/
def step (boats : List Boat) : Op → List Boat
  | Op.add csvLine => addBoat boats csvLine
  | Op.remove input => removeBoat boats input
  | Op.payment nameInput amountInput => acceptPayment boats nameInput amountInput
  | Op.month => updateMonthlyFees boats

/-- The store after a sequence of operations. -/
def run (boats : List Boat) (ops : List Op) : List Boat :=
  ops.foldl step boats

/-- The order of the store: the first name compares at or below the second. -/
def nameLe (a b : Boat) : Prop :=
  caseInsensitiveCompare a.name b.name ≤ 0

/-- The strict order of the store: the first name compares below the second. -/
def nameLt (a b : Boat) : Prop :=
  caseInsensitiveCompare a.name b.name < 0

/-- The names of the two boats differ, also when case is ignored. -/
def nameDiffers (a b : Boat) : Prop :=
  caseInsensitiveCompare a.name b.name ≠ 0

instance (a b : Boat) : Decidable (nameDiffers a b) :=
  inferInstanceAs (Decidable (caseInsensitiveCompare a.name b.name ≠ 0))

/-- The store is sorted: every boat compares at or below its successor by
name, case-insensitively. -/
def SortedByName (boats : List Boat) : Prop :=
  boats.Chain' (fun a b => caseInsensitiveCompare a.name b.name ≤ 0)

instance (a b : Boat) : Decidable (nameLe a b) :=
  inferInstanceAs (Decidable (caseInsensitiveCompare a.name b.name ≤ 0))

/-- Executable check of `SortedByName`: compare each boat with the next. -/
def isSortedByName : List Boat → Bool
  | [] => true
  | [_] => true
  | a :: b :: rest =>
    decide (caseInsensitiveCompare a.name b.name ≤ 0) && isSortedByName (b :: rest)

instance (boats : List Boat) : Decidable (SortedByName boats) :=
  decidable_of_iff (isSortedByName boats = true) (by
    unfold SortedByName
    induction boats with
    | nil => simp [isSortedByName]
    | cons a t ih =>
      cases t with
      | nil => simp [isSortedByName]
      | cons b rest =>
        rw [List.chain'_cons, ← ih]
        simp [isSortedByName])

/-- Index `i` is the first slot of the store whose name equals `name`,
ignoring case: the boat there compares equal and no earlier boat does. -/
def FirstMatch (boats : List Boat) (name : List Char) (i : Nat) : Prop :=
  (∃ b, boats[i]? = some b ∧ caseInsensitiveCompare b.name name = 0) ∧
    ∀ j b, j < i → boats[j]? = some b → caseInsensitiveCompare b.name name ≠ 0

/-- Spec-side notion of the comma-separated fields of a line: the pieces
between consecutive commas, empty pieces included. -/
def splitFields : List Char → List (List Char)
  | [] => [[]]
  | c :: rest =>
    if c = ',' then [] :: splitFields rest
    else
      match splitFields rest with
      | [] => [[c]]
      | f :: fs => (c :: f) :: fs

/-! ## Sample data -/

/-- A store of 120 copies of one boat, used to exercise the capacity guard. -/
def fullStore : List Boat :=
  List.replicate 120
    { name := ['A'], length := 1, type := BoatType.SLIP, info := Info.slipNumber 1,
      amountOwed := Double.finite false 0 (-1074) }

/-- The boat of the line `Alpha,20,land,B,50.00`. -/
def alpha : Boat :=
  { name := "Alpha".toList, length := 20, type := BoatType.LAND, info := Info.bay 'B',
    amountOwed := Double.finite false 7036874417766400 (-47) }

/-- The boat of the line `Betty,30,slip,2,100.00`. -/
def betty : Boat :=
  { name := "Betty".toList, length := 30, type := BoatType.SLIP, info := Info.slipNumber 2,
    amountOwed := Double.finite false 7036874417766400 (-46) }

/-- The store of the worked example after the two additions. -/
def sampleStore : List Boat :=
  [alpha, betty]

/-- The boat of the line `Gull,7,storage,3,0.05`. -/
def gull : Boat :=
  { name := "Gull".toList, length := 7, type := BoatType.STORAGE, info := Info.storageNumber 3,
    amountOwed := Double.finite false 7205759403792794 (-57) }

/-- The boat of the line `Gull,7,storage,3,0.001`. -/
def gullMilli : Boat :=
  { name := "Gull".toList, length := 7, type := BoatType.STORAGE, info := Info.storageNumber 3,
    amountOwed := Double.finite false 4611686018427388 (-62) }

/-! ## Spec-side notions for lines and fields -/

/-- The tokens of a line: its non-empty comma-separated fields, in order. -/
def tokens (s : List Char) : List (List Char) :=
  (splitFields s).filter (fun f => !f.isEmpty)

/-- The boat `addBoat` builds from five tokens (lines 190 to 241). -/
def boatOfFields (f1 f2 f3 f4 f5 : List Char) : Boat :=
  { name := strncpy (trimWhitespace (terminateAt (strncpy f1 MAX_NAME) (MAX_NAME - 1))) MAX_NAME
    length := atoi f2
    type := getBoatTypeFromString (trimWhitespace f3)
    info := makeInfo (getBoatTypeFromString (trimWhitespace f3))
      (terminateAt (strncpy (trimWhitespace f4) MAX_LINE) (MAX_LINE - 1))
    amountOwed := atof f5 }

/-- The line made of the given fields, separated by single commas. -/
def joinFields : List (List Char) → List Char
  | [] => []
  | [f] => f
  | f :: g :: rest => f ++ ',' :: joinFields (g :: rest)

/-- The line obtained by deleting the empty fields of a line. -/
def deleteEmptyFields (line : List Char) : List Char :=
  joinFields (tokens line)

/-- The `double` `0.0`. -/
def Double.zero : Double :=
  Double.finite false 0 (-1074)

/-- The value is a number: neither NaN nor an infinity. -/
def Double.isNumber : Double → Bool
  | Double.finite _ _ _ => true
  | _ => false

/-- The exponent `Double.round` chooses for the quotient `n / d`. -/
def Double.roundExponent (n d : Nat) : Int :=
  max (if (Double.scale n d ((Double.log2 n : Int) - (Double.log2 d : Int) - 52)).1 /
        (Double.scale n d ((Double.log2 n : Int) - (Double.log2 d : Int) - 52)).2 < 2 ^ 52
      then (Double.log2 n : Int) - (Double.log2 d : Int) - 52 - 1
      else (Double.log2 n : Int) - (Double.log2 d : Int) - 52) (-1074)

/-- The last steps of `Double.round` once the exponent `e` is chosen: round
the scaled quotient, renormalise, overflow to infinity. -/
def Double.roundAt (sign : Bool) (n d : Nat) (e : Int) : Double :=
  if 971 < (if Double.roundHalfEven (Double.scale n d e).1 (Double.scale n d e).2 = 2 ^ 53
      then e + 1 else e) then Double.inf sign
  else Double.finite sign
    (if Double.roundHalfEven (Double.scale n d e).1 (Double.scale n d e).2 = 2 ^ 53 then 2 ^ 52
      else Double.roundHalfEven (Double.scale n d e).1 (Double.scale n d e).2)
    (if Double.roundHalfEven (Double.scale n d e).1 (Double.scale n d e).2 = 2 ^ 53
      then e + 1 else e)

/-- The value is a NaN, of either sign. -/
def Double.isNaN : Double → Bool
  | Double.nan _ => true
  | _ => false

/-- The value is a whole number of cents: the `double` nearest to `k / 100`
for a natural number `k`, with either sign (an infinity when `k / 100` is
beyond the range of `double`). -/
def WholeCents (a : Double) : Prop :=
  ∃ (s : Bool) (k : Nat), a = Double.round s k 100

/-- The text starts with a decimal digit. -/
def firstIsDigit : List Char → Bool
  | c :: _ => isdigit c
  | [] => false

/-- The field begins with an integer: after optional white space and an
optional sign comes a digit. -/
def beginsWithInteger (s : List Char) : Bool :=
  firstIsDigit (takeSign (s.dropWhile isspace)).2

/-- The field begins with a number: after optional white space and an
optional sign comes a digit, or a point followed by a digit. -/
def beginsWithNumber (s : List Char) : Bool :=
  firstIsDigit (takeSign (s.dropWhile isspace)).2 ||
    (match (takeSign (s.dropWhile isspace)).2 with
     | '.' :: u => firstIsDigit u
     | _ => false)

/-- The field begins, after optional white space and an optional sign, with
one of the words `inf` and `nan` in any letter case. -/
def beginsWithInfNan (s : List Char) : Bool :=
  startsWithNoCase (takeSign (s.dropWhile isspace)).2 "inf".toList ||
    startsWithNoCase (takeSign (s.dropWhile isspace)).2 "nan".toList

/-- A line of five non-empty fields that is longer than the line buffer. -/
def longLine : List Char :=
  List.replicate 256 'A' ++ ",1,slip,1,1".toList

/-- The slots of the array written by `insertBoatSorted`: every `i` of the
shift loop (`boatCount ≥ i > pos`) and the slot `pos` of the new boat. -/
def insertWrites (boats : List Boat) (newBoat : Boat) : List Nat :=
  (List.range (boats.length + 1)).filter (fun i => insertPos newBoat.name boats < i) ++
    [insertPos newBoat.name boats]

/-- The slots of the array read by `removeBoat` once the index is found: the
slot `index` that is freed and every `i + 1` of the compaction loop
(`index ≤ i < boatCount - 1`). -/
def removeReads (boats : List Boat) (index : Nat) : List Nat :=
  index ::
    ((List.range boats.length).filter (fun i => index ≤ i && i + 1 < boats.length)).map
      (fun i => i + 1)

/-! ## Properties of the comparison -/

theorem strcasecmp_swap (a b : List Char) : strcasecmp b a = -strcasecmp a b := by
  induction a generalizing b with
  | nil =>
    cases b with
    | nil => simp [strcasecmp]
    | cons y ys => simp [strcasecmp]
  | cons x xs ih =>
    cases b with
    | nil => simp [strcasecmp]
    | cons y ys =>
      simp only [strcasecmp]
      split_ifs <;> first | omega | exact ih ys

theorem strcasecmp_le_trans (a b c : List Char)
    (hab : strcasecmp a b ≤ 0) (hbc : strcasecmp b c ≤ 0) : strcasecmp a c ≤ 0 := by
  induction a generalizing b c with
  | nil =>
    cases c with
    | nil => simp [strcasecmp]
    | cons z zs => simp only [strcasecmp]; omega
  | cons x xs ih =>
    cases b with
    | nil =>
      cases c with
      | nil => simpa [strcasecmp] using hab
      | cons z zs =>
        simp only [strcasecmp] at hab hbc ⊢
        split_ifs <;> omega
    | cons y ys =>
      cases c with
      | nil =>
        simp only [strcasecmp] at hab hbc ⊢
        split_ifs at hab hbc <;> omega
      | cons z zs =>
        simp only [strcasecmp] at hab hbc ⊢
        split_ifs at hab hbc ⊢ <;> first | omega | exact ih ys zs hab hbc

theorem strcasecmp_eq_zero_trans (a b c : List Char)
    (hab : strcasecmp a b = 0) (hbc : strcasecmp b c = 0) : strcasecmp a c = 0 := by
  have h1 : strcasecmp a c ≤ 0 := strcasecmp_le_trans a b c (by omega) (by omega)
  have h2 : strcasecmp c a ≤ 0 :=
    strcasecmp_le_trans c b a (by rw [strcasecmp_swap]; omega) (by rw [strcasecmp_swap]; omega)
  rw [strcasecmp_swap] at h2
  omega

/-! ## The tokenizer -/

theorem dropWhile_head_false {p : Char → Bool} {l : List Char} {x : Char} {xs : List Char}
    (h : l.dropWhile p = x :: xs) : p x = false := by
  induction l with
  | nil => simp at h
  | cons a as ih =>
    rw [List.dropWhile_cons] at h
    split at h
    · exact ih h
    · rename_i hp
      cases h
      simpa using hp

theorem strtok_some_ne_nil {s tok rest : List Char} (h : strtok s = some (tok, rest)) :
    s ≠ [] := by
  intro hs
  subst hs
  simp [strtok] at h

theorem count_comma_dropWhile_le (p : Char → Bool) (s : List Char) :
    (s.dropWhile p).count ',' ≤ s.count ',' :=
  (List.dropWhile_sublist p).count_le ','

theorem strtok_count {s tok rest : List Char} (h : strtok s = some (tok, rest))
    (hrest : rest ≠ []) : rest.count ',' + 1 ≤ s.count ',' := by
  unfold strtok at h
  have hle := count_comma_dropWhile_le (fun c => c == ',') s
  generalize s.dropWhile (fun c => c == ',') = s1 at h hle
  cases s1 with
  | nil => simp at h
  | cons c r =>
    simp only [Option.some.injEq, Prod.mk.injEq] at h
    obtain ⟨-, h2⟩ := h
    have hsplit := List.takeWhile_append_dropWhile (fun c => c != ',') (c :: r)
    cases hd : (c :: r).dropWhile (fun c => c != ',') with
    | nil =>
      rw [hd] at h2
      simp at h2
      exact absurd h2 hrest
    | cons x xs =>
      rw [hd] at h2 hsplit
      simp only [List.drop_succ_cons, List.drop_zero] at h2
      subst h2
      have hx : x = ',' := by simpa using dropWhile_head_false hd
      subst hx
      have hc : (c :: r).count ',' =
          ((c :: r).takeWhile (fun c => c != ',')).count ',' + (xs.count ',' + 1) := by
        conv_lhs => rw [← hsplit]
        simp [List.count_append, List.count_cons]
      omega

/-- A line from which `parseBoat` builds a boat holds at least four commas. -/
theorem parseBoat_some_count {line : List Char} {b : Boat} (h : parseBoat line = some b) :
    4 ≤ line.count ',' := by
  unfold parseBoat at h
  have hsub : (terminateAt (strncpy line MAX_LINE) (MAX_LINE - 1)).count ',' ≤ line.count ',' :=
    (((List.take_sublist _ _).trans (List.take_sublist _ _))).count_le ','
  generalize terminateAt (strncpy line MAX_LINE) (MAX_LINE - 1) = s0 at h hsub
  cases h1 : strtok s0 with
  | none => simp [h1] at h
  | some p1 =>
    obtain ⟨t1, r1⟩ := p1
    cases h2 : strtok r1 with
    | none => simp [h1, h2] at h
    | some p2 =>
      obtain ⟨t2, r2⟩ := p2
      cases h3 : strtok r2 with
      | none => simp [h1, h2, h3] at h
      | some p3 =>
        obtain ⟨t3, r3⟩ := p3
        cases h4 : strtok r3 with
        | none => simp [h1, h2, h3, h4] at h
        | some p4 =>
          obtain ⟨t4, r4⟩ := p4
          cases h5 : strtok r4 with
          | none => simp [h1, h2, h3, h4, h5] at h
          | some p5 =>
            obtain ⟨t5, r5⟩ := p5
            have c4 := strtok_count h4 (strtok_some_ne_nil h5)
            have c3 := strtok_count h3 (strtok_some_ne_nil h4)
            have c2 := strtok_count h2 (strtok_some_ne_nil h3)
            have c1 := strtok_count h1 (strtok_some_ne_nil h2)
            omega

theorem splitFields_length (line : List Char) :
    (splitFields line).length = line.count ',' + 1 := by
  induction line with
  | nil => simp [splitFields]
  | cons c rest ih =>
    by_cases hc : c = ','
    · subst hc
      simp [splitFields, ih]
    · have hc2 : (c == ',') = false := by simpa using hc
      cases hs : splitFields rest with
      | nil => simp [hs] at ih
      | cons f fs =>
        rw [hs] at ih
        simp only [List.length_cons] at ih
        simp [splitFields, hc, hs, List.count_cons, hc2]
        omega


/-! ## Sortedness -/

theorem nameLe_trans {a b c : Boat} (hab : nameLe a b) (hbc : nameLe b c) : nameLe a c :=
  strcasecmp_le_trans a.name b.name c.name hab hbc

theorem sortedByName_iff (boats : List Boat) :
    SortedByName boats ↔ boats.Pairwise nameLe := by
  haveI : IsTrans Boat nameLe := ⟨fun _ _ _ => nameLe_trans⟩
  show List.Chain' nameLe boats ↔ _
  exact List.chain'_iff_pairwise

theorem insertBoatSorted_cons (x : Boat) (xs : List Boat) (nb : Boat) :
    insertBoatSorted (x :: xs) nb =
      if caseInsensitiveCompare x.name nb.name < 0 then x :: insertBoatSorted xs nb
      else nb :: x :: xs := by
  unfold insertBoatSorted
  by_cases h : caseInsensitiveCompare x.name nb.name < 0
  · simp [insertPos, h]
  · simp [insertPos, h]

theorem mem_insertBoatSorted {boats : List Boat} {nb y : Boat} :
    y ∈ insertBoatSorted boats nb ↔ y = nb ∨ y ∈ boats := by
  unfold insertBoatSorted
  rw [List.mem_append, List.mem_cons]
  constructor
  · rintro (h | h | h)
    · exact Or.inr (List.mem_of_mem_take h)
    · exact Or.inl h
    · exact Or.inr (List.mem_of_mem_drop h)
  · rintro (h | h)
    · exact Or.inr (Or.inl h)
    · rw [← List.take_append_drop (insertPos nb.name boats) boats, List.mem_append] at h
      rcases h with h | h
      · exact Or.inl h
      · exact Or.inr (Or.inr h)

theorem pairwise_insertBoatSorted {boats : List Boat} (nb : Boat)
    (h : boats.Pairwise nameLe) : (insertBoatSorted boats nb).Pairwise nameLe := by
  induction boats with
  | nil => simp [insertBoatSorted, insertPos]
  | cons x xs ih =>
    rw [insertBoatSorted_cons]
    rw [List.pairwise_cons] at h
    split
    · rename_i hlt
      rw [List.pairwise_cons]
      refine ⟨?_, ih h.2⟩
      intro y hy
      rcases mem_insertBoatSorted.mp hy with hy | hy
      · subst hy
        exact le_of_lt hlt
      · exact h.1 y hy
    · rename_i hge
      have hnx : nameLe nb x := by
        unfold nameLe caseInsensitiveCompare at *
        rw [strcasecmp_swap]
        omega
      rw [List.pairwise_cons, List.pairwise_cons]
      refine ⟨?_, h⟩
      intro y hy
      rcases List.mem_cons.mp hy with hy | hy
      · subst hy; exact hnx
      · exact nameLe_trans hnx (h.1 y hy)

theorem pairwise_addBoat {boats : List Boat} (csvLine : List Char)
    (h : boats.Pairwise nameLe) : (addBoat boats csvLine).Pairwise nameLe := by
  unfold addBoat
  split
  · exact h
  · split
    · exact h
    · exact pairwise_insertBoatSorted _ h

theorem removeBoat_sublist (boats : List Boat) (input : Option (List Char)) :
    (removeBoat boats input).Sublist boats := by
  unfold removeBoat
  cases input with
  | none => exact List.Sublist.refl _
  | some buf =>
    simp only
    split
    · exact List.Sublist.refl _
    · generalize (findBoatIndexByName boats (readName buf)).toNat = i
      conv_rhs => rw [← List.take_append_drop i boats]
      exact List.Sublist.append (List.Sublist.refl _) (List.drop_sublist_drop_left boats (Nat.le_succ i))

theorem acceptPayment_names (boats : List Boat) (nameInput amountInput : Option (List Char)) :
    (acceptPayment boats nameInput amountInput).map Boat.name = boats.map Boat.name := by
  unfold acceptPayment
  cases nameInput with
  | none => rfl
  | some buf =>
    simp only
    split
    · rfl
    · generalize (findBoatIndexByName boats (readName buf)).toNat = i
      cases hb : boats[i]? with
      | none => rfl
      | some b =>
        cases amountInput with
        | none => rfl
        | some amtStr =>
          simp only
          split
          · rfl
          · apply List.ext_getElem?
            intro j
            simp only [List.getElem?_map, List.getElem?_set]
            by_cases hij : i = j
            · subst hij
              have hi : i < boats.length := (List.getElem?_eq_some_iff.mp hb).1
              simp [hb, hi]
            · simp [hij]

theorem updateMonthlyFees_names (boats : List Boat) :
    (updateMonthlyFees boats).map Boat.name = boats.map Boat.name := by
  simp [updateMonthlyFees, List.map_map, Function.comp_def]

theorem pairwise_of_names {l1 l2 : List Boat} (hn : l1.map Boat.name = l2.map Boat.name)
    (h : l2.Pairwise nameLe) : l1.Pairwise nameLe := by
  have key : ∀ l : List Boat, l.Pairwise nameLe ↔
      (l.map Boat.name).Pairwise (fun a b => caseInsensitiveCompare a b ≤ 0) := by
    intro l
    rw [List.pairwise_map]
    rfl
  rw [key] at h ⊢
  rw [hn]
  exact h

theorem pairwise_step {boats : List Boat} (op : Op) (h : boats.Pairwise nameLe) :
    (step boats op).Pairwise nameLe := by
  cases op with
  | add csvLine => exact pairwise_addBoat csvLine h
  | remove input => exact h.sublist (removeBoat_sublist boats input)
  | payment nameInput amountInput =>
    exact pairwise_of_names (acceptPayment_names boats nameInput amountInput) h
  | month => exact pairwise_of_names (updateMonthlyFees_names boats) h

theorem pairwise_run (ops : List Op) {boats : List Boat} (h : boats.Pairwise nameLe) :
    (run boats ops).Pairwise nameLe := by
  induction ops generalizing boats with
  | nil => exact h
  | cons op rest ih => exact ih (pairwise_step op h)

/-! ## Lookup and removal -/

theorem findFrom_cases (name : List Char) (l : List Boat) (i : Nat) :
    (findFrom name l i = -1 ∧ ∀ b ∈ l, caseInsensitiveCompare b.name name ≠ 0) ∨
      ∃ k, findFrom name l i = ((i + k : Nat) : Int) ∧ FirstMatch l name k := by
  induction l generalizing i with
  | nil => left; simp [findFrom]
  | cons x xs ih =>
    by_cases hx : caseInsensitiveCompare x.name name = 0
    · right
      refine ⟨0, by simp [findFrom, hx], ⟨x, by simp, hx⟩, ?_⟩
      intro j b hj
      omega
    · rcases ih (i + 1) with ⟨h1, h2⟩ | ⟨k, h1, ⟨b, hb, hb0⟩, h3⟩
      · left
        refine ⟨by simp [findFrom, hx, h1], ?_⟩
        intro b hb
        rcases List.mem_cons.mp hb with hb | hb
        · subst hb; exact hx
        · exact h2 b hb
      · right
        refine ⟨k + 1, ?_, ⟨b, by simpa using hb, hb0⟩, ?_⟩
        · simp only [findFrom, hx, if_false, h1]
          congr 1
          omega
        · intro j b' hj hb'
          cases j with
          | zero =>
            simp at hb'
            subst hb'
            exact hx
          | succ j =>
            simp at hb'
            exact h3 j b' (by omega) hb'

theorem findBoatIndexByName_cases (boats : List Boat) (name : List Char) :
    (findBoatIndexByName boats name = -1 ∧
        ∀ b ∈ boats, caseInsensitiveCompare b.name name ≠ 0) ∨
      ∃ k : Nat, findBoatIndexByName boats name = (k : Int) ∧ FirstMatch boats name k := by
  unfold findBoatIndexByName
  rcases findFrom_cases name boats 0 with h | ⟨k, h1, h2⟩
  · exact Or.inl h
  · exact Or.inr ⟨k, by simpa using h1, h2⟩

theorem firstMatch_mem {boats : List Boat} {name : List Char} {i : Nat}
    (h : FirstMatch boats name i) :
    ∃ b ∈ boats, caseInsensitiveCompare b.name name = 0 := by
  obtain ⟨⟨b, hb, hb0⟩, -⟩ := h
  exact ⟨b, List.mem_iff_getElem?.mpr ⟨i, hb⟩, hb0⟩

theorem firstMatch_lt {boats : List Boat} {name : List Char} {i : Nat}
    (h : FirstMatch boats name i) : i < boats.length := by
  obtain ⟨⟨b, hb, -⟩, -⟩ := h
  exact (List.getElem?_eq_some_iff.mp hb).1

theorem take_append_drop_succ_eq_eraseIdx (l : List Boat) (i : Nat) :
    l.take i ++ l.drop (i + 1) = l.eraseIdx i := by
  induction l generalizing i with
  | nil => simp
  | cons x xs ih =>
    cases i with
    | zero => simp
    | succ i => simp [ih]

/-! ## Comparison of doubles -/

theorem Double.gt_eq_false_of_le {a b : Double} (h : Double.le a b = true) :
    Double.gt a b = false := by
  unfold Double.gt
  cases a with
  | nan _ => simp [Double.le] at h
  | inf s1 =>
    cases b with
    | nan _ => simp [Double.le] at h
    | inf s2 =>
      simp only [Double.le, Double.lt] at h ⊢
      cases s1 <;> cases s2 <;> simp_all
    | finite s2 m2 e2 =>
      simp only [Double.le, Double.lt] at h ⊢
      simp [h]
  | finite s1 m1 e1 =>
    cases b with
    | nan _ => simp [Double.le] at h
    | inf s2 =>
      simp only [Double.le, Double.lt] at h ⊢
      simpa using h
    | finite s2 m2 e2 =>
      simp only [Double.le, Double.lt, decide_eq_true_eq, decide_eq_false_iff_not, not_lt] at h ⊢
      rw [min_comm e2 e1]
      exact h

theorem firstMatch_unique {boats : List Boat} {name : List Char} {i k : Nat}
    (hi : FirstMatch boats name i) (hk : FirstMatch boats name k) : i = k := by
  obtain ⟨⟨b, hb, hb0⟩, hlt⟩ := hi
  obtain ⟨⟨c, hc, hc0⟩, hlt2⟩ := hk
  rcases Nat.lt_trichotomy i k with h | h | h
  · exact absurd hb0 (hlt2 i b h hb)
  · exact h
  · exact absurd hc0 (hlt k c h hc)

theorem findBoatIndexByName_of_firstMatch {boats : List Boat} {name : List Char} {i : Nat}
    (h : FirstMatch boats name i) : findBoatIndexByName boats name = (i : Int) := by
  rcases findBoatIndexByName_cases boats name with ⟨-, h2⟩ | ⟨k, h1, h2⟩
  · obtain ⟨b, hb, hb0⟩ := firstMatch_mem h
    exact absurd hb0 (h2 b hb)
  · rw [h1, firstMatch_unique h h2]

/-! ## Lines made of five non-empty fields -/

theorem takeWhile_append_stop {p : Char → Bool} (l : List Char) (x : Char) (r : List Char)
    (hl : ∀ c ∈ l, p c = true) (hx : p x = false) : (l ++ x :: r).takeWhile p = l := by
  induction l with
  | nil => simp [List.takeWhile_cons, hx]
  | cons a as ih =>
    have ha : p a = true := hl a (List.mem_cons_self _ _)
    simp only [List.cons_append, List.takeWhile_cons, ha, if_true]
    rw [ih (fun c hc => hl c (List.mem_cons_of_mem _ hc))]

theorem dropWhile_append_stop {p : Char → Bool} (l : List Char) (x : Char) (r : List Char)
    (hl : ∀ c ∈ l, p c = true) (hx : p x = false) : (l ++ x :: r).dropWhile p = x :: r := by
  induction l with
  | nil => simp [List.dropWhile_cons, hx]
  | cons a as ih =>
    have ha : p a = true := hl a (List.mem_cons_self _ _)
    simp only [List.cons_append, List.dropWhile_cons, ha, if_true]
    exact ih (fun c hc => hl c (List.mem_cons_of_mem _ hc))

theorem takeWhile_all {p : Char → Bool} (l : List Char) (hl : ∀ c ∈ l, p c = true) :
    l.takeWhile p = l := by
  induction l with
  | nil => rfl
  | cons a as ih =>
    have ha : p a = true := hl a (List.mem_cons_self _ _)
    simp only [List.takeWhile_cons, ha, if_true]
    rw [ih (fun c hc => hl c (List.mem_cons_of_mem _ hc))]

theorem dropWhile_all {p : Char → Bool} (l : List Char) (hl : ∀ c ∈ l, p c = true) :
    l.dropWhile p = [] := by
  induction l with
  | nil => rfl
  | cons a as ih =>
    have ha : p a = true := hl a (List.mem_cons_self _ _)
    simp only [List.dropWhile_cons, ha, if_true]
    exact ih (fun c hc => hl c (List.mem_cons_of_mem _ hc))

theorem not_comma_of_not_mem {tok : List Char} (h : ',' ∉ tok) :
    ∀ c ∈ tok, (fun c => c != ',') c = true := by
  intro c hc
  have : c ≠ ',' := fun e => h (e ▸ hc)
  simpa using this

/-- A non-empty token without comma, followed by a comma, is what `strtok`
returns; the scan resumes after that comma. -/
theorem strtok_field (tok rest : List Char) (hne : tok ≠ []) (hc : ',' ∉ tok) :
    strtok (tok ++ ',' :: rest) = some (tok, rest) := by
  cases tok with
  | nil => exact absurd rfl hne
  | cons a as =>
    have ha : a ≠ ',' := fun e => hc (e ▸ List.mem_cons_self _ _)
    have ha2 : (a == ',') = false := by simpa using ha
    have h1 : ((a :: as) ++ ',' :: rest).dropWhile (fun c => c == ',') =
        a :: (as ++ ',' :: rest) := by
      simp [List.dropWhile_cons, ha2]
    unfold strtok
    rw [h1]
    simp only
    have e : a :: (as ++ ',' :: rest) = (a :: as) ++ ',' :: rest := rfl
    rw [e, takeWhile_append_stop _ _ _ (not_comma_of_not_mem hc) (by simp),
      dropWhile_append_stop _ _ _ (not_comma_of_not_mem hc) (by simp)]
    simp

/-- A non-empty token without comma at the end of the buffer. -/
theorem strtok_last (tok : List Char) (hne : tok ≠ []) (hc : ',' ∉ tok) :
    strtok tok = some (tok, []) := by
  cases tok with
  | nil => exact absurd rfl hne
  | cons a as =>
    have ha : a ≠ ',' := fun e => hc (e ▸ List.mem_cons_self _ _)
    have ha2 : (a == ',') = false := by simpa using ha
    have h1 : (a :: as).dropWhile (fun c => c == ',') = a :: as := by
      simp [List.dropWhile_cons, ha2]
    unfold strtok
    rw [h1]
    simp only
    rw [takeWhile_all _ (not_comma_of_not_mem hc), dropWhile_all _ (not_comma_of_not_mem hc)]
    simp

/-- The boat `parseBoat` builds from a line of five non-empty comma-free
fields that fits the line buffer. -/
theorem parseBoat_five_fields (t1 t2 t3 t4 t5 : List Char)
    (h1 : t1 ≠ [] ∧ ',' ∉ t1) (h2 : t2 ≠ [] ∧ ',' ∉ t2) (h3 : t3 ≠ [] ∧ ',' ∉ t3)
    (h4 : t4 ≠ [] ∧ ',' ∉ t4) (h5 : t5 ≠ [] ∧ ',' ∉ t5)
    (hlen : (t1 ++ ',' :: (t2 ++ ',' :: (t3 ++ ',' :: (t4 ++ ',' :: t5)))).length ≤ 255) :
    parseBoat (t1 ++ ',' :: (t2 ++ ',' :: (t3 ++ ',' :: (t4 ++ ',' :: t5)))) =
      some
        { name := strncpy (trimWhitespace (terminateAt (strncpy t1 MAX_NAME) (MAX_NAME - 1))) MAX_NAME
          length := atoi t2
          type := getBoatTypeFromString (trimWhitespace t3)
          info := makeInfo (getBoatTypeFromString (trimWhitespace t3))
            (terminateAt (strncpy (trimWhitespace t4) MAX_LINE) (MAX_LINE - 1))
          amountOwed := atof t5 } := by
  have hcopy : terminateAt (strncpy (t1 ++ ',' :: (t2 ++ ',' :: (t3 ++ ',' :: (t4 ++ ',' :: t5))))
      MAX_LINE) (MAX_LINE - 1) = t1 ++ ',' :: (t2 ++ ',' :: (t3 ++ ',' :: (t4 ++ ',' :: t5))) := by
    unfold terminateAt strncpy MAX_LINE
    rw [List.take_of_length_le (l := _ ++ _) (by omega), List.take_of_length_le (by omega)]
  unfold parseBoat
  rw [hcopy, strtok_field t1 _ h1.1 h1.2]
  simp only
  rw [strtok_field t2 _ h2.1 h2.2]
  simp only
  rw [strtok_field t3 _ h3.1 h3.2]
  simp only
  rw [strtok_field t4 _ h4.1 h4.2]
  simp only
  rw [strtok_last t5 h5.1 h5.2]

/-! ## Printing and reading numbers -/

theorem digitChar_toNat (d : Nat) (h : d < 10) : (digitChar d).toNat = 48 + d := by
  interval_cases d <;> rfl

theorem isdigit_digitChar (d : Nat) (h : d < 10) : isdigit (digitChar d) = true := by
  interval_cases d <;> rfl

theorem digitsValue_append_single (xs : List Char) (c : Char) :
    digitsValue (xs ++ [c]) = 10 * digitsValue xs + (c.toNat - 48) := by
  simp [digitsValue, List.foldl_append]

theorem decimalDigits_spec (fuel n : Nat) (h : n < fuel) :
    (∀ c ∈ decimalDigits fuel n, isdigit c = true) ∧
      digitsValue (decimalDigits fuel n) = n ∧ decimalDigits fuel n ≠ [] := by
  induction fuel generalizing n with
  | zero => omega
  | succ fuel ih =>
    unfold decimalDigits
    by_cases h10 : n < 10
    · simp only [h10, if_true]
      refine ⟨?_, ?_, by simp⟩
      · intro c hc
        simp only [List.mem_singleton] at hc
        subst hc
        exact isdigit_digitChar n h10
      · simp [digitsValue, digitChar_toNat n h10]
    · simp only [h10, if_false]
      obtain ⟨h1, h2, -⟩ := ih (n / 10) (by omega)
      refine ⟨?_, ?_, by simp⟩
      · intro c hc
        rcases List.mem_append.mp hc with hc | hc
        · exact h1 c hc
        · simp only [List.mem_singleton] at hc
          subst hc
          exact isdigit_digitChar _ (Nat.mod_lt _ (by norm_num))
      · rw [digitsValue_append_single, h2, digitChar_toNat _ (Nat.mod_lt _ (by norm_num))]
        omega

theorem natToDecimal_spec (n : Nat) :
    (∀ c ∈ natToDecimal n, isdigit c = true) ∧
      digitsValue (natToDecimal n) = n ∧ natToDecimal n ≠ [] :=
  decimalDigits_spec (n + 1) n (by omega)

theorem isdigit_ne {c x : Char} (hc : isdigit c = true) (hx : isdigit x = false) : c ≠ x := by
  intro e
  subst e
  rw [hc] at hx
  cases hx

theorem isdigit_not_space {c : Char} (hc : isdigit c = true) : isspace c = false := by
  unfold isdigit at hc
  unfold isspace
  simp only [Bool.and_eq_true, decide_eq_true_eq] at hc
  simp only [Bool.or_eq_false_iff, decide_eq_false_iff_not, Bool.and_eq_false_iff]
  omega

theorem takeSign_digit (c : Char) (t : List Char) (hc : isdigit c = true) :
    takeSign (c :: t) = (false, c :: t) := by
  have h1 : c ≠ '-' := isdigit_ne hc (by decide)
  have h2 : c ≠ '+' := isdigit_ne hc (by decide)
  unfold takeSign
  split
  · rename_i heq
    cases heq
    exact absurd rfl h1
  · rename_i heq
    cases heq
    exact absurd rfl h2
  · rfl

theorem wrapInt_of_range (n : Int) (h1 : -2 ^ 31 ≤ n) (h2 : n < 2 ^ 31) :
    wrapInt (max (-(2 ^ 63)) (min n (2 ^ 63 - 1))) = n := by
  have e1 : min n (2 ^ 63 - 1) = n := min_eq_left (by omega)
  have e2 : max (-(2 ^ 63)) n = n := max_eq_right (by omega)
  rw [e1, e2]
  unfold wrapInt
  omega

/-- Reading back with `atoi` what `%d` printed for an `int`. -/
theorem atoi_printInt (n : Int) (h1 : -2 ^ 31 ≤ n) (h2 : n < 2 ^ 31) :
    atoi (printInt n) = n := by
  obtain ⟨hd, hv, hne⟩ := natToDecimal_spec n.natAbs
  unfold atoi printInt
  by_cases hneg : n < 0
  · simp only [hneg, if_true]
    have hs : ('-' :: natToDecimal n.natAbs).dropWhile isspace = '-' :: natToDecimal n.natAbs := by
      rw [List.dropWhile_cons]
      rfl
    rw [hs]
    have ht : takeSign ('-' :: natToDecimal n.natAbs) = (true, natToDecimal n.natAbs) := rfl
    rw [ht]
    simp only [if_true]
    rw [takeWhile_all _ hd, hv]
    have : -((n.natAbs : Nat) : Int) = n := by omega
    rw [this]
    exact wrapInt_of_range n h1 h2
  · simp only [hneg, if_false]
    cases hds : natToDecimal n.natAbs with
    | nil => exact absurd hds hne
    | cons c t =>
      have hc : isdigit c = true := hd c (by rw [hds]; exact List.mem_cons_self _ _)
      have hs : (c :: t).dropWhile isspace = c :: t := by
        rw [List.dropWhile_cons, isdigit_not_space hc]
        rfl
      rw [hs, takeSign_digit c t hc]
      simp only [Bool.false_eq_true, if_false]
      rw [← hds, takeWhile_all _ hd, hv]
      have : ((n.natAbs : Nat) : Int) = n := by omega
      rw [this]
      exact wrapInt_of_range n h1 h2

theorem printInt_chars (n : Int) :
    printInt n ≠ [] ∧ ∀ c ∈ printInt n, isdigit c = true ∨ c = '-' := by
  obtain ⟨hd, -, hne⟩ := natToDecimal_spec n.natAbs
  unfold printInt
  split
  · refine ⟨by simp, ?_⟩
    intro c hc
    rcases List.mem_cons.mp hc with hc | hc
    · exact Or.inr hc
    · exact Or.inl (hd c hc)
  · exact ⟨hne, fun c hc => Or.inl (hd c hc)⟩

theorem printFixed2_chars (a : Double) :
    printFixed2 a ≠ [] ∧
      ∀ c ∈ printFixed2 a, isdigit c = true ∨ c ∈ ['-', '.', 'i', 'n', 'f', 'a'] := by
  cases a with
  | nan s =>
    refine ⟨by cases s <;> decide, ?_⟩
    intro c hc
    right
    revert c
    cases s <;> decide
  | inf s =>
    refine ⟨by cases s <;> decide, ?_⟩
    intro c hc
    right
    revert c
    cases s <;> decide
  | finite s m e =>
    unfold printFixed2
    refine ⟨by simp, ?_⟩
    intro c hc
    simp only [List.mem_append, List.mem_cons] at hc
    rcases hc with (hc | hc) | hc
    · right
      cases s
      · simp at hc
      · simp at hc
        subst hc
        decide
    · exact Or.inl ((natToDecimal_spec _).1 c hc)
    · rcases hc with hc | hc | hc | hc
      · subst hc; right; decide
      · subst hc
        exact Or.inl (isdigit_digitChar _ (by omega))
      · subst hc
        exact Or.inl (isdigit_digitChar _ (by omega))
      · simp at hc

theorem numeric_char_plain {c : Char}
    (h : isdigit c = true ∨ c ∈ ['-', '.', 'i', 'n', 'f', 'a']) :
    c ≠ ',' ∧ c ≠ '\n' ∧ isspace c = false := by
  rcases h with h | h
  · exact ⟨isdigit_ne h (by decide), isdigit_ne h (by decide), isdigit_not_space h⟩
  · revert c
    decide

theorem trimEndLoop_of_no_space (l : List Char) (h : ∀ c ∈ l, isspace c = false) :
    trimEndLoop l = l := by
  cases l with
  | nil => rfl
  | cons c t => simp [trimEndLoop, h c (List.mem_cons_self _ _)]

/-- A string without white space is left as it is by `trimWhitespace`. -/
theorem trimWhitespace_of_no_space (s : List Char) (h : ∀ c ∈ s, isspace c = false) :
    trimWhitespace s = s := by
  cases s with
  | nil => rfl
  | cons c t =>
    have hc : isspace c = false := h c (List.mem_cons_self _ _)
    have ht : trimEndLoop t.reverse = t.reverse :=
      trimEndLoop_of_no_space _
        (fun x hx => h x (List.mem_cons_of_mem _ (List.mem_reverse.mp hx)))
    simp [trimWhitespace, List.dropWhile_cons, List.takeWhile_cons, hc, ht]

/-! ## Reading back a written line -/

theorem cutNewline_append (body : List Char) (h : '\n' ∉ body) :
    cutNewline (body ++ ['\n']) = body := by
  unfold cutNewline
  refine takeWhile_append_stop body '\n' [] ?_ (by simp)
  intro c hc
  have : c ≠ '\n' := fun e => h (e ▸ hc)
  simpa using this

theorem numeric_field {t : List Char} (hne : t ≠ [])
    (h : ∀ c ∈ t, isdigit c = true ∨ c ∈ ['-', '.', 'i', 'n', 'f', 'a']) :
    (t ≠ [] ∧ ',' ∉ t) ∧ '\n' ∉ t ∧ ∀ c ∈ t, isspace c = false :=
  ⟨⟨hne, fun hc => (numeric_char_plain (h _ hc)).1 rfl⟩,
    fun hc => (numeric_char_plain (h _ hc)).2.1 rfl,
    fun c hc => (numeric_char_plain (h c hc)).2.2⟩

theorem printInt_field (n : Int) :
    (printInt n ≠ [] ∧ ',' ∉ printInt n) ∧ '\n' ∉ printInt n ∧
      ∀ c ∈ printInt n, isspace c = false :=
  numeric_field (printInt_chars n).1 (fun c hc => by
    rcases (printInt_chars n).2 c hc with h | h
    · exact Or.inl h
    · right; subst h; decide)

theorem printFixed2_field (a : Double) :
    (printFixed2 a ≠ [] ∧ ',' ∉ printFixed2 a) ∧ '\n' ∉ printFixed2 a ∧
      ∀ c ∈ printFixed2 a, isspace c = false :=
  numeric_field (printFixed2_chars a).1 (printFixed2_chars a).2

/-- The boat read back from a written line of five fields. -/
theorem parseBoat_written (t1 t2 t3 t4 t5 : List Char)
    (h1 : t1 ≠ [] ∧ ',' ∉ t1) (h2 : t2 ≠ [] ∧ ',' ∉ t2) (h3 : t3 ≠ [] ∧ ',' ∉ t3)
    (h4 : t4 ≠ [] ∧ ',' ∉ t4) (h5 : t5 ≠ [] ∧ ',' ∉ t5)
    (n1 : '\n' ∉ t1) (n2 : '\n' ∉ t2) (n3 : '\n' ∉ t3) (n4 : '\n' ∉ t4) (n5 : '\n' ∉ t5)
    (hlen : (t1 ++ ',' :: (t2 ++ ',' :: (t3 ++ ',' :: (t4 ++ ',' :: t5))) ++ ['\n']).length ≤ 256) :
    parseBoat (cutNewline (t1 ++ ',' :: (t2 ++ ',' :: (t3 ++ ',' :: (t4 ++ ',' :: t5))) ++ ['\n'])) =
      some
        { name := strncpy (trimWhitespace (terminateAt (strncpy t1 MAX_NAME) (MAX_NAME - 1))) MAX_NAME
          length := atoi t2
          type := getBoatTypeFromString (trimWhitespace t3)
          info := makeInfo (getBoatTypeFromString (trimWhitespace t3))
            (terminateAt (strncpy (trimWhitespace t4) MAX_LINE) (MAX_LINE - 1))
          amountOwed := atof t5 } := by
  have hn : '\n' ∉ t1 ++ ',' :: (t2 ++ ',' :: (t3 ++ ',' :: (t4 ++ ',' :: t5))) := by
    simp only [List.mem_append, List.mem_cons, not_or]
    refine ⟨n1, by decide, n2, by decide, n3, by decide, n4, by decide, n5⟩
  rw [cutNewline_append _ hn]
  refine parseBoat_five_fields t1 t2 t3 t4 t5 h1 h2 h3 h4 h5 ?_
  simp only [List.length_append, List.length_cons, List.length_nil] at hlen ⊢
  omega

theorem name_copy (name : List Char) (hlen : name.length ≤ 127)
    (htrim : trimWhitespace name = name) :
    strncpy (trimWhitespace (terminateAt (strncpy name MAX_NAME) (MAX_NAME - 1))) MAX_NAME =
      name := by
  unfold strncpy terminateAt MAX_NAME
  rw [List.take_of_length_le (l := name) (by omega), List.take_of_length_le (l := name) (by omega),
    htrim, List.take_of_length_le (by omega)]

theorem field_copy (t : List Char) (hlen : t.length ≤ 255) (htrim : trimWhitespace t = t) :
    terminateAt (strncpy (trimWhitespace t) MAX_LINE) (MAX_LINE - 1) = t := by
  unfold strncpy terminateAt MAX_LINE
  rw [htrim, List.take_of_length_le (l := t) (by omega), List.take_of_length_le (by omega)]

/-! ## Tokens and `strtok` -/

theorem splitFields_eq (s : List Char) :
    splitFields s =
      s.takeWhile (fun c => c != ',') ::
        (match s.dropWhile (fun c => c != ',') with
         | [] => []
         | _ :: r => splitFields r) := by
  induction s with
  | nil => rfl
  | cons c rest ih =>
    by_cases hc : c = ','
    · subst hc
      simp [splitFields, List.takeWhile_cons, List.dropWhile_cons]
    · have hc2 : (c != ',') = true := by simpa using hc
      rw [splitFields, if_neg hc, ih]
      simp [List.takeWhile_cons, List.dropWhile_cons, hc2]

theorem tokens_nil : tokens [] = [] := by
  simp [tokens, splitFields]

theorem tokens_comma_cons (s : List Char) : tokens (',' :: s) = tokens s := by
  simp [tokens, splitFields]

theorem tokens_dropWhile_comma (s : List Char) :
    tokens (s.dropWhile (fun c => c == ',')) = tokens s := by
  induction s with
  | nil => rfl
  | cons c rest ih =>
    by_cases hc : c = ','
    · subst hc
      rw [tokens_comma_cons, List.dropWhile_cons]
      simpa using ih
    · have hc2 : (c == ',') = false := by simpa using hc
      rw [List.dropWhile_cons, hc2]
      rfl

theorem strtok_none_tokens {s : List Char} (h : strtok s = none) : tokens s = [] := by
  unfold strtok at h
  rw [← tokens_dropWhile_comma]
  cases hd : s.dropWhile (fun c => c == ',') with
  | nil => exact tokens_nil
  | cons c rest => rw [hd] at h; simp at h

theorem strtok_some_tokens {s t r : List Char} (h : strtok s = some (t, r)) :
    t ≠ [] ∧ ',' ∉ t ∧ tokens s = t :: tokens r := by
  unfold strtok at h
  rw [← tokens_dropWhile_comma s]
  cases hd : s.dropWhile (fun c => c == ',') with
  | nil => rw [hd] at h; simp at h
  | cons c rest =>
    rw [hd] at h
    simp only [Option.some.injEq, Prod.mk.injEq] at h
    obtain ⟨ht, hr⟩ := h
    have hc : c ≠ ',' := by simpa using dropWhile_head_false hd
    have hc2 : (c != ',') = true := by simpa using hc
    have htne : t ≠ [] := by
      rw [← ht, List.takeWhile_cons, hc2]
      simp
    have htc : ',' ∉ t := by
      rw [← ht]
      intro hmem
      have := List.mem_takeWhile_imp hmem
      simp at this
    refine ⟨htne, htc, ?_⟩
    unfold tokens
    rw [splitFields_eq (c :: rest), ht, List.filter_cons]
    have hte : (!t.isEmpty) = true := by
      cases t with
      | nil => exact absurd rfl htne
      | cons _ _ => rfl
    rw [hte]
    simp only [if_true, List.cons.injEq, true_and]
    rw [← hr]
    cases hdd : (c :: rest).dropWhile (fun c => c != ',') with
    | nil => simp [splitFields]
    | cons x r' => simp

/-- The boat `parseBoat` builds is decided by the first five tokens of the
line as copied into the line buffer. -/
theorem parseBoat_tokens (line : List Char) :
    parseBoat line =
      match tokens (terminateAt (strncpy line MAX_LINE) (MAX_LINE - 1)) with
      | f1 :: f2 :: f3 :: f4 :: f5 :: _ => some (boatOfFields f1 f2 f3 f4 f5)
      | _ => none := by
  unfold parseBoat
  generalize terminateAt (strncpy line MAX_LINE) (MAX_LINE - 1) = s0
  cases h1 : strtok s0 with
  | none => simp [strtok_none_tokens h1]
  | some p1 =>
    obtain ⟨t1, r1⟩ := p1
    rw [(strtok_some_tokens h1).2.2]
    cases h2 : strtok r1 with
    | none => simp [h2, strtok_none_tokens h2]
    | some p2 =>
      obtain ⟨t2, r2⟩ := p2
      rw [(strtok_some_tokens h2).2.2]
      cases h3 : strtok r2 with
      | none => simp [h2, h3, strtok_none_tokens h3]
      | some p3 =>
        obtain ⟨t3, r3⟩ := p3
        rw [(strtok_some_tokens h3).2.2]
        cases h4 : strtok r3 with
        | none => simp [h2, h3, h4, strtok_none_tokens h4]
        | some p4 =>
          obtain ⟨t4, r4⟩ := p4
          rw [(strtok_some_tokens h4).2.2]
          cases h5 : strtok r4 with
          | none => simp [h2, h3, h4, h5, strtok_none_tokens h5]
          | some p5 =>
            obtain ⟨t5, r5⟩ := p5
            rw [(strtok_some_tokens h5).2.2]
            simp [h2, h3, h4, h5, boatOfFields]

/-! ## Sign of a difference of doubles -/

theorem Double.round_sign (s : Bool) (n d : Nat) :
    (∃ m e, Double.round s n d = Double.finite s m e) ∨ Double.round s n d = Double.inf s := by
  have key : ∀ (m : Nat) (e : Int),
      (∃ m' e', (if 971 < (if m = 2 ^ 53 then e + 1 else e) then Double.inf s
          else Double.finite s (if m = 2 ^ 53 then 2 ^ 52 else m)
            (if m = 2 ^ 53 then e + 1 else e)) = Double.finite s m' e') ∨
        (if 971 < (if m = 2 ^ 53 then e + 1 else e) then Double.inf s
          else Double.finite s (if m = 2 ^ 53 then 2 ^ 52 else m)
            (if m = 2 ^ 53 then e + 1 else e)) = Double.inf s := by
    intro m e
    by_cases hinf : 971 < (if m = 2 ^ 53 then e + 1 else e)
    · rw [if_pos hinf]
      exact Or.inr rfl
    · rw [if_neg hinf]
      exact Or.inl ⟨_, _, rfl⟩
  unfold Double.round
  by_cases hn : n = 0
  · rw [if_pos hn]
    exact Or.inl ⟨_, _, rfl⟩
  · rw [if_neg hn]
    exact key _ _

theorem Double.roundPow2_sign (s : Bool) (n : Nat) (e : Int) :
    (∃ m e', Double.roundPow2 s n e = Double.finite s m e') ∨
      Double.roundPow2 s n e = Double.inf s := by
  unfold Double.roundPow2
  split
  · exact Double.round_sign _ _ _
  · exact Double.round_sign _ _ _

theorem Double.zero_le_finite_false (m : Nat) (e : Int) :
    Double.le Double.zero (Double.finite false m e) = true := by
  simp only [Double.le, Double.zero, Double.mantAt, decide_eq_true_eq]
  simp only [Bool.false_eq_true, if_false, Int.Nat.cast_ofNat_Int, zero_mul]
  positivity

theorem Double.zero_le_zero (s : Bool) (e : Int) :
    Double.le Double.zero (Double.finite s 0 e) = true := by
  cases s <;> simp [Double.le, Double.zero, Double.mantAt]

theorem Double.mantAt_not (s : Bool) (m : Nat) (e E : Int) :
    Double.mantAt (!s) m e E = -Double.mantAt s m e E := by
  cases s <;> simp [Double.mantAt]

/-- An accepted payment (one that is not greater than the balance) leaves a
balance that is NaN or at least zero. -/
theorem Double.sub_nonneg_or_nan (B p : Double) (h : Double.gt p B = false) :
    (Double.sub B p).isNaN = true ∨ Double.le Double.zero (Double.sub B p) = true := by
  unfold Double.gt at h
  cases B with
  | nan sB => left; cases p <;> rfl
  | inf sB =>
    cases p with
    | nan sp => left; rfl
    | inf sp =>
      cases sB <;> cases sp <;> simp [Double.lt] at h <;>
        simp [Double.sub, Double.neg, Double.add, Double.le, Double.zero, Double.isNaN]
    | finite sp mp ep =>
      cases sB
      · right; rfl
      · simp [Double.lt] at h
  | finite sB mB eB =>
    cases p with
    | nan sp => left; rfl
    | inf sp =>
      cases sp
      · simp [Double.lt] at h
      · right; rfl
    | finite sp mp ep =>
      right
      simp only [Double.lt, decide_eq_false_iff_not, not_lt] at h
      simp only [Double.sub, Double.neg, Double.add]
      rw [Double.mantAt_not]
      split
      · exact Double.zero_le_zero _ _
      · rename_i hx
        have hpos : ¬ (Double.mantAt sB mB eB (min eB ep) + -Double.mantAt sp mp ep (min eB ep) < 0) := by
          omega
        simp only [hpos, decide_False]
        rcases Double.roundPow2_sign false
          (Double.mantAt sB mB eB (min eB ep) + -Double.mantAt sp mp ep (min eB ep)).natAbs
          (min eB ep) with ⟨m, e', hr⟩ | hr
        · rw [hr]; exact Double.zero_le_finite_false m e'
        · rw [hr]; rfl

/-- The difference of two numbers (finite doubles) is not NaN. -/
theorem Double.sub_ne_nan_of_isNumber (B p : Double) (hB : B.isNumber = true)
    (hp : p.isNumber = true) : (Double.sub B p).isNaN = false := by
  cases B with
  | nan s => simp [Double.isNumber] at hB
  | inf s => simp [Double.isNumber] at hB
  | finite sB mB eB =>
    cases p with
    | nan s => simp [Double.isNumber] at hp
    | inf s => simp [Double.isNumber] at hp
    | finite sp mp ep =>
      simp only [Double.sub, Double.neg, Double.add]
      split
      · rfl
      · rcases Double.roundPow2_sign
          (decide (Double.mantAt sB mB eB (min eB ep) + Double.mantAt (!sp) mp ep (min eB ep) < 0))
          (Double.mantAt sB mB eB (min eB ep) + Double.mantAt (!sp) mp ep (min eB ep)).natAbs
          (min eB ep) with ⟨m, e', hr⟩ | hr
        · rw [hr]; rfl
        · rw [hr]; rfl

/-! ## What `trimWhitespace` removes -/

theorem trimEndLoop_spec (l : List Char) :
    ∃ w, l = w ++ trimEndLoop l ∧ ∀ c ∈ w, isspace c = true := by
  induction l with
  | nil => exact ⟨[], rfl, by simp⟩
  | cons c rest ih =>
    by_cases hc : isspace c = true
    · obtain ⟨w, h1, h2⟩ := ih
      refine ⟨c :: w, ?_, ?_⟩
      · simp only [trimEndLoop, hc, if_true, List.cons_append]
        rw [← h1]
      · intro x hx
        rcases List.mem_cons.mp hx with hx | hx
        · subst hx; exact hc
        · exact h2 x hx
    · exact ⟨[], by simp [trimEndLoop, hc], by simp⟩

/-- The buffer after `trimWhitespace` is the old buffer without a run of
white space at its end; a non-empty buffer stays non-empty. -/
theorem trimWhitespace_spec (s : List Char) :
    ∃ w, s = trimWhitespace s ++ w ∧ (∀ c ∈ w, isspace c = true) ∧
      (s ≠ [] → trimWhitespace s ≠ []) := by
  unfold trimWhitespace
  cases hd : s.dropWhile isspace with
  | nil => exact ⟨[], by simp, by simp, fun h => h⟩
  | cons c rest =>
    simp only
    obtain ⟨w, h1, h2⟩ := trimEndLoop_spec rest.reverse
    refine ⟨w.reverse, ?_, ?_, by simp⟩
    · have hsplit := List.takeWhile_append_dropWhile isspace s
      rw [hd] at hsplit
      have hrest : rest = (trimEndLoop rest.reverse).reverse ++ w.reverse := by
        have := congrArg List.reverse h1
        simpa using this
      conv_lhs => rw [← hsplit, hrest]
      simp
    · intro x hx
      exact h2 x (List.mem_reverse.mp hx)

theorem trimWhitespace_length_le (s : List Char) : (trimWhitespace s).length ≤ s.length := by
  obtain ⟨w, h1, -, -⟩ := trimWhitespace_spec s
  have := congrArg List.length h1
  simp only [List.length_append] at this
  omega

theorem trimWhitespace_headD (s : List Char) (d : Char) :
    (trimWhitespace s).headD d = s.headD d := by
  obtain ⟨w, h1, -, h3⟩ := trimWhitespace_spec s
  cases hs : s with
  | nil => rfl
  | cons c t =>
    have hne : trimWhitespace s ≠ [] := h3 (by rw [hs]; simp)
    cases ht : trimWhitespace s with
    | nil => exact absurd ht hne
    | cons a u =>
      rw [ht, hs] at h1
      simp only [List.cons_append, List.cons.injEq] at h1
      rw [← hs, ht]
      simp [hs, h1.1]

theorem takeWhile_append_stop_all {p : Char → Bool} (x w : List Char)
    (hw : ∀ c ∈ w, p c = false) : (x ++ w).takeWhile p = x.takeWhile p := by
  induction x with
  | nil =>
    cases w with
    | nil => rfl
    | cons a t => simp [List.takeWhile_cons, hw a (List.mem_cons_self _ _)]
  | cons a t ih =>
    simp only [List.cons_append, List.takeWhile_cons, ih]

theorem isspace_not_digit {c : Char} (hc : isspace c = true) : isdigit c = false := by
  cases hd : isdigit c with
  | false => rfl
  | true => rw [isdigit_not_space hd] at hc; cases hc

theorem dropWhile_isspace_append (p w : List Char) (hw : ∀ c ∈ w, isspace c = true) :
    (p ++ w).dropWhile isspace = p.dropWhile isspace ++
      (if p.dropWhile isspace = [] then [] else w) := by
  induction p with
  | nil => simp [dropWhile_all w hw]
  | cons a t ih =>
    by_cases ha : isspace a = true
    · simp only [List.cons_append, List.dropWhile_cons, ha, if_true]
      exact ih
    · simp [List.dropWhile_cons, ha]

theorem takeSign_other (c : Char) (t : List Char) (h1 : c ≠ '-') (h2 : c ≠ '+') :
    takeSign (c :: t) = (false, c :: t) := by
  unfold takeSign
  split
  · rename_i heq
    cases heq
    exact absurd rfl h1
  · rename_i heq
    cases heq
    exact absurd rfl h2
  · rfl

/-- White space after the text does not change what `atoi` reads. -/
theorem atoi_append_space (p w : List Char) (hw : ∀ c ∈ w, isspace c = true) :
    atoi (p ++ w) = atoi p := by
  have hwd : ∀ c ∈ w, isdigit c = false := fun c hc => isspace_not_digit (hw c hc)
  unfold atoi
  rw [dropWhile_isspace_append p w hw]
  cases hq : p.dropWhile isspace with
  | nil => simp
  | cons c q =>
    simp only [List.cons_ne_nil, if_false, List.cons_append]
    have hts : (takeSign (c :: (q ++ w))).1 = (takeSign (c :: q)).1 ∧
        (takeSign (c :: (q ++ w))).2 = (takeSign (c :: q)).2 ++ w := by
      by_cases h1 : c = '-'
      · subst h1; exact ⟨rfl, rfl⟩
      · by_cases h2 : c = '+'
        · subst h2; exact ⟨rfl, rfl⟩
        · rw [takeSign_other c _ h1 h2, takeSign_other c _ h1 h2]
          exact ⟨rfl, rfl⟩
    rw [hts.1, hts.2, takeWhile_append_stop_all _ w hwd]

theorem atoi_trimWhitespace (s : List Char) : atoi (trimWhitespace s) = atoi s := by
  obtain ⟨w, h1, h2, -⟩ := trimWhitespace_spec s
  conv_rhs => rw [h1]
  exact (atoi_append_space _ w h2).symm

/-! ## Tokens of a line of five fields, cut to the line buffer -/

theorem tokens_field_cons (t r : List Char) (hne : t ≠ []) (hc : ',' ∉ t) :
    tokens (t ++ ',' :: r) = t :: tokens r :=
  (strtok_some_tokens (strtok_field t r hne hc)).2.2

theorem tokens_single (t : List Char) (hne : t ≠ []) (hc : ',' ∉ t) : tokens t = [t] := by
  rw [(strtok_some_tokens (strtok_last t hne hc)).2.2, tokens_nil]

theorem tokens_length_le_one (t : List Char) (hc : ',' ∉ t) : (tokens t).length ≤ 1 := by
  by_cases hne : t = []
  · subst hne; simp [tokens_nil]
  · rw [tokens_single t hne hc]; simp

theorem tokens_take_field (t r : List Char) (n : Nat) (hne : t ≠ []) (hc : ',' ∉ t) :
    (tokens ((t ++ ',' :: r).take n)).length ≤ 1 ∨
      (t.length < n ∧
        tokens ((t ++ ',' :: r).take n) = t :: tokens (r.take (n - t.length - 1))) := by
  by_cases hn : n ≤ t.length
  · left
    rw [List.take_append_of_le_length hn]
    exact tokens_length_le_one _ (fun h => hc (List.mem_of_mem_take h))
  · right
    refine ⟨by omega, ?_⟩
    rw [List.take_append_eq_append_take, List.take_of_length_le (by omega)]
    obtain ⟨k, hk⟩ : ∃ k, n - t.length = k + 1 := ⟨n - t.length - 1, by omega⟩
    rw [hk, List.take_succ_cons, tokens_field_cons t _ hne hc]
    simp

/-- When a line of five fields yields a boat at all, the boat is built from
the first four fields as they stand and from a piece of the fifth; the fourth
field then fits the buffer. -/
theorem parseBoat_five_any (t1 t2 t3 t4 t5 : List Char)
    (h1 : t1 ≠ [] ∧ ',' ∉ t1) (h2 : t2 ≠ [] ∧ ',' ∉ t2) (h3 : t3 ≠ [] ∧ ',' ∉ t3)
    (h4 : t4 ≠ [] ∧ ',' ∉ t4) (h5 : ',' ∉ t5) (b : Boat)
    (hb : parseBoat (t1 ++ ',' :: (t2 ++ ',' :: (t3 ++ ',' :: (t4 ++ ',' :: t5)))) = some b) :
    t4.length < 255 ∧ ∃ p5, b = boatOfFields t1 t2 t3 t4 p5 := by
  rw [parseBoat_tokens] at hb
  have hcopy : ∀ l : List Char, terminateAt (strncpy l MAX_LINE) (MAX_LINE - 1) = l.take 255 := by
    intro l
    simp [terminateAt, strncpy, MAX_LINE, List.take_take]
  rw [hcopy] at hb
  rcases tokens_take_field t1 _ 255 h1.1 h1.2 with hle | ⟨hl1, e1⟩
  · exfalso
    generalize tokens _ = l at hb hle
    rcases l with _ | ⟨a, _ | ⟨a2, l⟩⟩ <;> simp at hb hle
  rw [e1] at hb
  rcases tokens_take_field t2 _ (255 - t1.length - 1) h2.1 h2.2 with hle | ⟨hl2, e2⟩
  · exfalso
    generalize tokens _ = l at hb hle
    rcases l with _ | ⟨a, _ | ⟨a2, l⟩⟩ <;> simp at hb hle
  rw [e2] at hb
  rcases tokens_take_field t3 _ (255 - t1.length - 1 - t2.length - 1) h3.1 h3.2 with
    hle | ⟨hl3, e3⟩
  · exfalso
    generalize tokens _ = l at hb hle
    rcases l with _ | ⟨a, _ | ⟨a2, l⟩⟩ <;> simp at hb hle
  rw [e3] at hb
  rcases tokens_take_field t4 _ (255 - t1.length - 1 - t2.length - 1 - t3.length - 1) h4.1 h4.2
    with hle | ⟨hl4, e4⟩
  · exfalso
    generalize tokens _ = l at hb hle
    rcases l with _ | ⟨a, _ | ⟨a2, l⟩⟩ <;> simp at hb hle
  rw [e4] at hb
  refine ⟨by omega, ?_⟩
  have hle := tokens_length_le_one
    (t5.take (255 - t1.length - 1 - t2.length - 1 - t3.length - 1 - t4.length - 1))
    (fun h => h5 (List.mem_of_mem_take h))
  generalize tokens (t5.take _) = l at hb hle
  rcases l with _ | ⟨p5, _ | ⟨a2, l⟩⟩
  · simp at hb
  · simp only [Option.some.injEq] at hb
    exact ⟨p5, hb.symm⟩
  · simp at hle

/-! ## Fields that hold no number -/

theorem takeWhile_isdigit_of_not_first (t : List Char) (h : firstIsDigit t = false) :
    t.takeWhile isdigit = [] ∧ t.dropWhile isdigit = t := by
  cases t with
  | nil => exact ⟨rfl, rfl⟩
  | cons c r =>
    have hc : isdigit c = false := h
    simp [List.takeWhile_cons, List.dropWhile_cons, hc]

/-- `atoi` gives 0 for a field that does not begin with a number. -/
theorem atoi_zero (s : List Char) (h : beginsWithNumber s = false) : atoi s = 0 := by
  unfold beginsWithNumber at h
  simp only [Bool.or_eq_false_iff] at h
  unfold atoi
  simp only [(takeWhile_isdigit_of_not_first _ h.1).1]
  have : digitsValue [] = 0 := rfl
  rw [this]
  unfold wrapInt
  split <;> simp

/-- `atoi` gives 0 for a field that does not begin with an integer, also when
a point and digits follow the optional sign. -/
theorem atoi_zero_of_not_integer (s : List Char) (h : beginsWithInteger s = false) :
    atoi s = 0 := by
  unfold beginsWithInteger at h
  unfold atoi
  simp only [(takeWhile_isdigit_of_not_first _ h).1]
  have : digitsValue [] = 0 := rfl
  rw [this]
  unfold wrapInt
  split <;> simp

/-- `atof` gives the infinity of the sign read for a field that begins, after
optional white space and sign, with the word `inf` in any letter case. -/
theorem atof_inf (s : List Char)
    (h : startsWithNoCase (takeSign (s.dropWhile isspace)).2 "inf".toList = true) :
    atof s = Double.inf (takeSign (s.dropWhile isspace)).1 := by
  unfold atof
  simp only [h, if_true]

/-- `atof` gives the NaN of the sign read for a field that begins, after
optional white space and sign, with the word `nan` in any letter case. -/
theorem atof_nan (s : List Char)
    (h : startsWithNoCase (takeSign (s.dropWhile isspace)).2 "nan".toList = true) :
    atof s = Double.nan (takeSign (s.dropWhile isspace)).1 := by
  have hinf : startsWithNoCase (takeSign (s.dropWhile isspace)).2 "inf".toList = false := by
    generalize (takeSign (s.dropWhile isspace)).2 = t at h ⊢
    unfold startsWithNoCase at h ⊢
    have e1 : "inf".toList.length = "nan".toList.length := rfl
    rw [e1]
    generalize (t.take "nan".toList.length).map (fun c => tolower c.toNat) = l at h ⊢
    have hl : l = "nan".toList.map Char.toNat := by simpa using h
    rw [hl]
    decide
  unfold atof
  simp only [hinf, h, Bool.false_eq_true, if_false, if_true]

/-- `atof` gives `0.0` for a field that begins with neither a number nor one
of the words `inf` and `nan`. -/
theorem atof_zero (s : List Char) (h : beginsWithNumber s = false)
    (hw : beginsWithInfNan s = false) : atof s = Double.zero := by
  unfold beginsWithNumber at h
  unfold beginsWithInfNan at hw
  simp only [Bool.or_eq_false_iff] at h hw
  unfold atof
  simp only [hw.1, hw.2, Bool.false_eq_true, if_false]
  generalize (takeSign (s.dropWhile isspace)).2 = t at h
  generalize (takeSign (s.dropWhile isspace)).1 = sgn
  obtain ⟨hfirst, hdot⟩ := h
  have hdec : strtodDecimal sgn t = Double.zero := by
    unfold strtodDecimal
    obtain ⟨htw, hdw⟩ := takeWhile_isdigit_of_not_first t hfirst
    have hfp : fractionDigits isdigit t = [] := by
      unfold fractionDigits
      split
      · rename_i u
        exact (takeWhile_isdigit_of_not_first u hdot).1
      · rfl
    simp only [htw, hdw, hfp]
    rfl
  split
  · rename_i x t' 
    simp [firstIsDigit, isdigit] at hfirst
  · exact hdec

theorem length_insertBoatSorted (boats : List Boat) (nb : Boat) :
    (insertBoatSorted boats nb).length = boats.length + 1 := by
  have hpos : ∀ l : List Boat, insertPos nb.name l ≤ l.length := by
    intro l
    induction l with
    | nil => simp [insertPos]
    | cons x xs ih =>
      simp only [insertPos]
      split
      · simp only [List.length_cons]
        omega
      · omega
  have := hpos boats
  simp only [insertBoatSorted, List.length_append, List.length_cons, List.length_take,
    List.length_drop]
  omega

/-- A line of five non-empty fields that fits the buffer is added to a store
with room. -/
theorem addBoat_five_fields (boats : List Boat) (t1 t2 t3 t4 t5 : List Char)
    (h1 : t1 ≠ [] ∧ ',' ∉ t1) (h2 : t2 ≠ [] ∧ ',' ∉ t2) (h3 : t3 ≠ [] ∧ ',' ∉ t3)
    (h4 : t4 ≠ [] ∧ ',' ∉ t4) (h5 : t5 ≠ [] ∧ ',' ∉ t5)
    (hlen : (t1 ++ ',' :: (t2 ++ ',' :: (t3 ++ ',' :: (t4 ++ ',' :: t5)))).length ≤ 255)
    (hroom : boats.length < 120) :
    addBoat boats (t1 ++ ',' :: (t2 ++ ',' :: (t3 ++ ',' :: (t4 ++ ',' :: t5)))) =
      insertBoatSorted boats (boatOfFields t1 t2 t3 t4 t5) := by
  have hp := parseBoat_five_fields t1 t2 t3 t4 t5 h1 h2 h3 h4 h5 hlen
  have hnot : ¬ boats.length ≥ MAX_BOATS := by unfold MAX_BOATS; omega
  simp only [addBoat, hnot, if_false, hp]
  rfl

theorem insertPos_le (name : List Char) (l : List Boat) : insertPos name l ≤ l.length := by
  induction l with
  | nil => simp [insertPos]
  | cons x xs ih =>
    simp only [insertPos]
    split
    · simp only [List.length_cons]
      omega
    · omega

theorem insertBoatSorted_getElem (boats : List Boat) (nb : Boat) :
    (insertBoatSorted boats nb)[insertPos nb.name boats]? = some nb := by
  have hpos := insertPos_le nb.name boats
  unfold insertBoatSorted
  rw [List.getElem?_append_right (by simp [List.length_take])]
  simp [List.length_take, Nat.min_eq_left hpos]

theorem insertBoatSorted_eraseIdx (boats : List Boat) (nb : Boat) :
    (insertBoatSorted boats nb).eraseIdx (insertPos nb.name boats) = boats := by
  have hpos := insertPos_le nb.name boats
  unfold insertBoatSorted
  rw [List.eraseIdx_append_of_length_le (by simp [List.length_take])]
  simp [List.length_take, Nat.min_eq_left hpos]

/-! ## Loading in any order -/

theorem strcasecmp_lt_trans (a b c : List Char)
    (hab : strcasecmp a b < 0) (hbc : strcasecmp b c < 0) : strcasecmp a c < 0 := by
  have h1 : strcasecmp a c ≤ 0 := strcasecmp_le_trans a b c (by omega) (by omega)
  by_contra hne
  have h0 : strcasecmp a c = 0 := by omega
  have hca : strcasecmp c a ≤ 0 := by rw [strcasecmp_swap]; omega
  have hcb : strcasecmp c b ≤ 0 := strcasecmp_le_trans c a b hca (by omega)
  rw [strcasecmp_swap] at hcb
  omega

theorem nameLt_trans {a b c : Boat} (hab : nameLt a b) (hbc : nameLt b c) : nameLt a c :=
  strcasecmp_lt_trans a.name b.name c.name hab hbc

theorem nameDiffers_symm {a b : Boat} (h : nameDiffers a b) : nameDiffers b a := by
  unfold nameDiffers caseInsensitiveCompare at *
  rw [strcasecmp_swap]
  omega

theorem insertBoatSorted_perm (boats : List Boat) (nb : Boat) :
    (insertBoatSorted boats nb).Perm (nb :: boats) := by
  unfold insertBoatSorted
  have h : (boats.take (insertPos nb.name boats) ++
      nb :: boats.drop (insertPos nb.name boats)).Perm
      (nb :: (boats.take (insertPos nb.name boats) ++ boats.drop (insertPos nb.name boats))) :=
    List.perm_middle
  rw [List.take_append_drop] at h
  exact h

theorem pairwise_nameLt_insertBoatSorted {boats : List Boat} (nb : Boat)
    (h : boats.Pairwise nameLt) (hd : ∀ b ∈ boats, nameDiffers b nb) :
    (insertBoatSorted boats nb).Pairwise nameLt := by
  induction boats with
  | nil => simp [insertBoatSorted, insertPos]
  | cons x xs ih =>
    rw [insertBoatSorted_cons]
    rw [List.pairwise_cons] at h
    split
    · rename_i hlt
      rw [List.pairwise_cons]
      refine ⟨?_, ih h.2 (fun b hb => hd b (List.mem_cons_of_mem _ hb))⟩
      intro y hy
      rcases mem_insertBoatSorted.mp hy with hy | hy
      · subst hy; exact hlt
      · exact h.1 y hy
    · rename_i hge
      have hx := hd x (List.mem_cons_self _ _)
      have hnx : nameLt nb x := by
        unfold nameLt nameDiffers caseInsensitiveCompare at *
        rw [strcasecmp_swap]
        omega
      rw [List.pairwise_cons, List.pairwise_cons]
      refine ⟨?_, h⟩
      intro y hy
      rcases List.mem_cons.mp hy with hy | hy
      · subst hy; exact hnx
      · exact nameLt_trans hnx (h.1 y hy)

/-- Below the capacity and with names that all differ, adding lines keeps the
store strictly sorted and makes it a rearrangement of the old boats and the
parsed ones. -/
theorem addLines_invariant (lines : List (List Char)) (boats : List Boat)
    (hcap : boats.length + lines.length ≤ 120) (hs : boats.Pairwise nameLt)
    (hnew : ∀ p ∈ lines.filterMap parseBoat, ∀ b ∈ boats, nameDiffers b p)
    (hd : (lines.filterMap parseBoat).Pairwise nameDiffers) :
    (addLines boats lines).Perm (boats ++ lines.filterMap parseBoat) ∧
      (addLines boats lines).Pairwise nameLt := by
  induction lines generalizing boats with
  | nil => exact ⟨by simp [addLines], hs⟩
  | cons l rest ih =>
    have hroom : ¬ boats.length ≥ MAX_BOATS := by
      unfold MAX_BOATS
      simp only [List.length_cons] at hcap
      omega
    have hstep : addLines boats (l :: rest) = addLines (addBoat boats l) rest := rfl
    rw [hstep]
    cases hp : parseBoat l with
    | none =>
      have hadd : addBoat boats l = boats := by simp [addBoat, hp]
      rw [hadd]
      simp only [List.filterMap_cons, hp] at hnew hd ⊢
      exact ih boats (by simp only [List.length_cons] at hcap; omega) hs hnew hd
    | some p =>
      have hadd : addBoat boats l = insertBoatSorted boats p := by simp [addBoat, hroom, hp]
      rw [hadd]
      simp only [List.filterMap_cons, hp] at hnew hd ⊢
      rw [List.pairwise_cons] at hd
      have hs' := pairwise_nameLt_insertBoatSorted p hs
        (fun b hb => hnew p (List.mem_cons_self _ _) b hb)
      have hnew' : ∀ q ∈ rest.filterMap parseBoat, ∀ b ∈ insertBoatSorted boats p,
          nameDiffers b q := by
        intro q hq b hb
        rcases mem_insertBoatSorted.mp hb with hb | hb
        · subst hb; exact hd.1 q hq
        · exact hnew q (List.mem_cons_of_mem _ hq) b hb
      obtain ⟨ihp, ihs⟩ := ih (insertBoatSorted boats p)
        (by rw [length_insertBoatSorted]; simp only [List.length_cons] at hcap; omega)
        hs' hnew' hd.2
      refine ⟨?_, ihs⟩
      refine ihp.trans ?_
      refine ((insertBoatSorted_perm boats p).append_right _).trans ?_
      have hmid : (boats ++ p :: rest.filterMap parseBoat).Perm
          (p :: (boats ++ rest.filterMap parseBoat)) := List.perm_middle
      exact hmid.symm

theorem loadStep_eq_addBoat (boats : List Boat) (buf : List Char) :
    loadStep boats buf = addBoat boats (cutNewline buf) := by
  unfold loadStep
  split
  · rename_i h
    have hnil : cutNewline buf = [] := List.eq_nil_of_length_eq_zero h
    rw [hnil]
    have hp : parseBoat [] = none := by decide
    simp [addBoat, hp]
  · rfl

theorem loadBoatData_eq_addLines (boats : List Boat) (bufs : List (List Char)) :
    loadBoatData boats bufs = addLines boats (bufs.map cutNewline) := by
  unfold loadBoatData addLines
  induction bufs generalizing boats with
  | nil => rfl
  | cons b rest ih =>
    simp only [List.foldl_cons, List.map_cons]
    rw [loadStep_eq_addBoat, ih]

/-! ## Deleting empty fields -/

/-- Length of a line with the given fields: each field and one separator. -/
theorem joinFields_length (fs : List (List Char)) :
    (joinFields fs).length = (fs.map (fun f => f.length + 1)).sum - 1 := by
  induction fs with
  | nil => rfl
  | cons f rest ih =>
    cases rest with
    | nil => simp [joinFields]
    | cons g rest' =>
      simp only [joinFields, List.length_append, List.length_cons, ih, List.map_cons,
        List.sum_cons]
      omega

theorem splitFields_measure (s : List Char) :
    ((splitFields s).map (fun f => f.length + 1)).sum = s.length + 1 := by
  induction s with
  | nil => rfl
  | cons c rest ih =>
    by_cases hc : c = ','
    · subst hc
      simp only [splitFields, if_true, List.map_cons, List.sum_cons, ih, List.length_cons,
        List.length_nil]
      omega
    · cases hs : splitFields rest with
      | nil => rw [hs] at ih; simp at ih
      | cons f fs =>
        rw [hs] at ih
        simp only [splitFields, hc, if_false, hs, List.map_cons, List.sum_cons,
          List.length_cons] at ih ⊢
        omega

theorem filter_measure_le (fs : List (List Char)) (p : List Char → Bool) :
    ((fs.filter p).map (fun f => f.length + 1)).sum ≤ (fs.map (fun f => f.length + 1)).sum := by
  induction fs with
  | nil => simp
  | cons f rest ih =>
    rw [List.filter_cons]
    split
    · simp only [List.map_cons, List.sum_cons]
      omega
    · simp only [List.map_cons, List.sum_cons]
      omega

theorem deleteEmptyFields_length_le (line : List Char) :
    (deleteEmptyFields line).length ≤ line.length := by
  unfold deleteEmptyFields tokens
  rw [joinFields_length]
  have h1 := filter_measure_le (splitFields line) (fun f => !f.isEmpty)
  have h2 := splitFields_measure line
  omega

theorem splitFields_no_comma (s : List Char) : ∀ f ∈ splitFields s, ',' ∉ f := by
  induction s with
  | nil => simp [splitFields]
  | cons c rest ih =>
    by_cases hc : c = ','
    · subst hc
      intro f hf
      simp only [splitFields, if_true, List.mem_cons] at hf
      rcases hf with hf | hf
      · subst hf; simp
      · exact ih f hf
    · cases hs : splitFields rest with
      | nil =>
        intro f hf
        simp only [splitFields, hc, if_false, hs, List.mem_singleton] at hf
        subst hf
        simpa using Ne.symm hc
      | cons g gs =>
        rw [hs] at ih
        intro f hf
        simp only [splitFields, hc, if_false, hs, List.mem_cons] at hf
        rcases hf with hf | hf
        · subst hf
          have := ih g (List.mem_cons_self _ _)
          simp only [List.mem_cons, not_or]
          exact ⟨Ne.symm hc, this⟩
        · exact ih f (List.mem_cons_of_mem _ hf)

theorem tokens_plain (s : List Char) : ∀ f ∈ tokens s, f ≠ [] ∧ ',' ∉ f := by
  intro f hf
  unfold tokens at hf
  rw [List.mem_filter] at hf
  refine ⟨?_, splitFields_no_comma s f hf.1⟩
  intro h
  subst h
  simp at hf

theorem tokens_joinFields (fs : List (List Char)) (h : ∀ f ∈ fs, f ≠ [] ∧ ',' ∉ f) :
    tokens (joinFields fs) = fs := by
  induction fs with
  | nil => exact tokens_nil
  | cons f rest ih =>
    have hf := h f (List.mem_cons_self _ _)
    cases rest with
    | nil => exact tokens_single f hf.1 hf.2
    | cons g rest' =>
      simp only [joinFields]
      rw [tokens_field_cons f _ hf.1 hf.2, ih (fun x hx => h x (List.mem_cons_of_mem _ hx))]

/-- A line that fits the buffer and the line without its empty fields yield
the same boat, or both none. -/
theorem parseBoat_deleteEmptyFields (line : List Char) (hlen : line.length < 256) :
    parseBoat (deleteEmptyFields line) = parseBoat line := by
  have hshort := deleteEmptyFields_length_le line
  have hcopy : ∀ l : List Char, l.length < 256 →
      terminateAt (strncpy l MAX_LINE) (MAX_LINE - 1) = l := by
    intro l hl
    unfold terminateAt strncpy MAX_LINE
    rw [List.take_of_length_le (l := l) (by omega), List.take_of_length_le (by omega)]
  rw [parseBoat_tokens, parseBoat_tokens, hcopy line hlen, hcopy _ (by omega)]
  unfold deleteEmptyFields
  rw [tokens_joinFields _ (tokens_plain line)]

/-! ## The capacity is never exceeded -/

theorem length_step_le (boats : List Boat) (op : Op) (h : boats.length ≤ MAX_BOATS) :
    (step boats op).length ≤ MAX_BOATS := by
  cases op with
  | add csvLine =>
    simp only [step, addBoat]
    split
    · exact h
    · split
      · exact h
      · rw [length_insertBoatSorted]
        omega
  | remove input => exact le_trans (removeBoat_sublist boats input).length_le h
  | payment nameInput amountInput =>
    have := congrArg List.length (acceptPayment_names boats nameInput amountInput)
    simp only [List.length_map] at this
    simp only [step]
    omega
  | month => simpa [step, updateMonthlyFees] using h

theorem length_run_le (ops : List Op) (boats : List Boat) (h : boats.length ≤ MAX_BOATS) :
    (run boats ops).length ≤ MAX_BOATS := by
  induction ops generalizing boats with
  | nil => exact h
  | cons op rest ih => exact ih _ (length_step_le boats op h)

/-! ## Balances in whole cents -/

theorem Double.bitLength_le (fuel n b : Nat) (h : n < 2 ^ b) : Double.bitLength fuel n ≤ b := by
  induction fuel generalizing n b with
  | zero => simp [Double.bitLength]
  | succ fuel ih =>
    unfold Double.bitLength
    split
    · omega
    · rename_i hn
      cases b with
      | zero => simp at h; exact absurd h hn
      | succ b =>
        have : n / 2 < 2 ^ b := by
          rw [Nat.div_lt_iff_lt_mul (by norm_num)]
          rw [pow_succ] at h
          exact h
        have := ih (n / 2) b this
        omega

theorem Double.log2_le_of_lt (n b : Nat) (h : n < 2 ^ (b + 1)) : Double.log2 n ≤ b := by
  unfold Double.log2
  have := Double.bitLength_le n n (b + 1) h
  omega

/-- The rounded quotient is within half a unit of the exact quotient. -/
theorem Double.roundHalfEven_near (n d : Nat) (hd : 0 < d) :
    2 * (Double.roundHalfEven n d * d) ≤ 2 * n + d ∧
      2 * n ≤ 2 * (Double.roundHalfEven n d * d) + d := by
  have hdm := Nat.div_add_mod n d
  have hmod := Nat.mod_lt n hd
  have hqd : n / d * d = d * (n / d) := Nat.mul_comm _ _
  unfold Double.roundHalfEven
  split
  · rename_i hup
    rw [Nat.add_mul, hqd]
    rcases hup with hup | ⟨hup, -⟩ <;> omega
  · rename_i hup
    rw [hqd]
    have : ¬ d < 2 * (n % d) := fun h => hup (Or.inl h)
    omega

/-- An integer strictly within half a unit of the exact quotient is the
rounded quotient. -/
theorem Double.roundHalfEven_eq (n d k : Nat) (h1 : 2 * (k * d) < 2 * n + d)
    (h2 : 2 * n < 2 * (k * d) + d) : Double.roundHalfEven n d = k := by
  have hd : 0 < d := by
    rcases Nat.eq_zero_or_pos d with h | h
    · subst h; simp at h1 h2
    · exact h
  obtain ⟨n1, n2⟩ := Double.roundHalfEven_near n d hd
  generalize Double.roundHalfEven n d = r at n1 n2
  have hlt : r < k + 1 := by
    by_contra hc
    have hge : (k + 1) * d ≤ r * d := Nat.mul_le_mul_right d (by omega)
    rw [Nat.add_mul] at hge
    omega
  have hgt : k < r + 1 := by
    by_contra hc
    have hge : (r + 1) * d ≤ k * d := Nat.mul_le_mul_right d (by omega)
    rw [Nat.add_mul] at hge
    omega
  omega

/-- The last steps of `round` for `k / 100` at an exponent of at most -7: the
result is finite and its value times 100 rounds back to `k`. -/
theorem Double.round_tail_cents (s : Bool) (k : Nat) (e : Int) (he : e ≤ -7) :
    ∃ m' e', e' ≤ -6 ∧
      (if 971 <
            (if Double.roundHalfEven (Double.scale k 100 e).1 (Double.scale k 100 e).2 = 2 ^ 53
              then e + 1 else e)
          then Double.inf s
          else Double.finite s
            (if Double.roundHalfEven (Double.scale k 100 e).1 (Double.scale k 100 e).2 = 2 ^ 53
              then 2 ^ 52
              else Double.roundHalfEven (Double.scale k 100 e).1 (Double.scale k 100 e).2)
            (if Double.roundHalfEven (Double.scale k 100 e).1 (Double.scale k 100 e).2 = 2 ^ 53
              then e + 1 else e)) = Double.finite s m' e' ∧
      Double.roundHalfEven (m' * 100) (1 * 2 ^ (-e').toNat) = k := by
  obtain ⟨p, hp⟩ : ∃ p : Nat, e = -((p : Int) + 7) := ⟨(-e - 7).toNat, by omega⟩
  subst hp
  have hscale : Double.scale k 100 (-((p : Int) + 7)) = (k * 2 ^ (p + 7), 100) := by
    have hexp : (-(-((p : Int) + 7))).toNat = p + 7 := by omega
    unfold Double.scale
    rw [if_neg (by omega), hexp]
  rw [hscale]
  simp only
  obtain ⟨n1, n2⟩ := Double.roundHalfEven_near (k * 2 ^ (p + 7)) 100 (by norm_num)
  generalize Double.roundHalfEven (k * 2 ^ (p + 7)) 100 = m at n1 n2
  have hpow : 2 ^ (p + 7) = 2 ^ (p + 6) * 2 := pow_succ 2 (p + 6)
  have hbig : 64 ≤ 2 ^ (p + 6) := by
    have : 2 ^ 6 ≤ 2 ^ (p + 6) := Nat.pow_le_pow_right (by norm_num) (by omega)
    simpa using this
  by_cases hm : m = 2 ^ 53
  · refine ⟨2 ^ 52, -((p : Int) + 7) + 1, by omega, ?_, ?_⟩
    · rw [if_pos hm, if_neg (by omega), if_pos hm]
    · have hexp : (-(-((p : Int) + 7) + 1)).toNat = p + 6 := by omega
      rw [hexp, one_mul]
      subst hm
      have e1 : k * 2 ^ (p + 7) = 2 * (k * 2 ^ (p + 6)) := by rw [hpow]; ring
      rw [e1] at n1 n2
      apply Double.roundHalfEven_eq
      · generalize k * 2 ^ (p + 6) = X at n1 n2 ⊢
        generalize 2 ^ (p + 6) = Y at hbig ⊢
        norm_num at n1 n2 ⊢
        omega
      · generalize k * 2 ^ (p + 6) = X at n1 n2 ⊢
        generalize 2 ^ (p + 6) = Y at hbig ⊢
        norm_num at n1 n2 ⊢
        omega
  · refine ⟨m, -((p : Int) + 7), by omega, ?_, ?_⟩
    · rw [if_neg hm, if_neg (by omega), if_neg hm]
    · have hexp : (-(-((p : Int) + 7))).toNat = p + 7 := by omega
      rw [hexp, one_mul]
      have hbig2 : 128 ≤ 2 ^ (p + 7) := by omega
      apply Double.roundHalfEven_eq
      · generalize k * 2 ^ (p + 7) = X at n1 n2 ⊢
        generalize 2 ^ (p + 7) = Y at hbig2 ⊢
        omega
      · generalize k * 2 ^ (p + 7) = X at n1 n2 ⊢
        generalize 2 ^ (p + 7) = Y at hbig2 ⊢
        omega

/-- The double nearest to `k / 100`, for `k` below `2^52`, is finite, and
its value times 100 rounds back to `k`. -/
theorem Double.round_cents (s : Bool) (k : Nat) (hk : k < 2 ^ 52) :
    ∃ m e, e ≤ -6 ∧ Double.round s k 100 = Double.finite s m e ∧
      Double.roundHalfEven (m * 100) (1 * 2 ^ (-e).toNat) = k := by
  by_cases h0 : k = 0
  · subst h0
    refine ⟨0, -1074, by norm_num, by simp [Double.round], ?_⟩
    have hpos : 0 < 1 * 2 ^ (-(-1074 : Int)).toNat :=
      Nat.mul_pos Nat.one_pos (Nat.two_pow_pos _)
    generalize 1 * 2 ^ (-(-1074 : Int)).toNat = d at hpos ⊢
    apply Double.roundHalfEven_eq <;> omega
  · have hlog : Double.log2 k ≤ 51 := Double.log2_le_of_lt k 51 hk
    have hlog100 : Double.log2 100 = 6 := by decide
    unfold Double.round
    rw [if_neg h0]
    simp only [hlog100]
    obtain ⟨m', e', h1, h2, h3⟩ := Double.round_tail_cents s k
      (max (if (Double.scale k 100 ((Double.log2 k : Int) - ((6 : Nat) : Int) - 52)).1 /
            (Double.scale k 100 ((Double.log2 k : Int) - ((6 : Nat) : Int) - 52)).2 < 2 ^ 52
          then (Double.log2 k : Int) - ((6 : Nat) : Int) - 52 - 1
          else (Double.log2 k : Int) - ((6 : Nat) : Int) - 52) (-1074))
      (max_le (by split_ifs <;> omega) (by norm_num))
    exact ⟨m', e', h1, h2, h3⟩

/-- The text `%.2f` prints for the double nearest to `k / 100`. -/
theorem printFixed2_cents (s : Bool) (k : Nat) (hk : k < 2 ^ 52) :
    printFixed2 (Double.round s k 100) =
      (if s then ['-'] else []) ++ natToDecimal (k / 100) ++
        ['.', digitChar (k % 100 / 10), digitChar (k % 10)] := by
  obtain ⟨m, e, he, hr, hk2⟩ := Double.round_cents s k hk
  rw [hr]
  unfold printFixed2
  have hscale : Double.scale (m * 100) 1 (-e) = (m * 100, 1 * 2 ^ (-e).toNat) := by
    unfold Double.scale
    rw [if_pos (by omega)]
  simp only [hscale, hk2]

theorem startsWithNoCase_digit (c : Char) (t w : List Char) (x : Char) (hc : isdigit c = true)
    (hx : isdigit x = false) :
    startsWithNoCase (c :: t) (x :: w) = false := by
  unfold isdigit at hc hx
  simp only [Bool.and_eq_true, decide_eq_true_eq] at hc
  simp only [Bool.and_eq_false_iff, decide_eq_false_iff_not] at hx
  have hne : tolower c.toNat ≠ x.toNat := by
    unfold tolower
    rw [if_neg (by omega)]
    omega
  simp [startsWithNoCase, List.take, hne]

/-- The text `atof` reads as a decimal number: after the optional minus sign
it begins with a digit that is not the start of a hexadecimal prefix. -/
theorem atof_decimal (s : Bool) (c : Char) (rest : List Char) (hc : isdigit c = true)
    (hx : ∀ x t, rest = x :: t → tolower x.toNat ≠ 120) :
    atof ((if s then ['-'] else []) ++ c :: rest) = strtodDecimal s (c :: rest) := by
  have hp : takeSign (((if s then ['-'] else []) ++ c :: rest).dropWhile isspace) =
      (s, c :: rest) := by
    cases s
    · simp only [Bool.false_eq_true, if_false, List.nil_append]
      rw [List.dropWhile_cons, isdigit_not_space hc]
      exact takeSign_digit c rest hc
    · simp only [if_true, List.singleton_append]
      rw [List.dropWhile_cons]
      rfl
  unfold atof
  rw [hp]
  simp only
  have e1 : "inf".toList = 'i' :: ['n', 'f'] := rfl
  have e2 : "nan".toList = 'n' :: ['a', 'n'] := rfl
  rw [e1, e2, startsWithNoCase_digit c rest _ 'i' hc (by decide),
    startsWithNoCase_digit c rest _ 'n' hc (by decide)]
  simp only [Bool.false_eq_true, if_false]
  split
  · rename_i x t heq
    cases heq
    have := hx x t rfl
    simp [this]
  · rfl

/-- Reading back with `atof` a text of digits, a point and two digits. -/
theorem atof_fixed (s : Bool) (q : List Char) (d1 d2 : Nat) (hq : ∀ c ∈ q, isdigit c = true)
    (hne : q ≠ []) (h1 : d1 < 10) (h2 : d2 < 10) :
    atof ((if s then ['-'] else []) ++ q ++ ['.', digitChar d1, digitChar d2]) =
      Double.round s (digitsValue q * 100 + d1 * 10 + d2) 100 := by
  have hd1 := isdigit_digitChar d1 h1
  have hd2 := isdigit_digitChar d2 h2
  cases hqc : q with
  | nil => exact absurd hqc hne
  | cons c q' =>
    have hc : isdigit c = true := hq c (by rw [hqc]; exact List.mem_cons_self _ _)
    have hq' : ∀ x ∈ q', isdigit x = true :=
      fun x hx => hq x (by rw [hqc]; exact List.mem_cons_of_mem _ hx)
    have hx : ∀ x t, q' ++ ['.', digitChar d1, digitChar d2] = x :: t →
        tolower x.toNat ≠ 120 := by
      intro x t heq
      cases q' with
      | nil =>
        simp only [List.nil_append, List.cons.injEq] at heq
        rw [← heq.1]
        decide
      | cons y ys =>
        simp only [List.cons_append, List.cons.injEq] at heq
        have hy : isdigit y = true := hq' y (List.mem_cons_self _ _)
        rw [← heq.1]
        unfold isdigit at hy
        simp only [Bool.and_eq_true, decide_eq_true_eq] at hy
        unfold tolower
        rw [if_neg (by omega)]
        omega
    have happ : (if s then ['-'] else []) ++ c :: q' ++ ['.', digitChar d1, digitChar d2] =
        (if s then ['-'] else []) ++ c :: (q' ++ ['.', digitChar d1, digitChar d2]) := by
      simp
    rw [happ, atof_decimal s c _ hc hx]
    have hbody : c :: (q' ++ ['.', digitChar d1, digitChar d2]) =
        q ++ '.' :: [digitChar d1, digitChar d2] := by
      rw [hqc]
      rfl
    rw [hbody]
    unfold strtodDecimal
    rw [takeWhile_append_stop q '.' _ hq (by decide), dropWhile_append_stop q '.' _ hq (by decide)]
    have hfrac : fractionDigits isdigit ('.' :: [digitChar d1, digitChar d2]) =
        [digitChar d1, digitChar d2] := by
      simp [fractionDigits, List.takeWhile_cons, hd1, hd2]
    have hafter : afterFraction isdigit ('.' :: [digitChar d1, digitChar d2]) = [] := by
      simp [afterFraction, List.dropWhile_cons, hd1, hd2]
    rw [hfrac, hafter]
    have hval : digitsValue (q ++ [digitChar d1, digitChar d2]) =
        digitsValue q * 100 + d1 * 10 + d2 := by
      have : q ++ [digitChar d1, digitChar d2] = (q ++ [digitChar d1]) ++ [digitChar d2] := by
        simp
      rw [this, digitsValue_append_single, digitsValue_append_single, digitChar_toNat d1 h1,
        digitChar_toNat d2 h2]
      omega
    rw [← hqc]
    have hemp : ((q.isEmpty && [digitChar d1, digitChar d2].isEmpty) = true) = False := by
      simp
    simp only [hemp, if_false, exponentPart, List.length_cons, List.length_nil, hval]
    norm_num
    rfl

/-- The double nearest to a whole number of cents below `2^52` is read back
unchanged from what `%.2f` prints for it. -/
theorem atof_printFixed2_cents (s : Bool) (k : Nat) (hk : k < 2 ^ 52) :
    atof (printFixed2 (Double.round s k 100)) = Double.round s k 100 := by
  obtain ⟨hd, hv, hne⟩ := natToDecimal_spec (k / 100)
  rw [printFixed2_cents s k hk,
    atof_fixed s (natToDecimal (k / 100)) (k % 100 / 10) (k % 10) hd hne (by omega) (by omega), hv]
  congr 1
  omega

/-- What is read back from the `%.2f` text of a finite value is the double
nearest to that value rounded to whole cents. -/
theorem atof_printFixed2_finite (s : Bool) (m : Nat) (e : Int) :
    atof (printFixed2 (Double.finite s m e)) =
      Double.round s (Double.roundHalfEven (Double.scale (m * 100) 1 (-e)).1
        (Double.scale (m * 100) 1 (-e)).2) 100 := by
  unfold printFixed2
  simp only
  generalize Double.roundHalfEven (Double.scale (m * 100) 1 (-e)).1
    (Double.scale (m * 100) 1 (-e)).2 = k
  obtain ⟨hd, hv, hne⟩ := natToDecimal_spec (k / 100)
  rw [atof_fixed s (natToDecimal (k / 100)) (k % 100 / 10) (k % 10) hd hne (by omega) (by omega),
    hv]
  congr 1
  omega

/-- Infinities and NaNs are read back from their `%.2f` text with their
sign. -/
theorem atof_printFixed2_not_number (a : Double) (h : a.isNumber = false) :
    atof (printFixed2 a) = a := by
  cases a with
  | finite s m e => simp [Double.isNumber] at h
  | inf s => cases s <;> decide
  | nan s => cases s <;> decide

/-! ## Rounding of quotients by 100 -/

theorem Double.round_eq_roundAt (s : Bool) (n d : Nat) (hn : n ≠ 0) :
    Double.round s n d = Double.roundAt s n d (Double.roundExponent n d) := by
  unfold Double.round Double.roundAt Double.roundExponent
  rw [if_neg hn]

theorem Double.scale_eq (n d : Nat) (x : Int) :
    Double.scale n d x = (n * 2 ^ (-x).toNat, d * 2 ^ x.toNat) := by
  unfold Double.scale
  split
  · have h0 : (-x).toNat = 0 := by omega
    rw [h0, pow_zero, mul_one]
  · have h0 : x.toNat = 0 := by omega
    rw [h0, pow_zero, mul_one]

theorem Double.bitLength_ge (fuel n b : Nat) (h1 : 2 ^ b ≤ n) (h2 : b < fuel) :
    b + 1 ≤ Double.bitLength fuel n := by
  induction fuel generalizing n b with
  | zero => omega
  | succ fuel ih =>
    have hpos : 0 < 2 ^ b := Nat.two_pow_pos b
    unfold Double.bitLength
    rw [if_neg (by omega)]
    cases b with
    | zero => omega
    | succ b =>
      have : 2 ^ b ≤ n / 2 := by
        rw [Nat.le_div_iff_mul_le (by norm_num)]
        rw [pow_succ] at h1
        exact h1
      have := ih (n / 2) b this (by omega)
      omega

theorem Double.log2_ge (n b : Nat) (h : 2 ^ b ≤ n) : b ≤ Double.log2 n := by
  have hb : b < 2 ^ b := Nat.lt_two_pow b
  have := Double.bitLength_ge n n b h (by omega)
  unfold Double.log2
  omega

/-- The binary logarithm brackets its argument. -/
theorem Double.log2_spec (n : Nat) (hn : n ≠ 0) :
    2 ^ Double.log2 n ≤ n ∧ n < 2 ^ (Double.log2 n + 1) := by
  constructor
  · by_contra hc
    have hlt : n < 2 ^ Double.log2 n := by omega
    cases hL : Double.log2 n with
    | zero =>
      rw [hL] at hlt
      simp at hlt
      exact hn hlt
    | succ b =>
      rw [hL] at hlt
      have := Double.log2_le_of_lt n b hlt
      omega
  · by_contra hc
    have := Double.log2_ge n (Double.log2 n + 1) (by omega)
    omega

theorem Double.scale_natCast (n d p : Nat) :
    Double.scale n d (p : Int) = (n, d * 2 ^ p) := by
  rw [Double.scale_eq]
  have h1 : (-(p : Int)).toNat = 0 := by omega
  have h2 : (p : Int).toNat = p := by omega
  rw [h1, h2, pow_zero, mul_one]

theorem Double.scale_neg_natCast (n d j : Nat) :
    Double.scale n d (-(j : Int)) = (n * 2 ^ j, d) := by
  rw [Double.scale_eq]
  have h1 : (-(-(j : Int))).toNat = j := by omega
  have h2 : (-(j : Int)).toNat = 0 := by omega
  rw [h1, h2, pow_zero, mul_one]

/-- The exponent chosen for a quotient `n / 100` with `n` of at least 53 bits
is at least -7 and leaves a quotient of exactly 53 bits. -/
theorem Double.roundExponent_spec (n : Nat) (hn : 2 ^ 52 ≤ n) :
    -7 ≤ Double.roundExponent n 100 ∧
      2 ^ 52 * (Double.scale n 100 (Double.roundExponent n 100)).2 ≤
        (Double.scale n 100 (Double.roundExponent n 100)).1 ∧
      (Double.scale n 100 (Double.roundExponent n 100)).1 <
        2 ^ 53 * (Double.scale n 100 (Double.roundExponent n 100)).2 := by
  have hn0 : n ≠ 0 := by
    have := Nat.two_pow_pos 52
    omega
  obtain ⟨hlo, hhi⟩ := Double.log2_spec n hn0
  have hL : 52 ≤ Double.log2 n := Double.log2_ge n 52 hn
  have h100 : Double.log2 100 = 6 := by decide
  unfold Double.roundExponent
  rw [h100]
  generalize Double.log2 n = L at hlo hhi hL ⊢
  by_cases hbig : 58 ≤ L
  · obtain ⟨p, rfl⟩ : ∃ p, L = 58 + p := ⟨L - 58, by omega⟩
    have he0 : ((58 + p : Nat) : Int) - ((6 : Nat) : Int) - 52 = (p : Int) := by
      push_cast
      omega
    rw [he0, Double.scale_natCast]
    simp only
    have e58 : 2 ^ (58 + p) = 2 ^ 58 * 2 ^ p := pow_add 2 58 p
    have e59 : 2 ^ (58 + p + 1) = 2 ^ 59 * 2 ^ p := by
      rw [show 58 + p + 1 = 59 + p by omega, pow_add]
    rw [e58] at hlo
    rw [e59] at hhi
    by_cases ht : n / (100 * 2 ^ p) < 2 ^ 52
    · rw [if_pos ht]
      have ht2 : n < 2 ^ 52 * (100 * 2 ^ p) := (Nat.div_lt_iff_lt_mul (by positivity)).mp ht
      have hmax : max ((p : Int) - 1) (-1074) = (p : Int) - 1 := max_eq_left (by omega)
      rw [hmax]
      cases p with
      | zero =>
        have hx : ((0 : Nat) : Int) - 1 = -((1 : Nat) : Int) := by norm_num
        rw [hx, Double.scale_neg_natCast]
        simp only
        norm_num at hlo hhi ht2 ⊢
        omega
      | succ q =>
        have hx : ((q + 1 : Nat) : Int) - 1 = (q : Int) := by
          push_cast
          omega
        rw [hx, Double.scale_natCast]
        simp only
        have hQ : 2 ^ (q + 1) = 2 * 2 ^ q := by rw [pow_succ, mul_comm]
        rw [hQ] at hlo hhi ht2
        clear ht hQ hx hmax e58 e59 he0
        generalize 2 ^ q = Q at hlo hhi ht2 ⊢
        norm_num at hlo hhi ht2 ⊢
        omega
    · rw [if_neg ht]
      have ht2 : 2 ^ 52 * (100 * 2 ^ p) ≤ n := by
        by_contra hc
        exact ht ((Nat.div_lt_iff_lt_mul (by positivity)).mpr (by omega))
      have hmax : max (p : Int) (-1074) = (p : Int) := max_eq_left (by omega)
      rw [hmax, Double.scale_natCast]
      simp only
      clear ht hmax e58 e59 he0
      generalize 2 ^ p = P at hlo hhi ht2 ⊢
      norm_num at hlo hhi ht2 ⊢
      omega
  · obtain ⟨j, hj1, hj2, rfl⟩ : ∃ j, 1 ≤ j ∧ j ≤ 6 ∧ L = 58 - j :=
      ⟨58 - L, by omega, by omega, by omega⟩
    have he0 : ((58 - j : Nat) : Int) - ((6 : Nat) : Int) - 52 = -(j : Int) := by
      push_cast [Nat.cast_sub (show j ≤ 58 by omega)]
      omega
    rw [he0, Double.scale_neg_natCast]
    simp only
    have e58 : 2 ^ (58 - j) * 2 ^ j = 2 ^ 58 := by
      rw [← pow_add]
      congr 1
      omega
    have e59 : 2 ^ (58 - j + 1) * 2 ^ j = 2 ^ 59 := by
      rw [← pow_add]
      congr 1
      omega
    have hJ : 0 < 2 ^ j := Nat.two_pow_pos j
    have hlo2 : 2 ^ 58 ≤ n * 2 ^ j := by
      rw [← e58]
      exact Nat.mul_le_mul_right _ hlo
    have hhi2 : n * 2 ^ j < 2 ^ 59 := by
      rw [← e59]
      exact Nat.mul_lt_mul_of_pos_right hhi hJ
    by_cases ht : n * 2 ^ j / 100 < 2 ^ 52
    · rw [if_pos ht]
      have ht2 : n * 2 ^ j < 2 ^ 52 * 100 := (Nat.div_lt_iff_lt_mul (by norm_num)).mp ht
      have hx : -(j : Int) - 1 = -((j + 1 : Nat) : Int) := by
        push_cast
        omega
      have hmax : max (-((j + 1 : Nat) : Int)) (-1074) = -((j + 1 : Nat) : Int) :=
        max_eq_left (by push_cast; omega)
      rw [hx, hmax, Double.scale_neg_natCast]
      simp only
      have hY : n * 2 ^ (j + 1) = 2 * (n * 2 ^ j) := by rw [pow_succ]; ring
      rw [hY]
      clear ht hY hx hmax e58 e59 he0
      generalize n * 2 ^ j = Y at hlo2 hhi2 ht2 ⊢
      norm_num at hlo2 hhi2 ht2 ⊢
      omega
    · rw [if_neg ht]
      have ht2 : 2 ^ 52 * 100 ≤ n * 2 ^ j := by
        by_contra hc
        exact ht ((Nat.div_lt_iff_lt_mul (by norm_num)).mpr (by omega))
      have hmax : max (-(j : Int)) (-1074) = -(j : Int) := max_eq_left (by omega)
      rw [hmax, Double.scale_neg_natCast]
      simp only
      clear ht hmax e58 e59 he0
      generalize n * 2 ^ j = Y at hlo2 hhi2 ht2 ⊢
      norm_num at hlo2 hhi2 ht2 ⊢
      omega

/-- With a quotient of exactly 53 bits at the exponent `e`, the last steps of
`round` give an infinity or a normal number: 53 bits at an exponent of at
least `e`. -/
theorem Double.roundAt_canonical (s : Bool) (n : Nat) (e : Int)
    (hlo : 2 ^ 52 * (Double.scale n 100 e).2 ≤ (Double.scale n 100 e).1)
    (hhi : (Double.scale n 100 e).1 < 2 ^ 53 * (Double.scale n 100 e).2) :
    Double.roundAt s n 100 e = Double.inf s ∨
      ∃ m e', e ≤ e' ∧ e' ≤ 971 ∧ 2 ^ 52 ≤ m ∧ m < 2 ^ 53 ∧
        Double.roundAt s n 100 e = Double.finite s m e' := by
  have hD : 0 < (Double.scale n 100 e).2 := by
    rw [Double.scale_eq]
    exact Nat.mul_pos (by norm_num) (Nat.two_pow_pos _)
  unfold Double.roundAt
  obtain ⟨n1, n2⟩ := Double.roundHalfEven_near (Double.scale n 100 e).1
    (Double.scale n 100 e).2 hD
  generalize (Double.scale n 100 e).1 = N at hlo hhi n1 n2 ⊢
  generalize (Double.scale n 100 e).2 = D at hlo hhi n1 n2 hD ⊢
  generalize Double.roundHalfEven N D = m at n1 n2 ⊢
  have hm1 : 2 ^ 52 ≤ m := by
    by_contra hc
    have hge : (m + 1) * D ≤ 2 ^ 52 * D := Nat.mul_le_mul_right D (by omega)
    rw [Nat.add_mul, one_mul] at hge
    omega
  have hm2 : m ≤ 2 ^ 53 := by
    by_contra hc
    have hge : (2 ^ 53 + 1) * D ≤ m * D := Nat.mul_le_mul_right D (by omega)
    rw [Nat.add_mul, one_mul] at hge
    omega
  by_cases hm : m = 2 ^ 53
  · simp only [hm, if_true]
    by_cases hinf : 971 < e + 1
    · left
      rw [if_pos hinf]
    · right
      rw [if_neg hinf]
      exact ⟨2 ^ 52, e + 1, by omega, by omega, le_refl _, by norm_num, rfl⟩
  · simp only [hm, if_false]
    by_cases hinf : 971 < e
    · left
      rw [if_pos hinf]
    · right
      rw [if_neg hinf]
      exact ⟨m, e, le_refl _, by omega, hm1, by omega, rfl⟩

/-- Only one exponent leaves a quotient of exactly 53 bits. -/
theorem Double.binade_not_lt (n : Nat) (x y : Int) (hxy : x < y)
    (hx : (Double.scale n 100 x).1 < 2 ^ 53 * (Double.scale n 100 x).2)
    (hy : 2 ^ 52 * (Double.scale n 100 y).2 ≤ (Double.scale n 100 y).1) : False := by
  rw [Double.scale_eq] at hx hy
  simp only at hx hy
  have h3 : 2 ^ 52 * (100 * 2 ^ y.toNat) * 2 ^ (-x).toNat ≤
      n * 2 ^ (-y).toNat * 2 ^ (-x).toNat := Nat.mul_le_mul_right _ hy
  have h4 : n * 2 ^ (-x).toNat * 2 ^ (-y).toNat <
      2 ^ 53 * (100 * 2 ^ x.toNat) * 2 ^ (-y).toNat :=
    Nat.mul_lt_mul_of_pos_right hx (Nat.two_pow_pos _)
  have h5 : 2 ^ 52 * 100 * 2 ^ (y.toNat + (-x).toNat) <
      2 ^ 52 * 100 * 2 ^ (x.toNat + (-y).toNat + 1) := by
    calc 2 ^ 52 * 100 * 2 ^ (y.toNat + (-x).toNat)
        = 2 ^ 52 * (100 * 2 ^ y.toNat) * 2 ^ (-x).toNat := by rw [pow_add]; ring
      _ ≤ n * 2 ^ (-y).toNat * 2 ^ (-x).toNat := h3
      _ = n * 2 ^ (-x).toNat * 2 ^ (-y).toNat := by ring
      _ < 2 ^ 53 * (100 * 2 ^ x.toNat) * 2 ^ (-y).toNat := h4
      _ = 2 ^ 52 * 100 * 2 ^ (x.toNat + (-y).toNat + 1) := by rw [pow_succ, pow_add]; ring
  have h6 : 2 ^ (y.toNat + (-x).toNat) < 2 ^ (x.toNat + (-y).toNat + 1) :=
    Nat.lt_of_mul_lt_mul_left h5
  have h7 := (Nat.pow_lt_pow_iff_right (by norm_num : 1 < 2)).mp h6
  omega

theorem Double.binade_unique (n : Nat) (x y : Int)
    (hx1 : 2 ^ 52 * (Double.scale n 100 x).2 ≤ (Double.scale n 100 x).1)
    (hx2 : (Double.scale n 100 x).1 < 2 ^ 53 * (Double.scale n 100 x).2)
    (hy1 : 2 ^ 52 * (Double.scale n 100 y).2 ≤ (Double.scale n 100 y).1)
    (hy2 : (Double.scale n 100 y).1 < 2 ^ 53 * (Double.scale n 100 y).2) : x = y := by
  rcases lt_trichotomy x y with h | h | h
  · exact (Double.binade_not_lt n x y h hx2 hy1).elim
  · exact h
  · exact (Double.binade_not_lt n y x h hy2 hx1).elim

theorem Double.roundHalfEven_one (n : Nat) : Double.roundHalfEven n 1 = n :=
  Double.roundHalfEven_eq n 1 n (by omega) (by omega)

/-- A normal number at an exponent of at least -6 is the double nearest to
its own value rounded to whole cents. -/
theorem Double.round_printed (s : Bool) (m : Nat) (e : Int) (hm1 : 2 ^ 52 ≤ m)
    (hm2 : m < 2 ^ 53) (he1 : -6 ≤ e) (he2 : e ≤ 971) :
    Double.round s (Double.roundHalfEven (Double.scale (m * 100) 1 (-e)).1
      (Double.scale (m * 100) 1 (-e)).2) 100 = Double.finite s m e := by
  have key : ∀ K, K = Double.roundHalfEven (Double.scale (m * 100) 1 (-e)).1
        (Double.scale (m * 100) 1 (-e)).2 →
      2 ^ 52 ≤ K ∧ 2 ^ 52 * (Double.scale K 100 e).2 ≤ (Double.scale K 100 e).1 ∧
        (Double.scale K 100 e).1 < 2 ^ 53 * (Double.scale K 100 e).2 ∧
        Double.roundHalfEven (Double.scale K 100 e).1 (Double.scale K 100 e).2 = m := by
    intro K hK
    by_cases hpos : 0 ≤ e
    · obtain ⟨p, rfl⟩ : ∃ p : Nat, e = (p : Int) := ⟨e.toNat, by omega⟩
      rw [Double.scale_neg_natCast, Double.roundHalfEven_one] at hK
      rw [Double.scale_natCast]
      simp only
      have hP : 0 < 2 ^ p := Nat.two_pow_pos p
      have hK2 : K = m * (100 * 2 ^ p) := by rw [hK]; ring
      have h1 : 2 ^ 52 * (100 * 2 ^ p) ≤ m * (100 * 2 ^ p) := Nat.mul_le_mul_right _ hm1
      have h2 : m * (100 * 2 ^ p) < 2 ^ 53 * (100 * 2 ^ p) :=
        Nat.mul_lt_mul_of_pos_right hm2 (by positivity)
      have h3 : m * 1 ≤ m * (100 * 2 ^ p) := Nat.mul_le_mul_left m (by omega)
      refine ⟨by omega, by omega, by omega, ?_⟩
      apply Double.roundHalfEven_eq <;> omega
    · obtain ⟨j, hj1, hj2, rfl⟩ : ∃ j : Nat, 1 ≤ j ∧ j ≤ 6 ∧ e = -(j : Int) :=
        ⟨(-e).toNat, by omega, by omega, by omega⟩
      rw [neg_neg, Double.scale_natCast] at hK
      simp only at hK
      obtain ⟨n1, n2⟩ := Double.roundHalfEven_near (m * 100) (1 * 2 ^ j)
        (Nat.mul_pos Nat.one_pos (Nat.two_pow_pos j))
      rw [← hK] at n1 n2
      rw [Double.scale_neg_natCast]
      simp only
      clear hK he1 he2 hpos
      have hfin : 2 ^ 52 ≤ K ∧ 2 ^ 52 * 100 ≤ K * 2 ^ j ∧ K * 2 ^ j < 2 ^ 53 * 100 ∧
          2 * (m * 100) < 2 * (K * 2 ^ j) + 100 ∧ 2 * (K * 2 ^ j) < 2 * (m * 100) + 100 := by
        interval_cases j <;> norm_num at n1 n2 hm1 hm2 ⊢ <;> omega
      exact ⟨hfin.1, hfin.2.1, hfin.2.2.1,
        Double.roundHalfEven_eq _ _ _ hfin.2.2.2.1 hfin.2.2.2.2⟩
  obtain ⟨hK, hb1, hb2, hR⟩ := key _ rfl
  generalize Double.roundHalfEven (Double.scale (m * 100) 1 (-e)).1
    (Double.scale (m * 100) 1 (-e)).2 = K at hK hb1 hb2 hR ⊢
  obtain ⟨-, hc1, hc2⟩ := Double.roundExponent_spec K hK
  have hE : Double.roundExponent K 100 = e := Double.binade_unique K _ _ hc1 hc2 hb1 hb2
  have hK0 : K ≠ 0 := by
    have := Nat.two_pow_pos 52
    omega
  rw [Double.round_eq_roundAt s K 100 hK0, hE]
  unfold Double.roundAt
  rw [hR]
  have hne : m ≠ 2 ^ 53 := by omega
  rw [if_neg hne, if_neg (by omega), if_neg hne]

theorem Double.roundAt_cents (s : Bool) (k : Nat) (e : Int) (he : e ≤ -7) :
    ∃ m' e', e' ≤ -6 ∧ Double.roundAt s k 100 e = Double.finite s m' e' ∧
      Double.roundHalfEven (m' * 100) (1 * 2 ^ (-e').toNat) = k := by
  unfold Double.roundAt
  exact Double.round_tail_cents s k e he

/-- The double nearest to a whole number of cents is read back unchanged from
what `%.2f` prints for it. -/
theorem atof_printFixed2_round (s : Bool) (k : Nat) :
    atof (printFixed2 (Double.round s k 100)) = Double.round s k 100 := by
  by_cases hk : k < 2 ^ 52
  · exact atof_printFixed2_cents s k hk
  · have hk2 : 2 ^ 52 ≤ k := by omega
    have hk0 : k ≠ 0 := by
      have := Nat.two_pow_pos 52
      omega
    obtain ⟨hE, hb1, hb2⟩ := Double.roundExponent_spec k hk2
    by_cases hE7 : Double.roundExponent k 100 ≤ -7
    · obtain ⟨m', e', he', hr, hk'⟩ := Double.roundAt_cents s k _ hE7
      have hscale : Double.scale (m' * 100) 1 (-e') = (m' * 100, 1 * 2 ^ (-e').toNat) := by
        unfold Double.scale
        rw [if_pos (by omega)]
      rw [Double.round_eq_roundAt s k 100 hk0, hr, atof_printFixed2_finite, hscale]
      simp only
      rw [hk', Double.round_eq_roundAt s k 100 hk0, hr]
    · rcases Double.roundAt_canonical s k _ hb1 hb2 with h | ⟨m, e', h1, h2, h3, h4, h5⟩
      · rw [Double.round_eq_roundAt s k 100 hk0, h]
        exact atof_printFixed2_not_number _ rfl
      · rw [Double.round_eq_roundAt s k 100 hk0, h5, atof_printFixed2_finite]
        exact Double.round_printed s m e' h3 h4 (by omega) h2

theorem strcasecmp_eq_zero_both (s a b : List Char)
    (ha : strcasecmp s a = 0) (hb : strcasecmp s b = 0) : strcasecmp a b = 0 :=
  strcasecmp_eq_zero_trans a s b (by rw [strcasecmp_swap, ha]; rfl) hb

/-! ## Type labels -/

/-- C9: `getBoatTypeFromString s` is `LAND`, `TRAILOR` or `STORAGE` exactly when
`s` compares equal, ignoring case, to `land`, `trailor` or `storage`; it is
`SLIP` exactly when `s` compares equal to `slip` or to none of the four labels
(the default); reading back the label written for a type gives the type; and
the labels written are the lower-case words. -/
theorem getBoatTypeFromString_spec (s : List Char) :
    (getBoatTypeFromString s = BoatType.LAND ↔ strcasecmp s "land".toList = 0) ∧
    (getBoatTypeFromString s = BoatType.TRAILOR ↔ strcasecmp s "trailor".toList = 0) ∧
    (getBoatTypeFromString s = BoatType.STORAGE ↔ strcasecmp s "storage".toList = 0) ∧
    (getBoatTypeFromString s = BoatType.SLIP ↔
      (strcasecmp s "slip".toList = 0 ∨
        (strcasecmp s "land".toList ≠ 0 ∧ strcasecmp s "trailor".toList ≠ 0 ∧
          strcasecmp s "storage".toList ≠ 0))) ∧
    (∀ t : BoatType, getBoatTypeFromString (boatTypeToString t) = t) ∧
    boatTypeToString BoatType.SLIP = ['s', 'l', 'i', 'p'] ∧
    boatTypeToString BoatType.LAND = ['l', 'a', 'n', 'd'] ∧
    boatTypeToString BoatType.TRAILOR = ['t', 'r', 'a', 'i', 'l', 'o', 'r'] ∧
    boatTypeToString BoatType.STORAGE = ['s', 't', 'o', 'r', 'a', 'g', 'e'] := by
  have h12 : strcasecmp s "slip".toList = 0 → strcasecmp s "land".toList = 0 → False :=
    fun h1 h2 => absurd (strcasecmp_eq_zero_both s _ _ h1 h2) (by decide)
  have h13 : strcasecmp s "slip".toList = 0 → strcasecmp s "trailor".toList = 0 → False :=
    fun h1 h2 => absurd (strcasecmp_eq_zero_both s _ _ h1 h2) (by decide)
  have h14 : strcasecmp s "slip".toList = 0 → strcasecmp s "storage".toList = 0 → False :=
    fun h1 h2 => absurd (strcasecmp_eq_zero_both s _ _ h1 h2) (by decide)
  have h23 : strcasecmp s "land".toList = 0 → strcasecmp s "trailor".toList = 0 → False :=
    fun h1 h2 => absurd (strcasecmp_eq_zero_both s _ _ h1 h2) (by decide)
  have h24 : strcasecmp s "land".toList = 0 → strcasecmp s "storage".toList = 0 → False :=
    fun h1 h2 => absurd (strcasecmp_eq_zero_both s _ _ h1 h2) (by decide)
  have h34 : strcasecmp s "trailor".toList = 0 → strcasecmp s "storage".toList = 0 → False :=
    fun h1 h2 => absurd (strcasecmp_eq_zero_both s _ _ h1 h2) (by decide)
  refine ⟨?_, ?_, ?_, ?_, ?_, rfl, rfl, rfl, rfl⟩
  · unfold getBoatTypeFromString
    generalize strcasecmp s "slip".toList = x1 at h12 h13 h14 ⊢
    generalize strcasecmp s "land".toList = x2 at h12 h23 h24 ⊢
    generalize strcasecmp s "trailor".toList = x3 at h13 h23 h34 ⊢
    generalize strcasecmp s "storage".toList = x4 at h14 h24 h34 ⊢
    split_ifs <;> simp_all
  · unfold getBoatTypeFromString
    generalize strcasecmp s "slip".toList = x1 at h12 h13 h14 ⊢
    generalize strcasecmp s "land".toList = x2 at h12 h23 h24 ⊢
    generalize strcasecmp s "trailor".toList = x3 at h13 h23 h34 ⊢
    generalize strcasecmp s "storage".toList = x4 at h14 h24 h34 ⊢
    split_ifs <;> simp_all
  · unfold getBoatTypeFromString
    generalize strcasecmp s "slip".toList = x1 at h12 h13 h14 ⊢
    generalize strcasecmp s "land".toList = x2 at h12 h23 h24 ⊢
    generalize strcasecmp s "trailor".toList = x3 at h13 h23 h34 ⊢
    generalize strcasecmp s "storage".toList = x4 at h14 h24 h34 ⊢
    split_ifs <;> simp_all
  · unfold getBoatTypeFromString
    generalize strcasecmp s "slip".toList = x1 at h12 h13 h14 ⊢
    generalize strcasecmp s "land".toList = x2 at h12 h23 h24 ⊢
    generalize strcasecmp s "trailor".toList = x3 at h13 h23 h34 ⊢
    generalize strcasecmp s "storage".toList = x4 at h14 h24 h34 ⊢
    split_ifs <;> simp_all
  · intro t
    cases t <;> decide

/-! ## Adding a boat -/

/-- C5: when the store already holds the maximum of 120 boats, `addBoat`
returns the store unchanged (same boats, same count) for every input line. -/
theorem addBoat_full (boats : List Boat) (csvLine : List Char)
    (hfull : boats.length = 120) : addBoat boats csvLine = boats := by
  simp [addBoat, MAX_BOATS, hfull]

/-- The capacity guard at a store of 120 boats. -/
theorem addBoat_full_witness :
    fullStore.length = 120 ∧ addBoat fullStore "Zed,10,slip,1,0.00".toList = fullStore :=
  ⟨by simp [fullStore], addBoat_full fullStore _ (by simp [fullStore])⟩

/-- C8: a line with fewer than five comma-separated fields produces no record
and `addBoat` returns the store unchanged. -/
theorem addBoat_few_fields (boats : List Boat) (csvLine : List Char)
    (hfields : (splitFields csvLine).length < 5) :
    parseBoat csvLine = none ∧ addBoat boats csvLine = boats := by
  have hnone : parseBoat csvLine = none := by
    cases hp : parseBoat csvLine with
    | none => rfl
    | some b =>
      have := parseBoat_some_count hp
      rw [splitFields_length] at hfields
      omega
  refine ⟨hnone, ?_⟩
  simp [addBoat, hnone]

/-- A line of four fields is dropped. -/
theorem addBoat_few_fields_witness :
    (splitFields "Betty,30,slip,2".toList).length < 5 ∧
      parseBoat "Betty,30,slip,2".toList = none ∧
      addBoat [] "Betty,30,slip,2".toList = [] :=
  ⟨by decide, addBoat_few_fields [] _ (by decide)⟩

/-- C1: every store reached from the empty store by any sequence of `addBoat`,
`removeBoat`, `acceptPayment` and `updateMonthlyFees` is sorted by name: each
boat's name compares at or below (`caseInsensitiveCompare ... ≤ 0`) the name of
the boat in the next slot. -/
theorem run_sortedByName (ops : List Op) : SortedByName (run [] ops) :=
  (sortedByName_iff _).mpr (pairwise_run ops List.Pairwise.nil)

/-- C4: let `name` be the name `removeBoat` reads.  If some boat's name equals
it ignoring case, the result is the old store with the element at the first
matching index erased (one boat fewer, the others unchanged and in the same
order); if no boat matches, the store is returned unchanged. -/
theorem removeBoat_spec (boats : List Boat) (buf : List Char) :
    ((∃ b ∈ boats, caseInsensitiveCompare b.name (readName buf) = 0) →
      ∃ i, FirstMatch boats (readName buf) i ∧
        removeBoat boats (some buf) = boats.eraseIdx i ∧
        (removeBoat boats (some buf)).length + 1 = boats.length) ∧
    ((∀ b ∈ boats, caseInsensitiveCompare b.name (readName buf) ≠ 0) →
      removeBoat boats (some buf) = boats ∧
        (removeBoat boats (some buf)).length = boats.length) := by
  rcases findBoatIndexByName_cases boats (readName buf) with ⟨h1, h2⟩ | ⟨k, h1, h2⟩
  · constructor
    · rintro ⟨b, hb, hb0⟩
      exact absurd hb0 (h2 b hb)
    · intro _
      simp [removeBoat, h1]
  · constructor
    · intro _
      have hk := firstMatch_lt h2
      have he : removeBoat boats (some buf) = boats.eraseIdx k := by
        simp [removeBoat, h1, take_append_drop_succ_eq_eraseIdx]
      refine ⟨k, h2, he, ?_⟩
      rw [he, List.length_eraseIdx, if_pos hk]
      omega
    · intro hno
      obtain ⟨b, hb, hb0⟩ := firstMatch_mem h2
      exact absurd hb0 (hno b hb)

/-- Removing `betty` from the sample store, and a name that is not there. -/
theorem removeBoat_spec_witness :
    (∃ b ∈ sampleStore, caseInsensitiveCompare b.name (readName "betty\n".toList) = 0) ∧
    (∃ i, FirstMatch sampleStore (readName "betty\n".toList) i ∧
      removeBoat sampleStore (some "betty\n".toList) = sampleStore.eraseIdx i ∧
      (removeBoat sampleStore (some "betty\n".toList)).length + 1 = sampleStore.length) ∧
    (∀ b ∈ sampleStore, caseInsensitiveCompare b.name (readName "Carla\n".toList) ≠ 0) ∧
    removeBoat sampleStore (some "Carla\n".toList) = sampleStore ∧
    (removeBoat sampleStore (some "Carla\n".toList)).length = sampleStore.length :=
  ⟨by decide, (removeBoat_spec sampleStore "betty\n".toList).1 (by decide), by decide,
    (removeBoat_spec sampleStore "Carla\n".toList).2 (by decide)⟩

/-! ## Payments -/

/-- C2: let boat `b` with balance `b.amountOwed` be the boat matched by the
name `acceptPayment` reads (the first match, at index `i`), and let the amount
be the number read from the second prompt.  If the amount is greater than the
balance the store is returned unchanged, so the balance stays exactly what it
was; if the amount is at most the balance, the boat at index `i` ends with
balance exactly `b.amountOwed - amount` (subtraction of doubles). -/
theorem acceptPayment_guard (boats : List Boat) (nameBuf amtBuf : List Char) (i : Nat)
    (b : Boat) (hmatch : FirstMatch boats (readName nameBuf) i) (hb : boats[i]? = some b) :
    (Double.gt (atof amtBuf) b.amountOwed = true →
      acceptPayment boats (some nameBuf) (some amtBuf) = boats ∧
        (acceptPayment boats (some nameBuf) (some amtBuf))[i]?.map Boat.amountOwed =
          some b.amountOwed) ∧
    (Double.le (atof amtBuf) b.amountOwed = true →
      (acceptPayment boats (some nameBuf) (some amtBuf))[i]?.map Boat.amountOwed =
        some (Double.sub b.amountOwed (atof amtBuf))) := by
  have hfind := findBoatIndexByName_of_firstMatch hmatch
  have hi : i < boats.length := firstMatch_lt hmatch
  constructor
  · intro hgt
    have : acceptPayment boats (some nameBuf) (some amtBuf) = boats := by
      simp [acceptPayment, hfind, hb, hgt]
    rw [this]
    exact ⟨rfl, by simp [hb]⟩
  · intro hle
    have hgt := Double.gt_eq_false_of_le hle
    have hneg : ¬ ((i : Int) < 0) := by omega
    simp [acceptPayment, hfind, hb, hgt, hi, hneg]

set_option maxRecDepth 100000 in
/-- Payments of 140.00 and of 40.00 on a balance of 100.00. -/
theorem acceptPayment_guard_witness :
    (acceptPayment sampleStore (some "Betty\n".toList) (some "140.00\n".toList) = sampleStore ∧
      (acceptPayment sampleStore (some "Betty\n".toList) (some "140.00\n".toList))[1]?.map
        Boat.amountOwed = some betty.amountOwed) ∧
    (acceptPayment sampleStore (some "Betty\n".toList) (some "40.00\n".toList))[1]?.map
      Boat.amountOwed = some (Double.sub betty.amountOwed (atof "40.00\n".toList)) :=
  have hm : FirstMatch sampleStore (readName "Betty\n".toList) 1 :=
    ⟨⟨betty, rfl, by decide⟩, by
      intro j b hj hb
      interval_cases j
      simp [sampleStore] at hb
      subst hb
      decide⟩
  ⟨(acceptPayment_guard sampleStore "Betty\n".toList "140.00\n".toList 1 betty hm rfl).1
      (by decide),
    (acceptPayment_guard sampleStore "Betty\n".toList "40.00\n".toList 1 betty hm rfl).2
      (by decide)⟩

/-! ## Monthly fees -/

/-- C3 (as stated, refuted): the boat of the line `Gull,7,storage,3,0.05`
owes, after two accruals, a balance that differs from the old balance plus
`2 * 7 * 11.20`, both when that sum is computed in doubles and when it is the
exact sum `156.85` rounded to a double. -/
theorem updateMonthlyFees_twice_counterexample :
    addBoat [] "Gull,7,storage,3,0.05".toList = [gull] ∧
    (updateMonthlyFees (updateMonthlyFees [gull])).map Boat.amountOwed ≠
      [Double.add gull.amountOwed (Double.mul (Double.ofInt (2 * 7)) (rate BoatType.STORAGE))] ∧
    (updateMonthlyFees (updateMonthlyFees [gull])).map Boat.amountOwed ≠
      [atof "156.85".toList] ∧
    (updateMonthlyFees (updateMonthlyFees [gull])).map Boat.amountOwed =
      [Double.finite false 5518668762133298 (-45)] ∧
    Double.add gull.amountOwed (Double.mul (Double.ofInt (2 * 7)) (rate BoatType.STORAGE)) =
      Double.finite false 5518668762133299 (-45) ∧
    atof "156.85".toList = Double.finite false 5518668762133299 (-45) := by
  set_option maxRecDepth 100000 in decide

/-- C3 (amended): one `updateMonthlyFees` replaces the balance of every boat
of type `T` and length `L` by `balance + L * rate(T)`, computed in doubles,
where the rates are the doubles nearest to 12.50, 14.00, 25.00 and 11.20; two
calls replace it by `(balance + L * rate(T)) + L * rate(T)`.  Nothing else
changes. -/
theorem updateMonthlyFees_accrual (boats : List Boat) :
    updateMonthlyFees boats =
      boats.map (fun b => { b with
        amountOwed := Double.add b.amountOwed (Double.mul (Double.ofInt b.length) (rate b.type)) }) ∧
    updateMonthlyFees (updateMonthlyFees boats) =
      boats.map (fun b => { b with
        amountOwed := Double.add
          (Double.add b.amountOwed (Double.mul (Double.ofInt b.length) (rate b.type)))
          (Double.mul (Double.ofInt b.length) (rate b.type)) }) ∧
    rate BoatType.SLIP = Double.round false 1250 100 ∧
    rate BoatType.LAND = Double.round false 1400 100 ∧
    rate BoatType.TRAILOR = Double.round false 2500 100 ∧
    rate BoatType.STORAGE = Double.round false 1120 100 := by
  have hfee : ∀ b : Boat, monthlyFee b = Double.mul (Double.ofInt b.length) (rate b.type) := by
    intro b
    unfold monthlyFee rate
    cases b.type <;> rfl
  refine ⟨?_, ?_, rfl, rfl, rfl, rfl⟩
  · simp [updateMonthlyFees, hfee]
  · simp [updateMonthlyFees, hfee, List.map_map, Function.comp_def]

/-! ## The worked example -/

/-- C7: from the empty store, adding `Betty,30,slip,2,100.00` and then
`Alpha,20,land,B,50.00` gives the order Alpha, Betty; paying 40.00 for Betty
leaves her balance at 60; one accrual then makes Alpha owe 330 and Betty
435. -/
theorem worked_example :
    (addBoat (addBoat [] "Betty,30,slip,2,100.00".toList) "Alpha,20,land,B,50.00".toList).map
        Boat.name = ["Alpha".toList, "Betty".toList] ∧
    (acceptPayment
        (addBoat (addBoat [] "Betty,30,slip,2,100.00".toList) "Alpha,20,land,B,50.00".toList)
        (some "Betty\n".toList) (some "40.00\n".toList)).map
      (fun b => (b.name, b.amountOwed)) =
      [("Alpha".toList, Double.ofInt 50), ("Betty".toList, Double.ofInt 60)] ∧
    (updateMonthlyFees
        (acceptPayment
          (addBoat (addBoat [] "Betty,30,slip,2,100.00".toList) "Alpha,20,land,B,50.00".toList)
          (some "Betty\n".toList) (some "40.00\n".toList))).map
      (fun b => (b.name, b.amountOwed)) =
      [("Alpha".toList, Double.ofInt 330), ("Betty".toList, Double.ofInt 435)] ∧
    printFixed2 (Double.ofInt 60) = "60.00".toList ∧
    printFixed2 (Double.ofInt 330) = "330.00".toList ∧
    printFixed2 (Double.ofInt 435) = "435.00".toList := by
  set_option maxRecDepth 100000 in decide

/-! ## Trimming -/

/-- C10 (the code at the failing input): for the line
`  Betty  ,30,trailor,  TAG1  ,100.00` the stored name and tag keep their
leading blanks; only the trailing ones are removed. -/
theorem parseBoat_keeps_leading_space :
    parseBoat "  Betty  ,30,trailor,  TAG1  ,100.00".toList =
      some { name := "  Betty".toList, length := 30, type := BoatType.TRAILOR,
             info := Info.trailerTag "  TAG1".toList,
             amountOwed := Double.ofInt 100 } ∧
    trimWhitespace "  Betty  ".toList = "  Betty".toList := by
  set_option maxRecDepth 100000 in decide

/-! ## Round trip through the file format -/

/-- C6 (as stated, refuted): the boat of the line `Gull,7,storage,3,0.001`
can be held by the file format, it is written as `Gull,7,storage,3,0.00`, and
parsing that line gives a boat with balance zero, not the boat that was
written. -/
theorem parseBoat_saveLine_counterexample :
    addBoat [] "Gull,7,storage,3,0.001".toList = [gullMilli] ∧
    Storable gullMilli ∧
    saveLine gullMilli = "Gull,7,storage,3,0.00\n".toList ∧
    parseBoat (cutNewline (saveLine gullMilli)) =
      some { gullMilli with amountOwed := Double.finite false 0 (-1074) } ∧
    parseBoat (cutNewline (saveLine gullMilli)) ≠ some gullMilli := by
  set_option maxRecDepth 100000 in decide

/-- C6 (amended): for every boat the file format can hold (`Storable`),
parsing the line `saveBoatData` writes for it gives a boat with the same name,
length, type and payload, whose balance is the number read back from the
two-decimal text of the old balance.  The boat read is the boat written, in
every field, exactly when the balance is a whole number of cents (the double
nearest to `k / 100` for some natural number `k`, with either sign), an
infinity or a NaN. -/
theorem parseBoat_saveLine (b : Boat) (h : Storable b) :
    parseBoat (cutNewline (saveLine b)) =
        some { b with amountOwed := atof (printFixed2 b.amountOwed) } ∧
    (parseBoat (cutNewline (saveLine b)) = some b ↔
      WholeCents b.amountOwed ∨ b.amountOwed.isNumber = false) := by
  have key : parseBoat (cutNewline (saveLine b)) =
      some { b with amountOwed := atof (printFixed2 b.amountOwed) } := by
    obtain ⟨name, length, type, info, amountOwed⟩ := b
    obtain ⟨hne, hcomma, hnl, htrim, hnamelen, hl1, hl2, hpay, hline⟩ := h
    simp only at hne hcomma hnl htrim hnamelen hl1 hl2 hpay
    obtain ⟨p2, q2, s2⟩ := printInt_field length
    obtain ⟨p5, q5, -⟩ := printFixed2_field amountOwed
    cases type <;> cases info <;> simp only [payloadStorable] at hpay
    · -- SLIP
      rename_i n
      obtain ⟨p4, q4, s4⟩ := printInt_field n
      have hs : saveLine ⟨name, length, BoatType.SLIP, Info.slipNumber n, amountOwed⟩ =
          name ++ ',' :: (printInt length ++ ',' :: ("slip".toList ++ ',' ::
            (printInt n ++ ',' :: printFixed2 amountOwed))) ++ ['\n'] := by
        simp [saveLine, Info.number]
      rw [hs] at hline ⊢
      rw [parseBoat_written _ _ _ _ _ ⟨hne, hcomma⟩ p2 (by decide) p4 p5 hnl q2 (by decide) q4 q5
        hline]
      have hlen4 : (printInt n).length ≤ 255 := by
        simp only [List.length_append, List.length_cons] at hline
        omega
      rw [name_copy name hnamelen htrim, atoi_printInt length hl1 hl2,
        field_copy _ hlen4 (trimWhitespace_of_no_space _ s4)]
      have ht : getBoatTypeFromString (trimWhitespace "slip".toList) = BoatType.SLIP := by decide
      rw [ht]
      simp [makeInfo, atoi_printInt n hpay.1 hpay.2]
    · -- LAND
      rename_i c
      have hs : saveLine ⟨name, length, BoatType.LAND, Info.bay c, amountOwed⟩ =
          name ++ ',' :: (printInt length ++ ',' :: ("land".toList ++ ',' ::
            ([c] ++ ',' :: printFixed2 amountOwed))) ++ ['\n'] := by
        simp [saveLine, Info.bayChar]
      rw [hs] at hline ⊢
      rw [parseBoat_written _ _ _ _ _ ⟨hne, hcomma⟩ p2 (by decide)
        ⟨by simp, by simpa using Ne.symm hpay.1⟩ p5 hnl q2 (by decide)
        (by simpa using Ne.symm hpay.2.1) q5 hline]
      have htc : trimWhitespace [c] = [c] := by
        by_cases hc : isspace c = true
        · simp [trimWhitespace, List.dropWhile_cons, hc]
        · simp [trimWhitespace, List.dropWhile_cons, List.takeWhile_cons, hc, trimEndLoop]
      rw [name_copy name hnamelen htrim, atoi_printInt length hl1 hl2,
        field_copy _ (by simp) htc]
      have ht : getBoatTypeFromString (trimWhitespace "land".toList) = BoatType.LAND := by decide
      rw [ht]
      simp [makeInfo]
    · -- TRAILOR
      rename_i tag
      have hs : saveLine ⟨name, length, BoatType.TRAILOR, Info.trailerTag tag, amountOwed⟩ =
          name ++ ',' :: (printInt length ++ ',' :: ("trailor".toList ++ ',' ::
            (tag ++ ',' :: printFixed2 amountOwed))) ++ ['\n'] := by
        simp [saveLine, Info.tag]
      rw [hs] at hline ⊢
      rw [parseBoat_written _ _ _ _ _ ⟨hne, hcomma⟩ p2 (by decide) ⟨hpay.1, hpay.2.1⟩ p5 hnl q2
        (by decide) hpay.2.2.1 q5 hline]
      have hlen4 : tag.length ≤ 255 := by
        simp only [List.length_append, List.length_cons] at hline
        omega
      rw [name_copy name hnamelen htrim, atoi_printInt length hl1 hl2,
        field_copy _ hlen4 hpay.2.2.2]
      have ht : getBoatTypeFromString (trimWhitespace "trailor".toList) = BoatType.TRAILOR := by
        decide
      rw [ht]
      simp [makeInfo]
    · -- STORAGE
      rename_i n
      obtain ⟨p4, q4, s4⟩ := printInt_field n
      have hs : saveLine ⟨name, length, BoatType.STORAGE, Info.storageNumber n, amountOwed⟩ =
          name ++ ',' :: (printInt length ++ ',' :: ("storage".toList ++ ',' ::
            (printInt n ++ ',' :: printFixed2 amountOwed))) ++ ['\n'] := by
        simp [saveLine, Info.number]
      rw [hs] at hline ⊢
      rw [parseBoat_written _ _ _ _ _ ⟨hne, hcomma⟩ p2 (by decide) p4 p5 hnl q2 (by decide) q4 q5
        hline]
      have hlen4 : (printInt n).length ≤ 255 := by
        simp only [List.length_append, List.length_cons] at hline
        omega
      rw [name_copy name hnamelen htrim, atoi_printInt length hl1 hl2,
        field_copy _ hlen4 (trimWhitespace_of_no_space _ s4)]
      have ht : getBoatTypeFromString (trimWhitespace "storage".toList) = BoatType.STORAGE := by
        decide
      rw [ht]
      simp [makeInfo, atoi_printInt n hpay.1 hpay.2]
  refine ⟨key, ?_, ?_⟩
  · intro heq
    rw [key] at heq
    have hback : atof (printFixed2 b.amountOwed) = b.amountOwed := by
      have := congrArg (Option.map Boat.amountOwed) heq
      simpa using this
    cases ha : b.amountOwed with
    | finite s m e =>
      left
      rw [ha] at hback
      exact ⟨s, _, by rw [← hback, atof_printFixed2_finite]⟩
    | inf s => right; rfl
    | nan s => right; rfl
  · intro hw
    have hback : atof (printFixed2 b.amountOwed) = b.amountOwed := by
      rcases hw with ⟨s, k, ha⟩ | hn
      · rw [ha]
        exact atof_printFixed2_round s k
      · exact atof_printFixed2_not_number _ hn
    rw [key, hback]

set_option maxRecDepth 100000 in
/-- The boat of the worked example can be stored, its balance of 100.00 is a
whole number of cents, and reading its written line returns it in every
field. -/
theorem parseBoat_saveLine_witness :
    Storable betty ∧ WholeCents betty.amountOwed ∧
    parseBoat (cutNewline (saveLine betty)) = some betty :=
  ⟨by decide, ⟨false, 10000, by decide⟩,
    (parseBoat_saveLine betty (by decide)).2.mpr (Or.inl ⟨false, 10000, by decide⟩)⟩

/-! ## Lookup -/

/-- C11: `findBoatIndexByName` returns -1 exactly when no boat of the store
has a name equal to the given one ignoring case; otherwise it returns an index
`i`, and it returns `i` exactly when `i` is the least index whose boat has such
a name (`FirstMatch`). -/
theorem findBoatIndexByName_spec (boats : List Boat) (name : List Char) :
    (findBoatIndexByName boats name = -1 ↔
      ∀ b ∈ boats, caseInsensitiveCompare b.name name ≠ 0) ∧
    (∀ i : Nat, findBoatIndexByName boats name = (i : Int) ↔ FirstMatch boats name i) ∧
    (findBoatIndexByName boats name = -1 ∨
      ∃ i : Nat, i < boats.length ∧ findBoatIndexByName boats name = (i : Int)) := by
  rcases findBoatIndexByName_cases boats name with ⟨h1, h2⟩ | ⟨k, h1, h2⟩
  · refine ⟨⟨fun _ => h2, fun _ => h1⟩, ?_, Or.inl h1⟩
    intro i
    constructor
    · intro hi
      rw [h1] at hi
      omega
    · intro hi
      obtain ⟨b, hb, hb0⟩ := firstMatch_mem hi
      exact absurd hb0 (h2 b hb)
  · refine ⟨⟨?_, ?_⟩, ?_, Or.inr ⟨k, firstMatch_lt h2, h1⟩⟩
    · intro hneg
      rw [h1] at hneg
      omega
    · intro hno
      obtain ⟨b, hb, hb0⟩ := firstMatch_mem h2
      exact absurd hb0 (hno b hb)
    · intro i
      constructor
      · intro hi
        rw [h1] at hi
        have : k = i := by omega
        exact this ▸ h2
      · intro hi
        rw [h1, firstMatch_unique h2 hi]

/-! ## Sign of the balance after a payment -/

/-- C12 (as stated, refuted): paying the amount `nan` for Betty, who owes
100, is accepted (`nan > 100` is false) and leaves her balance NaN, which is
neither the old balance nor a value at or above zero. -/
theorem acceptPayment_nan_counterexample :
    (acceptPayment sampleStore (some "Betty\n".toList) (some "nan\n".toList))[1]?.map
        Boat.amountOwed = some (Double.nan false) ∧
    sampleStore[1]?.map Boat.amountOwed = some (Double.ofInt 100) ∧
    Double.nan false ≠ Double.ofInt 100 ∧
    Double.le Double.zero (Double.nan false) = false := by
  set_option maxRecDepth 100000 in decide

/-- C12 (amended): for the boat `b` found by the name read, after
`acceptPayment` either the store is unchanged, or the boat's balance is at
least zero, or it is NaN; and when the amount read and the old balance are
numbers (finite), either the store is unchanged or the balance is at least
zero.  In no case does an accepted payment leave a balance below zero. -/
theorem acceptPayment_nonneg (boats : List Boat) (nameBuf amtBuf : List Char) (i : Nat)
    (b : Boat) (hmatch : FirstMatch boats (readName nameBuf) i) (hb : boats[i]? = some b) :
    (acceptPayment boats (some nameBuf) (some amtBuf) = boats ∨
      ∃ a, (acceptPayment boats (some nameBuf) (some amtBuf))[i]?.map Boat.amountOwed = some a ∧
        (Double.le Double.zero a = true ∨ a.isNaN = true) ∧ Double.lt a Double.zero = false) ∧
    ((atof amtBuf).isNumber = true → b.amountOwed.isNumber = true →
      acceptPayment boats (some nameBuf) (some amtBuf) = boats ∨
      ∃ a, (acceptPayment boats (some nameBuf) (some amtBuf))[i]?.map Boat.amountOwed = some a ∧
        Double.le Double.zero a = true) := by
  have hfind := findBoatIndexByName_of_firstMatch hmatch
  have hi : i < boats.length := firstMatch_lt hmatch
  have hneg : ¬ ((i : Int) < 0) := by omega
  by_cases hgt : Double.gt (atof amtBuf) b.amountOwed = true
  · have : acceptPayment boats (some nameBuf) (some amtBuf) = boats := by
      simp [acceptPayment, hfind, hb, hgt]
    exact ⟨Or.inl this, fun _ _ => Or.inl this⟩
  · have hgt2 : Double.gt (atof amtBuf) b.amountOwed = false := by simpa using hgt
    have hres : (acceptPayment boats (some nameBuf) (some amtBuf))[i]?.map Boat.amountOwed =
        some (Double.sub b.amountOwed (atof amtBuf)) := by
      simp [acceptPayment, hfind, hb, hgt2, hi, hneg]
    have hsign := Double.sub_nonneg_or_nan b.amountOwed (atof amtBuf) hgt2
    constructor
    · right
      refine ⟨_, hres, hsign.symm, ?_⟩
      rcases hsign with h | h
      · cases hs : Double.sub b.amountOwed (atof amtBuf) with
        | nan s => rfl
        | inf s => rw [hs] at h; cases h
        | finite s m e => rw [hs] at h; cases h
      · have := Double.gt_eq_false_of_le h
        simpa [Double.gt] using this
    · intro hp hB
      right
      refine ⟨_, hres, ?_⟩
      rcases hsign with h | h
      · rw [Double.sub_ne_nan_of_isNumber _ _ hB hp] at h
        cases h
      · exact h

set_option maxRecDepth 100000 in
/-- A payment of 40.00 on Betty's balance of 100.00. -/
theorem acceptPayment_nonneg_witness :
    (acceptPayment sampleStore (some "Betty\n".toList) (some "40.00\n".toList) = sampleStore ∨
      ∃ a, (acceptPayment sampleStore (some "Betty\n".toList) (some "40.00\n".toList))[1]?.map
          Boat.amountOwed = some a ∧
        (Double.le Double.zero a = true ∨ a.isNaN = true) ∧ Double.lt a Double.zero = false) ∧
    (acceptPayment sampleStore (some "Betty\n".toList) (some "40.00\n".toList) = sampleStore ∨
      ∃ a, (acceptPayment sampleStore (some "Betty\n".toList) (some "40.00\n".toList))[1]?.map
          Boat.amountOwed = some a ∧ Double.le Double.zero a = true) :=
  have hm : FirstMatch sampleStore (readName "Betty\n".toList) 1 :=
    ⟨⟨betty, rfl, by decide⟩, by
      intro j b hj hb
      interval_cases j
      simp [sampleStore] at hb
      subst hb
      decide⟩
  ⟨(acceptPayment_nonneg sampleStore "Betty\n".toList "40.00\n".toList 1 betty hm rfl).1,
    (acceptPayment_nonneg sampleStore "Betty\n".toList "40.00\n".toList 1 betty hm rfl).2
      (by decide) (by decide)⟩

/-! ## Ties between equal names -/

/-- C13 (as stated, refuted): adding `Ann,1,slip,1,0` and then
`ANN,2,slip,2,0` puts the later boat in front of the earlier one, although
the two names compare equal. -/
theorem insertBoatSorted_tie_counterexample :
    caseInsensitiveCompare "Ann".toList "ANN".toList = 0 ∧
    SortedByName (addBoat [] "Ann,1,slip,1,0".toList) ∧
    (addBoat (addBoat [] "Ann,1,slip,1,0".toList) "ANN,2,slip,2,0".toList).map Boat.name =
      ["ANN".toList, "Ann".toList] ∧
    (addBoat (addBoat [] "Ann,1,slip,1,0".toList) "ANN,2,slip,2,0".toList).map Boat.name ≠
      ["Ann".toList, "ANN".toList] := by
  set_option maxRecDepth 100000 in decide

/-- C13 (amended): in a sorted store `insertBoatSorted` puts the new boat
after the boats whose name compares below the new name and before all others;
every stored boat whose name equals the new name ignoring case therefore
comes after the new boat. -/
theorem insertBoatSorted_ties (boats : List Boat) (nb : Boat) (hs : SortedByName boats) :
    ∃ pre post, boats = pre ++ post ∧ insertBoatSorted boats nb = pre ++ nb :: post ∧
      (∀ b ∈ pre, caseInsensitiveCompare b.name nb.name < 0) ∧
      (∀ b ∈ post, 0 ≤ caseInsensitiveCompare b.name nb.name) ∧
      (∀ b ∈ boats, caseInsensitiveCompare b.name nb.name = 0 → b ∈ post) := by
  have hp : boats.Pairwise nameLe := (sortedByName_iff boats).mp hs
  have main : ∃ pre post, boats = pre ++ post ∧ insertBoatSorted boats nb = pre ++ nb :: post ∧
      (∀ b ∈ pre, caseInsensitiveCompare b.name nb.name < 0) ∧
      (∀ b ∈ post, 0 ≤ caseInsensitiveCompare b.name nb.name) := by
    clear hs
    induction boats with
    | nil => exact ⟨[], [], rfl, rfl, by simp, by simp⟩
    | cons x xs ih =>
      rw [List.pairwise_cons] at hp
      rw [insertBoatSorted_cons]
      by_cases hlt : caseInsensitiveCompare x.name nb.name < 0
      · obtain ⟨pre, post, h1, h2, h3, h4⟩ := ih hp.2
        refine ⟨x :: pre, post, by rw [h1]; rfl, by rw [if_pos hlt, h2]; rfl, ?_, h4⟩
        intro b hb
        rcases List.mem_cons.mp hb with hb | hb
        · subst hb; exact hlt
        · exact h3 b hb
      · refine ⟨[], x :: xs, rfl, by rw [if_neg hlt]; rfl, by simp, ?_⟩
        intro b hb
        have hnx : caseInsensitiveCompare nb.name x.name ≤ 0 := by
          unfold caseInsensitiveCompare at *
          rw [strcasecmp_swap]
          omega
        rcases List.mem_cons.mp hb with hb | hb
        · subst hb; omega
        · have hxb : caseInsensitiveCompare x.name b.name ≤ 0 := hp.1 b hb
          have := strcasecmp_le_trans nb.name x.name b.name hnx hxb
          unfold caseInsensitiveCompare
          rw [strcasecmp_swap]
          omega
  obtain ⟨pre, post, h1, h2, h3, h4⟩ := main
  refine ⟨pre, post, h1, h2, h3, h4, ?_⟩
  intro b hb h0
  rw [h1, List.mem_append] at hb
  rcases hb with hb | hb
  · have := h3 b hb
    omega
  · exact hb

/-- Inserting a second `ALPHA` into the sample store. -/
theorem insertBoatSorted_ties_witness :
    SortedByName sampleStore ∧
    ∃ pre post, sampleStore = pre ++ post ∧
      insertBoatSorted sampleStore { alpha with name := "ALPHA".toList } =
        pre ++ { alpha with name := "ALPHA".toList } :: post ∧
      (∀ b ∈ pre, caseInsensitiveCompare b.name "ALPHA".toList < 0) ∧
      (∀ b ∈ post, 0 ≤ caseInsensitiveCompare b.name "ALPHA".toList) ∧
      (∀ b ∈ sampleStore, caseInsensitiveCompare b.name "ALPHA".toList = 0 → b ∈ post) :=
  ⟨by decide, insertBoatSorted_ties sampleStore { alpha with name := "ALPHA".toList } (by decide)⟩

/-! ## The payload of a new boat -/

/-- What the code does for the payload: when a line of five non-empty fields
adds a boat `b` to a store with room, the payload of `b` is the arm of its
parsed type: for `SLIP` and `STORAGE` the number `atoi` reads from the fourth
field, for `LAND` the first character of the fourth field, for `TRAILOR` the
fourth field as left by `trimWhitespace`, which cuts white space at the end
only. -/
theorem payload_matches_type (boats : List Boat) (t1 t2 t3 t4 t5 : List Char)
    (h1 : t1 ≠ [] ∧ ',' ∉ t1) (h2 : t2 ≠ [] ∧ ',' ∉ t2) (h3 : t3 ≠ [] ∧ ',' ∉ t3)
    (h4 : t4 ≠ [] ∧ ',' ∉ t4) (h5 : t5 ≠ [] ∧ ',' ∉ t5) (hroom : boats.length < 120)
    (b : Boat)
    (hb : parseBoat (t1 ++ ',' :: (t2 ++ ',' :: (t3 ++ ',' :: (t4 ++ ',' :: t5)))) = some b) :
    addBoat boats (t1 ++ ',' :: (t2 ++ ',' :: (t3 ++ ',' :: (t4 ++ ',' :: t5)))) =
      insertBoatSorted boats b ∧
    b.type = getBoatTypeFromString (trimWhitespace t3) ∧
    (b.type = BoatType.SLIP → b.info = Info.slipNumber (atoi t4)) ∧
    (b.type = BoatType.STORAGE → b.info = Info.storageNumber (atoi t4)) ∧
    (b.type = BoatType.LAND → b.info = Info.bay (t4.head h4.1)) ∧
    (b.type = BoatType.TRAILOR → b.info = Info.trailerTag (trimWhitespace t4)) := by
  obtain ⟨hlen4, p5, hp5⟩ := parseBoat_five_any t1 t2 t3 t4 t5 h1 h2 h3 h4 h5.2 b hb
  have hadd : addBoat boats (t1 ++ ',' :: (t2 ++ ',' :: (t3 ++ ',' :: (t4 ++ ',' :: t5)))) =
      insertBoatSorted boats b := by
    have hnot : ¬ boats.length ≥ MAX_BOATS := by unfold MAX_BOATS; omega
    simp [addBoat, hnot, hb]
  have hfield : terminateAt (strncpy (trimWhitespace t4) MAX_LINE) (MAX_LINE - 1) =
      trimWhitespace t4 := by
    have := trimWhitespace_length_le t4
    unfold terminateAt strncpy MAX_LINE
    rw [List.take_of_length_le (l := trimWhitespace t4) (by omega),
      List.take_of_length_le (by omega)]
  have htype : b.type = getBoatTypeFromString (trimWhitespace t3) := by rw [hp5]; rfl
  have hinfo : b.info = makeInfo b.type (trimWhitespace t4) := by
    rw [hp5]
    simp only [boatOfFields, hfield]
  refine ⟨hadd, htype, ?_, ?_, ?_, ?_⟩
  · intro ht
    rw [hinfo, ht]
    simp [makeInfo, atoi_trimWhitespace]
  · intro ht
    rw [hinfo, ht]
    simp [makeInfo, atoi_trimWhitespace]
  · intro ht
    rw [hinfo, ht]
    simp only [makeInfo, trimWhitespace_headD]
    cases t4 with
    | nil => exact absurd rfl h4.1
    | cons c r => rfl
  · intro ht
    rw [hinfo, ht]
    rfl

set_option maxRecDepth 100000 in
/-- The line of Betty, added to the empty store. -/
theorem payload_matches_type_witness :
    parseBoat ("Betty".toList ++ ',' :: ("30".toList ++ ',' :: ("slip".toList ++ ',' ::
      ("2".toList ++ ',' :: "100.00".toList)))) = some betty ∧
    addBoat [] ("Betty".toList ++ ',' :: ("30".toList ++ ',' :: ("slip".toList ++ ',' ::
      ("2".toList ++ ',' :: "100.00".toList)))) = insertBoatSorted [] betty ∧
    betty.type = getBoatTypeFromString (trimWhitespace "slip".toList) ∧
    (betty.type = BoatType.SLIP → betty.info = Info.slipNumber (atoi "2".toList)) ∧
    (betty.type = BoatType.STORAGE → betty.info = Info.storageNumber (atoi "2".toList)) ∧
    (betty.type = BoatType.LAND →
      betty.info = Info.bay ("2".toList.head (by decide))) ∧
    (betty.type = BoatType.TRAILOR →
      betty.info = Info.trailerTag (trimWhitespace "2".toList)) :=
  ⟨by decide,
    payload_matches_type [] "Betty".toList "30".toList "slip".toList "2".toList "100.00".toList
      (by decide) (by decide) (by decide) (by decide) (by decide) (by decide) betty (by decide)⟩

/-- C14 (the code at the failing input): the line `Skiff,12,trailor,  TX 42 ,0`
is stored as a trailer boat whose tag is the fourth field without its trailing
blank but with its two leading blanks, not the trimmed field `TX 42`. -/
theorem parseBoat_trailer_tag_untrimmed :
    (parseBoat "Skiff,12,trailor,  TX 42 ,0".toList).map (fun b => (b.type, b.info)) =
      some (BoatType.TRAILOR, Info.trailerTag "  TX 42".toList) ∧
    (addBoat [] "Skiff,12,trailor,  TX 42 ,0".toList).map Boat.info =
      [Info.trailerTag "  TX 42".toList] ∧
    Info.trailerTag "  TX 42".toList ≠ Info.trailerTag "TX 42".toList := by
  set_option maxRecDepth 100000 in decide

/-! ## Lenient numeric fields -/

/-- C15 (as stated, refuted): the balance field `inf` does not begin with a
number, yet the boat of `Gull,7,storage,3,inf` is stored with an infinite
balance, not zero (and `nan` gives NaN); and a line of five non-empty fields
that is longer than the line buffer is not added at all. -/
theorem lenient_numeric_counterexample :
    beginsWithNumber "inf".toList = false ∧
    (addBoat [] "Gull,7,storage,3,inf".toList).map Boat.amountOwed = [Double.inf false] ∧
    Double.inf false ≠ Double.zero ∧
    beginsWithNumber "nan".toList = false ∧
    (addBoat [] "Gull,7,storage,3,nan".toList).map Boat.amountOwed = [Double.nan false] ∧
    splitFields longLine =
      [List.replicate 256 'A', "1".toList, "slip".toList, "1".toList, "1".toList] ∧
    addBoat [] longLine = [] := by
  set_option maxRecDepth 100000 in decide

/-- C15 (amended): a line of at most 255 characters with five non-empty
fields is added to a store with room whatever its numeric fields hold; a
length field that does not begin with an integer (optional white space,
optional sign, then a digit) is stored as 0, so is such a fourth field of a
slip or storage boat; a balance field that begins with neither a number
(optional white space, optional sign, then a digit or a point and a digit) nor
the words `inf` and `nan` is stored as `0.0`; a balance field that begins,
after optional white space and sign, with the word `inf` in any letter case is
stored as the infinity of that sign, and one that begins with the word `nan`
as the NaN of that sign. -/
theorem lenient_numeric_fields (boats : List Boat) (t1 t2 t3 t4 t5 : List Char)
    (h1 : t1 ≠ [] ∧ ',' ∉ t1) (h2 : t2 ≠ [] ∧ ',' ∉ t2) (h3 : t3 ≠ [] ∧ ',' ∉ t3)
    (h4 : t4 ≠ [] ∧ ',' ∉ t4) (h5 : t5 ≠ [] ∧ ',' ∉ t5)
    (hlen : (t1 ++ ',' :: (t2 ++ ',' :: (t3 ++ ',' :: (t4 ++ ',' :: t5)))).length ≤ 255)
    (hroom : boats.length < 120) :
    ∃ b, parseBoat (t1 ++ ',' :: (t2 ++ ',' :: (t3 ++ ',' :: (t4 ++ ',' :: t5)))) = some b ∧
      addBoat boats (t1 ++ ',' :: (t2 ++ ',' :: (t3 ++ ',' :: (t4 ++ ',' :: t5)))) =
        insertBoatSorted boats b ∧
      (addBoat boats (t1 ++ ',' :: (t2 ++ ',' :: (t3 ++ ',' :: (t4 ++ ',' :: t5))))).length =
        boats.length + 1 ∧
      b ∈ addBoat boats (t1 ++ ',' :: (t2 ++ ',' :: (t3 ++ ',' :: (t4 ++ ',' :: t5)))) ∧
      (beginsWithInteger t2 = false → b.length = 0) ∧
      (beginsWithInteger t4 = false → b.type = BoatType.SLIP → b.info = Info.slipNumber 0) ∧
      (beginsWithInteger t4 = false → b.type = BoatType.STORAGE →
        b.info = Info.storageNumber 0) ∧
      (beginsWithNumber t5 = false → beginsWithInfNan t5 = false →
        b.amountOwed = Double.zero) ∧
      (startsWithNoCase (takeSign (t5.dropWhile isspace)).2 "inf".toList = true →
        b.amountOwed = Double.inf (takeSign (t5.dropWhile isspace)).1) ∧
      (startsWithNoCase (takeSign (t5.dropWhile isspace)).2 "nan".toList = true →
        b.amountOwed = Double.nan (takeSign (t5.dropWhile isspace)).1) := by
  have hp := parseBoat_five_fields t1 t2 t3 t4 t5 h1 h2 h3 h4 h5 hlen
  have hadd := addBoat_five_fields boats t1 t2 t3 t4 t5 h1 h2 h3 h4 h5 hlen hroom
  have hfield : terminateAt (strncpy (trimWhitespace t4) MAX_LINE) (MAX_LINE - 1) =
      trimWhitespace t4 := by
    have := trimWhitespace_length_le t4
    simp only [List.length_append, List.length_cons] at hlen
    unfold terminateAt strncpy MAX_LINE
    rw [List.take_of_length_le (l := trimWhitespace t4) (by omega),
      List.take_of_length_le (by omega)]
  refine ⟨boatOfFields t1 t2 t3 t4 t5, hp, hadd, ?_, ?_, ?_, ?_, ?_, ?_, ?_, ?_⟩
  · rw [hadd, length_insertBoatSorted]
  · rw [hadd]
    exact mem_insertBoatSorted.mpr (Or.inl rfl)
  · intro hn
    exact atoi_zero_of_not_integer t2 hn
  · intro hn ht
    have ht' : getBoatTypeFromString (trimWhitespace t3) = BoatType.SLIP := ht
    simp only [boatOfFields, hfield, ht', makeInfo, atoi_trimWhitespace,
      atoi_zero_of_not_integer t4 hn]
  · intro hn ht
    have ht' : getBoatTypeFromString (trimWhitespace t3) = BoatType.STORAGE := ht
    simp only [boatOfFields, hfield, ht', makeInfo, atoi_trimWhitespace,
      atoi_zero_of_not_integer t4 hn]
  · intro hn hw
    exact atof_zero t5 hn hw
  · intro hw
    exact atof_inf t5 hw
  · intro hw
    exact atof_nan t5 hw

set_option maxRecDepth 100000 in
/-- The line `Gull,.5,slip,-.7,z`, none of whose numeric fields holds what its
conversion reads: the length and the slip number are stored as 0 and the
balance as `0.0`. -/
theorem lenient_numeric_fields_witness :
    ∃ b, parseBoat "Gull,.5,slip,-.7,z".toList = some b ∧
      addBoat [] "Gull,.5,slip,-.7,z".toList = insertBoatSorted [] b ∧
      (addBoat [] "Gull,.5,slip,-.7,z".toList).length = 1 ∧
      b ∈ addBoat [] "Gull,.5,slip,-.7,z".toList ∧
      b.length = 0 ∧ b.info = Info.slipNumber 0 ∧ b.amountOwed = Double.zero := by
  obtain ⟨b, hp, ha, hl, hm, c2, c4, -, c5, -, -⟩ :=
    lenient_numeric_fields [] "Gull".toList ".5".toList "slip".toList "-.7".toList "z".toList
      (by decide) (by decide) (by decide) (by decide) (by decide) (by decide) (by decide)
  have ht : b.type = BoatType.SLIP := by
    have hq : parseBoat ("Gull".toList ++ ',' :: (".5".toList ++ ',' :: ("slip".toList ++ ',' ::
        ("-.7".toList ++ ',' :: "z".toList)))) =
        some (boatOfFields "Gull".toList ".5".toList "slip".toList "-.7".toList "z".toList) := by
      decide
    rw [hq] at hp
    rw [← Option.some.inj hp]
    decide
  exact ⟨b, hp, ha, hl, hm, c2 (by decide), c4 (by decide) ht, c5 (by decide) (by decide)⟩

/-! ## Insertion keeps the stored boats -/

/-- C16 (as stated, refuted): `longLine` has five non-empty fields, but its
first 255 characters hold a single field, so adding it to the empty store adds
nothing. -/
theorem addBoat_long_line_counterexample :
    splitFields longLine =
      [List.replicate 256 'A', "1".toList, "slip".toList, "1".toList, "1".toList] ∧
    addBoat [] longLine = [] ∧
    (addBoat [] longLine).length ≠ ([] : List Boat).length + 1 := by
  set_option maxRecDepth 100000 in decide

/-- C16 (amended): for a store with fewer than 120 boats and a line of at
most 255 characters with five non-empty fields, `addBoat` makes the store one
boat longer, the new boat sits at some index `i`, and erasing index `i` from
the new store gives back the old store. -/
theorem addBoat_preserves_content (boats : List Boat) (t1 t2 t3 t4 t5 : List Char)
    (h1 : t1 ≠ [] ∧ ',' ∉ t1) (h2 : t2 ≠ [] ∧ ',' ∉ t2) (h3 : t3 ≠ [] ∧ ',' ∉ t3)
    (h4 : t4 ≠ [] ∧ ',' ∉ t4) (h5 : t5 ≠ [] ∧ ',' ∉ t5)
    (hlen : (t1 ++ ',' :: (t2 ++ ',' :: (t3 ++ ',' :: (t4 ++ ',' :: t5)))).length ≤ 255)
    (hroom : boats.length < 120) :
    ∃ i b, parseBoat (t1 ++ ',' :: (t2 ++ ',' :: (t3 ++ ',' :: (t4 ++ ',' :: t5)))) = some b ∧
      (addBoat boats (t1 ++ ',' :: (t2 ++ ',' :: (t3 ++ ',' :: (t4 ++ ',' :: t5))))).length =
        boats.length + 1 ∧
      (addBoat boats (t1 ++ ',' :: (t2 ++ ',' :: (t3 ++ ',' :: (t4 ++ ',' :: t5)))))[i]? =
        some b ∧
      (addBoat boats (t1 ++ ',' :: (t2 ++ ',' :: (t3 ++ ',' :: (t4 ++ ',' :: t5))))).eraseIdx i =
        boats := by
  have hp := parseBoat_five_fields t1 t2 t3 t4 t5 h1 h2 h3 h4 h5 hlen
  have hadd := addBoat_five_fields boats t1 t2 t3 t4 t5 h1 h2 h3 h4 h5 hlen hroom
  refine ⟨insertPos (boatOfFields t1 t2 t3 t4 t5).name boats, boatOfFields t1 t2 t3 t4 t5, hp,
    ?_, ?_, ?_⟩
  · rw [hadd, length_insertBoatSorted]
  · rw [hadd]
    exact insertBoatSorted_getElem boats _
  · rw [hadd]
    exact insertBoatSorted_eraseIdx boats _

set_option maxRecDepth 100000 in
/-- Adding the line of Alpha to a store that holds Betty. -/
theorem addBoat_preserves_content_witness :
    ∃ i b, parseBoat ("Alpha".toList ++ ',' :: ("20".toList ++ ',' :: ("land".toList ++ ',' ::
        ("B".toList ++ ',' :: "50.00".toList)))) = some b ∧
      (addBoat [betty] ("Alpha".toList ++ ',' :: ("20".toList ++ ',' :: ("land".toList ++ ',' ::
        ("B".toList ++ ',' :: "50.00".toList))))).length = [betty].length + 1 ∧
      (addBoat [betty] ("Alpha".toList ++ ',' :: ("20".toList ++ ',' :: ("land".toList ++ ',' ::
        ("B".toList ++ ',' :: "50.00".toList)))))[i]? = some b ∧
      (addBoat [betty] ("Alpha".toList ++ ',' :: ("20".toList ++ ',' :: ("land".toList ++ ',' ::
        ("B".toList ++ ',' :: "50.00".toList))))).eraseIdx i = [betty] :=
  addBoat_preserves_content [betty] "Alpha".toList "20".toList "land".toList "B".toList
    "50.00".toList (by decide) (by decide) (by decide) (by decide) (by decide) (by decide)
    (by decide)

/-- C17: two lists of lines that are rearrangements of each other, at most
120 in number, whose parsed boats have names that differ pairwise ignoring
case, give the same store when added one by one to the empty store (lines
that yield no boat add nothing in either order); `loadBoatData` is this
adding of lines, each cut at its newline. -/
theorem addLines_order_independent (l1 l2 : List (List Char)) (hperm : l1.Perm l2)
    (hlen : l1.length ≤ 120) (hd : (l1.filterMap parseBoat).Pairwise nameDiffers) :
    addLines [] l1 = addLines [] l2 ∧
    (∀ bufs : List (List Char), loadBoatData [] bufs = addLines [] (bufs.map cutNewline)) := by
  refine ⟨?_, fun bufs => loadBoatData_eq_addLines [] bufs⟩
  have hpp : (l1.filterMap parseBoat).Perm (l2.filterMap parseBoat) := hperm.filterMap _
  have hd2 : (l2.filterMap parseBoat).Pairwise nameDiffers :=
    (hpp.pairwise_iff (fun h => nameDiffers_symm h)).mp hd
  obtain ⟨p1, s1⟩ := addLines_invariant l1 [] (by simpa using hlen) List.Pairwise.nil
    (by simp) hd
  obtain ⟨p2, s2⟩ := addLines_invariant l2 [] (by simpa [← hperm.length_eq] using hlen)
    List.Pairwise.nil (by simp) hd2
  haveI : IsAntisymm Boat nameLt :=
    ⟨fun a b hab hba => by
      unfold nameLt caseInsensitiveCompare at *
      rw [strcasecmp_swap] at hba
      omega⟩
  have hperm12 : (addLines [] l1).Perm (addLines [] l2) := by
    refine p1.trans (List.Perm.trans ?_ p2.symm)
    simpa using hpp
  exact List.eq_of_perm_of_sorted hperm12 s1 s2

set_option maxRecDepth 100000 in
/-- The two lines of the worked example, in both orders. -/
theorem addLines_order_independent_witness :
    addLines [] ["Betty,30,slip,2,100.00".toList, "Alpha,20,land,B,50.00".toList] =
      addLines [] ["Alpha,20,land,B,50.00".toList, "Betty,30,slip,2,100.00".toList] ∧
    (∀ bufs : List (List Char), loadBoatData [] bufs = addLines [] (bufs.map cutNewline)) :=
  addLines_order_independent
    ["Betty,30,slip,2,100.00".toList, "Alpha,20,land,B,50.00".toList]
    ["Alpha,20,land,B,50.00".toList, "Betty,30,slip,2,100.00".toList]
    (List.Perm.swap _ _ _) (by decide)
    (by
      have e : List.filterMap parseBoat
          ["Betty,30,slip,2,100.00".toList, "Alpha,20,land,B,50.00".toList] = [betty, alpha] := by
        decide
      rw [e]
      refine List.Pairwise.cons ?_ (List.Pairwise.cons (by simp) List.Pairwise.nil)
      intro b hb
      simp only [List.mem_singleton] at hb
      subst hb
      decide)

/-! ## Frame of a payment -/

/-- C18: `acceptPayment` keeps the size of the store; without a name (end of
input) or when no boat matches the name read, the whole store is unchanged;
when index `i` is the first match, every other slot is unchanged and the boat
at `i` keeps its name, length, type and payload, so that at most its
`amountOwed` differs. -/
theorem acceptPayment_frame (boats : List Boat) (nameBuf : List Char)
    (amountInput : Option (List Char)) :
    (acceptPayment boats (some nameBuf) amountInput).length = boats.length ∧
    acceptPayment boats none amountInput = boats ∧
    ((∀ b ∈ boats, caseInsensitiveCompare b.name (readName nameBuf) ≠ 0) →
      acceptPayment boats (some nameBuf) amountInput = boats) ∧
    (∀ i, FirstMatch boats (readName nameBuf) i →
      (∀ j, j ≠ i → (acceptPayment boats (some nameBuf) amountInput)[j]? = boats[j]?) ∧
      ∃ b b', boats[i]? = some b ∧
        (acceptPayment boats (some nameBuf) amountInput)[i]? = some b' ∧
        b'.name = b.name ∧ b'.length = b.length ∧ b'.type = b.type ∧ b'.info = b.info) := by
  rcases findBoatIndexByName_cases boats (readName nameBuf) with ⟨h1, h2⟩ | ⟨k, h1, h2⟩
  · have hsame : acceptPayment boats (some nameBuf) amountInput = boats := by
      simp [acceptPayment, h1]
    refine ⟨by rw [hsame], rfl, fun _ => hsame, ?_⟩
    intro i hi
    obtain ⟨b, hb, hb0⟩ := firstMatch_mem hi
    exact absurd hb0 (h2 b hb)
  · obtain ⟨⟨b, hb, hb0⟩, hfirst⟩ := h2
    have hk : k < boats.length := (List.getElem?_eq_some_iff.mp hb).1
    have hneg : ¬ ((k : Int) < 0) := by omega
    have hcases : acceptPayment boats (some nameBuf) amountInput = boats ∨
        ∃ a, acceptPayment boats (some nameBuf) amountInput =
          boats.set k { b with amountOwed := a } := by
      cases amountInput with
      | none => left; simp [acceptPayment, h1, hb, hneg]
      | some amtStr =>
        by_cases hgt : Double.gt (atof amtStr) b.amountOwed = true
        · left; simp [acceptPayment, h1, hb, hneg, hgt]
        · right
          exact ⟨Double.sub b.amountOwed (atof amtStr), by
            simp [acceptPayment, h1, hb, hneg, hgt]⟩
    refine ⟨?_, rfl, ?_, ?_⟩
    · rcases hcases with h | ⟨a, h⟩
      · rw [h]
      · rw [h, List.length_set]
    · intro hno
      exact absurd hb0 (hno b (List.mem_iff_getElem?.mpr ⟨k, hb⟩))
    · intro i hi
      have hik : i = k := firstMatch_unique hi ⟨⟨b, hb, hb0⟩, hfirst⟩
      subst hik
      rcases hcases with h | ⟨a, h⟩
      · rw [h]
        exact ⟨fun _ _ => rfl, b, b, hb, hb, rfl, rfl, rfl, rfl⟩
      · rw [h]
        refine ⟨?_, b, { b with amountOwed := a }, hb, ?_, rfl, rfl, rfl, rfl⟩
        · intro j hj
          rw [List.getElem?_set]
          simp [Ne.symm hj]
        · rw [List.getElem?_set]
          simp [hk]

set_option maxRecDepth 100000 in
/-- A payment for Betty in the sample store, and one for a name that is not
there. -/
theorem acceptPayment_frame_witness :
    acceptPayment sampleStore (some "Carla\n".toList) (some "40.00\n".toList) = sampleStore ∧
    (∀ j, j ≠ 1 →
      (acceptPayment sampleStore (some "Betty\n".toList) (some "40.00\n".toList))[j]? =
        sampleStore[j]?) ∧
    ∃ b b', sampleStore[1]? = some b ∧
      (acceptPayment sampleStore (some "Betty\n".toList) (some "40.00\n".toList))[1]? =
        some b' ∧
      b'.name = b.name ∧ b'.length = b.length ∧ b'.type = b.type ∧ b'.info = b.info :=
  have hm : FirstMatch sampleStore (readName "Betty\n".toList) 1 :=
    ⟨⟨betty, rfl, by decide⟩, by
      intro j b hj hb
      interval_cases j
      simp [sampleStore] at hb
      subst hb
      decide⟩
  ⟨(acceptPayment_frame sampleStore "Carla\n".toList (some "40.00\n".toList)).2.2.1 (by decide),
    (acceptPayment_frame sampleStore "Betty\n".toList (some "40.00\n".toList)).2.2.2 1 hm⟩

/-! ## Empty fields -/

/-- C19: for a line shorter than 256 characters, `addBoat` does the same on
the line and on the line with its empty fields deleted; the line
`A,,slip,3,10.00`, with five fields of which one is empty, adds no boat. -/
theorem addBoat_deleteEmptyFields (boats : List Boat) (line : List Char)
    (hlen : line.length < 256) :
    addBoat boats (deleteEmptyFields line) = addBoat boats line ∧
    splitFields "A,,slip,3,10.00".toList =
      ["A".toList, [], "slip".toList, "3".toList, "10.00".toList] ∧
    deleteEmptyFields "A,,slip,3,10.00".toList = "A,slip,3,10.00".toList ∧
    addBoat boats "A,,slip,3,10.00".toList = boats := by
  refine ⟨?_, by decide, by decide, ?_⟩
  · unfold addBoat
    rw [parseBoat_deleteEmptyFields line hlen]
  · have hp : parseBoat "A,,slip,3,10.00".toList = none := by decide
    unfold addBoat
    rw [hp]
    simp

set_option maxRecDepth 100000 in
/-- A line with a leading comma, a run of commas and a trailing comma. -/
theorem addBoat_deleteEmptyFields_witness :
    ",Betty,,,30,slip,2,100.00,".toList.length < 256 ∧
    deleteEmptyFields ",Betty,,,30,slip,2,100.00,".toList = "Betty,30,slip,2,100.00".toList ∧
    addBoat [alpha] (deleteEmptyFields ",Betty,,,30,slip,2,100.00,".toList) =
      addBoat [alpha] ",Betty,,,30,slip,2,100.00,".toList ∧
    splitFields "A,,slip,3,10.00".toList =
      ["A".toList, [], "slip".toList, "3".toList, "10.00".toList] ∧
    deleteEmptyFields "A,,slip,3,10.00".toList = "A,slip,3,10.00".toList ∧
    addBoat [alpha] "A,,slip,3,10.00".toList = [alpha] :=
  ⟨by decide, by decide,
    addBoat_deleteEmptyFields [alpha] ",Betty,,,30,slip,2,100.00,".toList (by decide)⟩

/-! ## The size of the store -/

/-- C20: in every store reached from the empty one the number of boats is at
most 120; hence every slot written by `insertBoatSorted`, which `addBoat`
calls only below 120 boats, and every slot read by `removeBoat` once it has
found an index, lies below 120. -/
theorem run_bounded (ops : List Op) :
    (run [] ops).length ≤ MAX_BOATS ∧
    (∀ newBoat : Boat, (run [] ops).length < MAX_BOATS →
      ∀ i ∈ insertWrites (run [] ops) newBoat, i < MAX_BOATS) ∧
    (∀ name : List Char, 0 ≤ findBoatIndexByName (run [] ops) name →
      ∀ i ∈ removeReads (run [] ops) (findBoatIndexByName (run [] ops) name).toNat,
        i < MAX_BOATS) := by
  have hbound := length_run_le ops [] (by simp [MAX_BOATS])
  refine ⟨hbound, ?_, ?_⟩
  · intro newBoat hroom i hi
    have hpos := insertPos_le newBoat.name (run [] ops)
    simp only [insertWrites, List.mem_append, List.mem_filter, List.mem_range,
      List.mem_singleton] at hi
    rcases hi with ⟨hi, -⟩ | hi
    · omega
    · omega
  · intro name hfound i hi
    rcases findBoatIndexByName_cases (run [] ops) name with ⟨h1, -⟩ | ⟨k, h1, h2⟩
    · rw [h1] at hfound
      omega
    · have hk := firstMatch_lt h2
      rw [h1] at hi
      simp only [removeReads, Int.toNat_ofNat, List.mem_cons, List.mem_map, List.mem_filter,
        List.mem_range, Bool.and_eq_true, decide_eq_true_eq] at hi
      rcases hi with hi | ⟨j, ⟨-, -, hj⟩, hji⟩
      · omega
      · omega

set_option maxRecDepth 100000 in
/-- The store after the two additions of the worked example: its size, the
slots an insertion of Betty would write and the slots a removal of Alpha
reads. -/
theorem run_bounded_witness :
    (run [] [Op.add "Betty,30,slip,2,100.00".toList, Op.add "Alpha,20,land,B,50.00".toList]).length
      ≤ MAX_BOATS ∧
    insertWrites
      (run [] [Op.add "Betty,30,slip,2,100.00".toList, Op.add "Alpha,20,land,B,50.00".toList])
      betty = [2, 1] ∧
    (∀ i ∈ insertWrites
      (run [] [Op.add "Betty,30,slip,2,100.00".toList, Op.add "Alpha,20,land,B,50.00".toList])
      betty, i < MAX_BOATS) ∧
    removeReads
      (run [] [Op.add "Betty,30,slip,2,100.00".toList, Op.add "Alpha,20,land,B,50.00".toList])
      0 = [0, 1] ∧
    (∀ i ∈ removeReads
      (run [] [Op.add "Betty,30,slip,2,100.00".toList, Op.add "Alpha,20,land,B,50.00".toList])
      (findBoatIndexByName
        (run [] [Op.add "Betty,30,slip,2,100.00".toList, Op.add "Alpha,20,land,B,50.00".toList])
        "alpha".toList).toNat, i < MAX_BOATS) :=
  ⟨(run_bounded
      [Op.add "Betty,30,slip,2,100.00".toList, Op.add "Alpha,20,land,B,50.00".toList]).1,
    by decide,
    (run_bounded
      [Op.add "Betty,30,slip,2,100.00".toList, Op.add "Alpha,20,land,B,50.00".toList]).2.1
      betty (by decide),
    by decide,
    (run_bounded
      [Op.add "Betty,30,slip,2,100.00".toList, Op.add "Alpha,20,land,B,50.00".toList]).2.2
      "alpha".toList (by decide)⟩

end BoatManagement
